import Mathlib

/-!
# BPHKinematicFit: a shallow embedding of the fit orchestration layer

Source: `HeavyFlavorAnalysis/RecoDecay/src/BPHKinematicFit.cc`.

Conventions of the embedding.

* `double` and `float` values are rationals: comparisons with `0` and sums are
  exact, NaN and rounding are outside the model.
* Pointers are natural numbers naming an object; a nullable pointer is an
  `Option`.  A reference-counted kinematic particle carries the address `ptr`
  of the object it points to, and containers that compare such pointers
  compare `ptr`.
* The C++ object is a record of its fields (`BPHKinematicFit`); a member
  function takes the record and returns the updated record next to its
  result.  `mutable` fields changed by `const` members are ordinary fields.
* The vertex and mass-constraint fitters, the particle factory and the square
  root are parameters (`Fitters`).  A fitter either returns a tree or throws.
* Dereferencing the end iterator of a map has no defined result.  Functions
  that can do so return an `Option`, `none` standing for "no defined
  behaviour".
* `trace` records, newest first, what a call does that is visible from
  outside the object: the diagnostics it prints and the fitter calls it
  makes, together with the entries into `buildParticles` and into the two
  fit entry points.
-/

namespace BPH

/-! ## Collaborating types -/

/-- Modelled from the spec: the four-vector `math::XYZTLorentzVector`, declared
outside this file, with components `(px, py, pz, E)`. -/
structure XYZTLorentzVector where
  px : ℚ
  py : ℚ
  pz : ℚ
  e : ℚ
deriving DecidableEq

/-- Default-constructed four-vector. -/
def XYZTLorentzVector.zero : XYZTLorentzVector := ⟨0, 0, 0, 0⟩

/-- Component-wise sum, the `+=` of the four-vector. -/
def XYZTLorentzVector.add (a b : XYZTLorentzVector) : XYZTLorentzVector :=
  ⟨a.px + b.px, a.py + b.py, a.pz + b.pz, a.e + b.e⟩

/-- Modelled from the spec: a leaf daughter `const reco::Candidate*`, declared
outside this file: the pointer (the spec's identity-comparable handle) and what
the code reads through it (`mass()`, `p4()`). -/
structure Candidate where
  ptr : Nat
  mass : ℚ
  p4 : XYZTLorentzVector
deriving DecidableEq

/-- Modelled from the spec: the part of the absent `KinematicState` the code
reads, `isValid()`, `mass()` and the three components of `globalMomentum()`. -/
structure KinematicState where
  isValid : Bool
  mass : ℚ
  px : ℚ
  py : ℚ
  pz : ℚ
deriving DecidableEq

/-- Modelled from the spec: a `RefCountedKinematicParticle` (declared outside
this file) that is not null: the address of the particle object, the arguments
the factory was given, and the current state. -/
structure KinematicParticle where
  ptr : Nat
  track : Nat
  mass : ℚ
  chi : ℚ
  ndf : ℚ
  sigma : ℚ
  currentState : KinematicState
deriving DecidableEq

/-- Modelled from the spec: a `KinematicTree` object (declared outside this
file): whether it is empty, its top particle and decay vertex, and the particle
and vertex under the cursor. -/
structure KinematicTree where
  isEmpty : Bool
  topParticle : KinematicParticle
  topDecayVertex : Nat
  currentParticle : KinematicParticle
  currentDecayVertex : Nat
deriving DecidableEq

/-- The call `movePointerToTheTop()`: the cursor goes to the top of the tree. -/
def KinematicTree.movePointerToTheTop (t : KinematicTree) : KinematicTree :=
  { t with currentParticle := t.topParticle, currentDecayVertex := t.topDecayVertex }

/-- Modelled from the spec: the constraint classes, declared outside this file,
that derive from `KinematicConstraint`, the argument type of the two-stage
entry point.  `MassKinematicConstraint(mass, sigma)` is the one the code
builds; `other` stands for any constraint a caller supplies. -/
inductive KinematicConstraint where
  | MassKinematicConstraint (mc : ℚ) (sigma : ℚ)
  | other (tag : Nat)
deriving DecidableEq

/-- Modelled from the spec: the constraint classes, declared outside this file,
that derive from `MultiTrackKinematicConstraint`, the argument type of the
constrained-vertex entry point.  The two the code builds are
`TwoTrackMassKinematicConstraint(mass)` and
`MultiTrackMassKinematicConstraint(mass, nPart)`; `other` stands for any
constraint a caller supplies. -/
inductive MultiTrackKinematicConstraint where
  | TwoTrackMassKinematicConstraint (mc : ℚ)
  | MultiTrackMassKinematicConstraint (mc : ℚ) (nPart : Nat)
  | other (tag : Nat)
deriving DecidableEq

/-- Outcome of a fitter call: a tree, or an exception derived from
`std::exception`. -/
inductive FitResult where
  | tree (t : KinematicTree)
  | raise
deriving DecidableEq

/-- Modelled from the spec: the fit-solver collaborator and the other external
numerical services, taken as parameters.
`vertexFit` is `KinematicParticleVertexFitter::fit`, `constrainedFit` is
`KinematicParticleFitter::fit`, `constrainedVertexFit` is
`KinematicConstrainedVertexFitter::fit`, `particleState` gives the state of the
particle `KinematicParticleFactoryFromTransientTrack::particle` builds from
`(track, mass, chi, ndf, sigma)`, and `sqrt` is the square root on doubles. -/
structure Fitters where
  vertexFit : List KinematicParticle → FitResult
  constrainedFit : KinematicConstraint → KinematicTree → FitResult
  constrainedVertexFit :
    List KinematicParticle → Option MultiTrackKinematicConstraint → FitResult
  particleState : Nat → ℚ → ℚ → ℚ → ℚ → KinematicState
  sqrt : ℚ → ℚ

/-- What a call does that is visible from outside the object. -/
inductive Event where
  | buildParticles
  | fitEntryKC (name : String) (kc : Option KinematicConstraint)
  | fitEntryMT (name : String) (kc : Option MultiTrackKinematicConstraint)
  | vertexFit (ps : List KinematicParticle)
  | constrainedFit (kc : KinematicConstraint) (t : KinematicTree)
  | constrainedVertexFit (ps : List KinematicParticle)
      (kc : Option MultiTrackKinematicConstraint)
  | logParticleNotFound (text : String)
  | logFitFailed
  | logFitNotFound
deriving DecidableEq

/-- Modelled from the spec: a `BPHRecoCandidate` used as a composite daughter,
as far as this file reads it.  `daughters()`, `daugNames()`, `daughComp()` and
`getTransientTrack` (`none` is the null pointer) are members of base classes
declared outside this file; `dMSig` is the map of this class; `p4` is the value
the `p4()` of the composite returns, the composite being another object whose
caches are not part of the state of this one. -/
inductive BPHRecoCandidate where
  | mk (daughters : List Candidate) (daugNames : List String)
      (dMSig : List (Nat × ℚ)) (getTransientTrack : Nat → Option Nat)
      (p4 : XYZTLorentzVector) (daughComp : List BPHRecoCandidate)

namespace BPHRecoCandidate

/-- Accessor `daughters()`. -/
def daughters : BPHRecoCandidate → List Candidate
  | .mk d _ _ _ _ _ => d

/-- Accessor `daugNames()`. -/
def daugNames : BPHRecoCandidate → List String
  | .mk _ n _ _ _ _ => n

/-- The map `dMSig`. -/
def dMSig : BPHRecoCandidate → List (Nat × ℚ)
  | .mk _ _ m _ _ _ => m

/-- Member `getTransientTrack`. -/
def getTransientTrack : BPHRecoCandidate → Nat → Option Nat
  | .mk _ _ _ g _ _ => g

/-- Value of `p4()` on a composite daughter. -/
def p4 : BPHRecoCandidate → XYZTLorentzVector
  | .mk _ _ _ _ p _ => p

/-- Accessor `daughComp()`. -/
def daughComp : BPHRecoCandidate → List BPHRecoCandidate
  | .mk _ _ _ _ _ c => c

end BPHRecoCandidate

/-! ## Particle building -/

/-- The three containers `addParticles` fills (`kl`, `km`, `cm`) and the
address the next particle object gets. -/
structure Build where
  kl : List KinematicParticle
  km : List (Nat × KinematicParticle)
  cm : List (Nat × KinematicParticle)
  next : Nat
deriving DecidableEq

/-- Assignment `m[k] = v` on a `std::map`: the entry of `k` is replaced, or
added when there is none. -/
def mapAssign {β : Type} (m : List (Nat × β)) (k : Nat) (v : β) : List (Nat × β) :=
  (k, v) :: m.filter (fun kv => kv.1 != k)

/-- Lookup `m.find(k)`, `none` for the end iterator. -/
def mapFind {β : Type} (m : List (Nat × β)) (k : Nat) : Option β :=
  (m.find? (fun kv => kv.1 == k)).map (fun kv => kv.2)

/-- Insertion `m.insert(k, v)` on a `std::map`: an existing entry is kept. -/
def mapInsert {β : Type} (m : List (Nat × β)) (k : Nat) (v : β) : List (Nat × β) :=
  match mapFind m k with
  | some _ => m
  | none => m ++ [(k, v)]

/-- One pass of the first loop of `addParticles` (lines 398-405) for the
daughter `cand`.  `dMSig.find(cand)->second` has no defined value when `cand`
has no entry. -/
def addLeaf (fit : Fitters) (dMSig : List (Nat × ℚ)) (getTT : Nat → Option Nat)
    (cand : Candidate) (b : Build) : Option Build :=
  match mapFind dMSig cand.ptr with
  | none => none
  | some s =>
    let sigma : ℚ := if s < 0 then 1 / 10000000 else s
    match getTT cand.ptr with
    | none => some b
    | some tt =>
      let p : KinematicParticle :=
        ⟨b.next, tt, cand.mass, 0, 0, sigma, fit.particleState tt cand.mass 0 0 sigma⟩
      some { b with kl := b.kl ++ [p], km := mapAssign b.km cand.ptr p, next := b.next + 1 }

/-- The loop `while (n--)` over `daughters()`: the last daughter first. -/
def addLeaves (fit : Fitters) (dMSig : List (Nat × ℚ)) (getTT : Nat → Option Nat) :
    List Candidate → Build → Option Build
  | [], b => some b
  | cand :: rest, b => (addLeaves fit dMSig getTT rest b).bind (addLeaf fit dMSig getTT cand)

mutual
/-- Member `addParticles` (lines 389-414): own leaf daughters from the last
to the first, then the composite daughters from the last to the first. -/
def BPHRecoCandidate.addParticles (fit : Fitters) : BPHRecoCandidate → Build → Option Build
  | .mk daug _ dMSig getTT _ comp, b =>
    (addLeaves fit dMSig getTT daug b).bind (addCompParticles fit comp)
/-- The loop `while (m--)` over `daughComp()`: the last composite first. -/
def addCompParticles (fit : Fitters) : List BPHRecoCandidate → Build → Option Build
  | [], b => some b
  | c :: rest, b => (addCompParticles fit rest b).bind (c.addParticles fit)
end

mutual
/-- Modelled from the spec: `daughFull()` of the absent `BPHDecayMomentum`,
the flattened list of leaf daughters of a candidate (its own daughters and
those of every composite daughter, recursively); the code uses its size as
"the expected full daughter count". -/
def BPHRecoCandidate.daughFull : BPHRecoCandidate → List Candidate
  | .mk daug _ _ _ _ comp => daug ++ daughFullComp comp
/-- Flattened leaf daughters of a list of composite daughters. -/
def daughFullComp : List BPHRecoCandidate → List Candidate
  | [] => []
  | c :: rest => c.daughFull ++ daughFullComp rest
end

/-! ## The object and its members -/

/-- The fields of a `BPHKinematicFit` object.  `cand`, `getDaug` and `getComp`
are the inherited part: the daughters, the composite daughters, the map
`dMSig` and the track lookup of this object (the field `p4` of `cand` is not
read for the object itself), and the two name resolvers `getDaug(name)` and
`getComp(name)` of the base class, which is declared outside this file: they
are taken as given functions, `none` being the null pointer.  `nextPtr` is the address the next particle
object gets and `trace` the events so far, newest first. -/
structure BPHKinematicFit where
  cand : BPHRecoCandidate
  getDaug : String → Option Nat
  getComp : String → Option BPHRecoCandidate
  massConst : ℚ
  massSigma : ℚ
  oldKPs : Bool
  oldFit : Bool
  oldMom : Bool
  kinTree : Option KinematicTree
  allParticles : List KinematicParticle
  kinMap : List (Nat × KinematicParticle)
  kCDMap : List (Nat × KinematicParticle)
  totalMomentum : XYZTLorentzVector
  nextPtr : Nat
  trace : List Event

namespace BPHKinematicFit

/-- What both constructors (lines 39-76) initialise, for the inherited part
the base-class constructor and the body have set up. -/
def construct (cand : BPHRecoCandidate) (getDaug : String → Option Nat)
    (getComp : String → Option BPHRecoCandidate) : BPHKinematicFit :=
  { cand := cand, getDaug := getDaug, getComp := getComp,
    massConst := -1, massSigma := -1,
    oldKPs := true, oldFit := true, oldMom := true,
    kinTree := none, allParticles := [], kinMap := [], kCDMap := [],
    totalMomentum := XYZTLorentzVector.zero, nextPtr := 0, trace := [] }

/-- The default constructor `BPHKinematicFit()`: no daughters. -/
def default : BPHKinematicFit :=
  construct (.mk [] [] [] (fun _ => none) XYZTLorentzVector.zero [])
    (fun _ => none) (fun _ => none)

/-- Member `setConstraint` (lines 87-92). -/
def setConstraint (s : BPHKinematicFit) (mass sigma : ℚ) : BPHKinematicFit :=
  { s with oldFit := true, oldMom := true, massConst := mass, massSigma := sigma }

/-- Member `constrMass` (line 95). -/
def constrMass (s : BPHKinematicFit) : ℚ := s.massConst

/-- Member `constrSigma` (line 97). -/
def constrSigma (s : BPHKinematicFit) : ℚ := s.massSigma

/-- Member `resetKinematicFit` (lines 276-279). -/
def resetKinematicFit (s : BPHKinematicFit) : BPHKinematicFit :=
  { s with oldKPs := true, oldFit := true, oldMom := true }

/-- Member `getMassSigma` (lines 341-344). -/
def getMassSigma (s : BPHKinematicFit) (cand : Nat) : ℚ :=
  match mapFind s.cand.dMSig cand with
  | some v => v
  | none => -1

/-- Member `buildParticles` (lines 379-387). -/
def buildParticles (fit : Fitters) (s : BPHKinematicFit) : Option BPHKinematicFit :=
  match s.cand.addParticles fit ⟨[], [], [], s.nextPtr⟩ with
  | none => none
  | some b =>
    some { s with allParticles := b.kl, kinMap := b.km, kCDMap := b.cm,
                  nextPtr := b.next, oldKPs := false,
                  trace := Event.buildParticles :: s.trace }

/-- Member `kinParticles()` (lines 100-104). -/
def kinParticles (fit : Fitters) (s : BPHKinematicFit) :
    Option (List KinematicParticle × BPHKinematicFit) :=
  if s.oldKPs then
    match buildParticles fit s with
    | none => none
    | some s1 => some (s1.allParticles, s1)
  else some (s.allParticles, s)

/-- The diagnostic of line 140. -/
def notFoundParticle (pname : String) : Event :=
  Event.logParticleNotFound ("BPHKinematicFit::kinParticles: " ++ pname ++ " not found")

/-- The diagnostic of lines 193 and 252. -/
def notFoundDaughter (name : String) : Event :=
  Event.logParticleNotFound ("BPHKinematicFit::kinematicTree: " ++ name ++ " daughter not found")

/-- The local state of the loop of `kinParticles(names)`: the result list,
the addresses in `pset`, and the diagnostics printed, newest first. -/
structure Selection where
  plist : List KinematicParticle
  pset : List Nat
  log : List Event

/-- The body shared by both branches (lines 124-127 and 135-138): skip a
particle already in `pset`, otherwise append it and record it. -/
def Selection.push (sel : Selection) (kp : KinematicParticle) : Selection :=
  if sel.pset.contains kp.ptr then sel
  else { sel with plist := sel.plist ++ [kp], pset := kp.ptr :: sel.pset }

/-- The loop over `names` (lines 118-142).  `rev` is `allParticles` read from
index `m - 1` down to `0`. -/
def selectNames (getDaug : String → Option Nat) (kinMap : List (Nat × KinematicParticle))
    (rev : List KinematicParticle) : List String → Selection → Selection
  | [], sel => sel
  | pname :: rest, sel =>
    if pname = "*" then rev.foldl Selection.push sel
    else
      match (getDaug pname).bind (mapFind kinMap) with
      | some kp => selectNames getDaug kinMap rev rest (sel.push kp)
      | none =>
        selectNames getDaug kinMap rev rest
          { sel with log := notFoundParticle pname :: sel.log }

/-- Member `kinParticles(names)` (lines 106-144). -/
def kinParticlesNames (fit : Fitters) (s : BPHKinematicFit) (names : List String) :
    Option (List KinematicParticle × BPHKinematicFit) :=
  match (if s.oldKPs then buildParticles fit s else some s) with
  | none => none
  | some s1 =>
    let m := s1.cand.daughFull.length
    if s1.allParticles.length ≠ m then some ([], s1)
    else
      let sel := selectNames s1.getDaug s1.kinMap (s1.allParticles.take m).reverse names
        ⟨[], [], []⟩
      some (sel.plist, { s1 with trace := sel.log ++ s1.trace })

/-- The list `nfull` (lines 196-202 and 255-260): `name/n` for each declared
daughter name `n` of the composite, then `"*"`. -/
def nfull (name : String) (names : List String) : List String :=
  names.map (fun n => name ++ "/" ++ n) ++ ["*"]

/-- The handler of `catch (std::exception const&)` (lines 233-237 and
267-271). -/
def fitFailed (s : BPHKinematicFit) : Option KinematicTree × BPHKinematicFit :=
  (none, { s with kinTree := none, trace := Event.logFitFailed :: s.trace })

/-- Lines 223-232 of the two-stage fit, after the component fit and the
optional constrained fit have given the non-empty tree `compTree`. -/
def fitTail (fit : Fitters) (s : BPHKinematicFit) (kTail : List KinematicParticle)
    (compTree : KinematicTree) : Option KinematicTree × BPHKinematicFit :=
  let compTree := compTree.movePointerToTheTop
  if kTail ≠ [] then
    let compPart := compTree.currentParticle
    if !compPart.currentState.isValid then (s.kinTree, s)
    else
      let kTail := kTail ++ [compPart]
      let s1 := { s with trace := Event.vertexFit kTail :: s.trace }
      match fit.vertexFit kTail with
      | .raise => fitFailed s1
      | .tree t => (some t, { s1 with kinTree := some t })
  else (some compTree, { s with kinTree := some compTree })

/-- The `try` block of the two-stage fit (lines 212-238) on the component
list `kComp` and the tail list `kTail`. -/
def fitComponent (fit : Fitters) (s : BPHKinematicFit) (kc : Option KinematicConstraint)
    (kComp kTail : List KinematicParticle) : Option KinematicTree × BPHKinematicFit :=
  let s1 := { s with trace := Event.vertexFit kComp :: s.trace }
  match fit.vertexFit kComp with
  | .raise => fitFailed s1
  | .tree compTree =>
    if compTree.isEmpty then (s1.kinTree, s1)
    else
      match kc with
      | none => fitTail fit s1 kTail compTree
      | some c =>
        let s2 := { s1 with trace := Event.constrainedFit c compTree :: s1.trace }
        match fit.constrainedFit c compTree with
        | .raise => fitFailed s2
        | .tree t =>
          if t.isEmpty then (s2.kinTree, s2)
          else fitTail fit s2 kTail t

/-- Member `kinematicTree(name, KinematicConstraint*)` (lines 182-239).
Taking `ns` elements from a list shorter than `ns` (line 205) has no defined
result. -/
def kinematicTreeKC (fit : Fitters) (s : BPHKinematicFit) (name : String)
    (kc : Option KinematicConstraint) : Option (Option KinematicTree × BPHKinematicFit) :=
  let s0 := { s with kinTree := none, oldFit := false,
                     trace := Event.fitEntryKC name kc :: s.trace }
  match kinParticles fit s0 with
  | none => none
  | some (_, s1) =>
    if s1.allParticles.length ≠ s1.cand.daughFull.length then some (s1.kinTree, s1)
    else if name ≠ "" then
      match s1.getComp name with
      | none =>
        some (s1.kinTree,
          { s1 with trace := notFoundDaughter name :: s1.trace })
      | some comp =>
        let names := comp.daugNames
        let ns := names.length
        match kinParticlesNames fit s1 (nfull name names) with
        | none => none
        | some (kPart, s2) =>
          if kPart.length < ns then none
          else some (fitComponent fit s2 kc (kPart.take ns) (kPart.drop ns))
    else some (fitComponent fit s1 kc s1.allParticles [])

/-- Member `kinematicTree(name, MultiTrackKinematicConstraint*)` (lines
241-273). -/
def kinematicTreeMT (fit : Fitters) (s : BPHKinematicFit) (name : String)
    (kc : Option MultiTrackKinematicConstraint) :
    Option (Option KinematicTree × BPHKinematicFit) :=
  let s0 := { s with kinTree := none, oldFit := false,
                     trace := Event.fitEntryMT name kc :: s.trace }
  match kinParticles fit s0 with
  | none => none
  | some (_, s1) =>
    if s1.allParticles.length ≠ s1.cand.daughFull.length then some (s1.kinTree, s1)
    else
      let names : Option (List String) :=
        if name ≠ "" then (s1.getComp name).map (fun comp => nfull name comp.daugNames)
        else some ["*"]
      match names with
      | none =>
        some (s1.kinTree,
          { s1 with trace := notFoundDaughter name :: s1.trace })
      | some nf =>
        match kinParticlesNames fit s1 nf with
        | none => none
        | some (kPart, s2) =>
          let s3 := { s2 with trace := Event.constrainedVertexFit kPart kc :: s2.trace }
          match fit.constrainedVertexFit kPart kc with
          | .raise => some (fitFailed s3)
          | .tree t => some (some t, { s3 with kinTree := some t })

/-- Member `kinematicTree(name)` (lines 177-180). -/
def kinematicTreeName (fit : Fitters) (s : BPHKinematicFit) (name : String) :
    Option (Option KinematicTree × BPHKinematicFit) :=
  kinematicTreeKC fit s name none

/-- Member `kinematicTree(name, mass)` (lines 163-175).  Both constraints
built here derive from `MultiTrackKinematicConstraint`, so the calls resolve
to the constrained-vertex entry point. -/
def kinematicTreeMass (fit : Fitters) (s : BPHKinematicFit) (name : String) (mass : ℚ) :
    Option (Option KinematicTree × BPHKinematicFit) :=
  if mass < 0 then kinematicTreeName fit s name
  else
    let nn := s.cand.daughFull.length
    if nn = 2 then
      kinematicTreeMT fit s name
        (some (MultiTrackKinematicConstraint.TwoTrackMassKinematicConstraint mass))
    else
      kinematicTreeMT fit s name
        (some (MultiTrackKinematicConstraint.MultiTrackMassKinematicConstraint mass nn))

/-- Member `kinematicTree(name, mass, sigma)` (lines 153-161).
`MassKinematicConstraint` derives from `KinematicConstraint`, so the last call
resolves to the two-stage entry point. -/
def kinematicTreeMassSigma (fit : Fitters) (s : BPHKinematicFit) (name : String)
    (mass sigma : ℚ) : Option (Option KinematicTree × BPHKinematicFit) :=
  if mass < 0 then kinematicTreeName fit s name
  else if sigma < 0 then kinematicTreeMass fit s name mass
  else
    kinematicTreeKC fit s name
      (some (KinematicConstraint.MassKinematicConstraint mass sigma))

/-- Member `kinematicTree()` (lines 147-151). -/
def kinematicTree (fit : Fitters) (s : BPHKinematicFit) :
    Option (Option KinematicTree × BPHKinematicFit) :=
  if s.oldFit then kinematicTreeMassSigma fit s "" s.massConst s.massSigma
  else some (s.kinTree, s)

/-- Member `isEmpty` (lines 282-287). -/
def isEmpty (fit : Fitters) (s : BPHKinematicFit) : Option (Bool × BPHKinematicFit) :=
  match kinematicTree fit s with
  | none => none
  | some (_, s1) =>
    match s1.kinTree with
    | none => some (true, s1)
    | some t => some (t.isEmpty, s1)

/-- Member `currentParticle` (lines 297-301); `none` in the result is the
null pointer. -/
def currentParticle (fit : Fitters) (s : BPHKinematicFit) :
    Option (Option KinematicParticle × BPHKinematicFit) :=
  match isEmpty fit s with
  | none => none
  | some (true, s1) => some (none, s1)
  | some (false, s1) =>
    match s1.kinTree with
    | none => none
    | some t => some (some t.currentParticle, s1)

/-- Member `currentDecayVertex` (lines 303-307). -/
def currentDecayVertex (fit : Fitters) (s : BPHKinematicFit) :
    Option (Option Nat × BPHKinematicFit) :=
  match isEmpty fit s with
  | none => none
  | some (true, s1) => some (none, s1)
  | some (false, s1) =>
    match s1.kinTree with
    | none => none
    | some t => some (some t.currentDecayVertex, s1)

/-- Member `topParticle` (lines 310-314). -/
def topParticle (fit : Fitters) (s : BPHKinematicFit) :
    Option (Option KinematicParticle × BPHKinematicFit) :=
  match isEmpty fit s with
  | none => none
  | some (true, s1) => some (none, s1)
  | some (false, s1) =>
    match s1.kinTree with
    | none => none
    | some t => some (some t.topParticle, s1)

/-- Member `topDecayVertex` (lines 316-321): the cursor of the cached tree is
moved to the top. -/
def topDecayVertex (fit : Fitters) (s : BPHKinematicFit) :
    Option (Option Nat × BPHKinematicFit) :=
  match isEmpty fit s with
  | none => none
  | some (true, s1) => some (none, s1)
  | some (false, s1) =>
    match s1.kinTree with
    | none => none
    | some t =>
      let t1 := t.movePointerToTheTop
      some (some t1.currentDecayVertex, { s1 with kinTree := some t1 })

/-- Member `isValidFit` (lines 289-294). -/
def isValidFit (fit : Fitters) (s : BPHKinematicFit) : Option (Bool × BPHKinematicFit) :=
  match topParticle fit s with
  | none => none
  | some (none, s1) => some (false, s1)
  | some (some kPart, s1) => some (kPart.currentState.isValid, s1)

/-- Member `mass` (lines 323-331). -/
def mass (fit : Fitters) (s : BPHKinematicFit) : Option (ℚ × BPHKinematicFit) :=
  match topParticle fit s with
  | none => none
  | some (none, s1) => some (-1, s1)
  | some (some kPart, s1) =>
    let kStat := kPart.currentState
    if kStat.isValid then some (kStat.mass, s1) else some (-1, s1)

/-- The loops `while (n--) tm += v[n]` of lines 432-437 on the values to add:
the last one first. -/
def sumFromLast : List XYZTLorentzVector → XYZTLorentzVector → XYZTLorentzVector
  | [], tm => tm
  | v :: rest, tm => (sumFromLast rest tm).add v

/-- The momentum of lines 418-425 for the state `ks` of the top particle. -/
def momentumOfState (fit : Fitters) (ks : KinematicState) : XYZTLorentzVector :=
  let x := ks.px
  let y := ks.py
  let z := ks.pz
  let m := ks.mass
  let e := fit.sqrt ((x * x) + (y * y) + (z * z) + (m * m))
  ⟨x, y, z, e⟩

/-- The momentum of lines 429-437: the sum over the leaf daughters, then over
the composite daughters. -/
def simpleMomentumSum (cand : BPHRecoCandidate) : XYZTLorentzVector :=
  let tm := sumFromLast (cand.daughters.map (fun d => d.p4)) XYZTLorentzVector.zero
  sumFromLast (cand.daughComp.map (fun c => c.p4)) tm

/-- Member `fitMomentum` (lines 416-442).  `topParticle()->currentState()` has
no defined result when `topParticle()` is null. -/
def fitMomentum (fit : Fitters) (s : BPHKinematicFit) : Option BPHKinematicFit :=
  match isValidFit fit s with
  | none => none
  | some (true, s1) =>
    match topParticle fit s1 with
    | none => none
    | some (none, _) => none
    | some (some top, s2) =>
      some { s2 with totalMomentum := momentumOfState fit top.currentState, oldMom := false }
  | some (false, s1) =>
    some { s1 with totalMomentum := simpleMomentumSum s1.cand, oldMom := false,
                   trace := Event.logFitNotFound :: s1.trace }

/-- Member `p4` (lines 334-338). -/
def p4 (fit : Fitters) (s : BPHKinematicFit) : Option (XYZTLorentzVector × BPHKinematicFit) :=
  if s.oldMom then
    match fitMomentum fit s with
    | none => none
    | some s1 => some (s1.totalMomentum, s1)
  else some (s.totalMomentum, s)

end BPHKinematicFit

/-! ## Sample data -/

/-- A valid state of mass `m` and momentum `(x, 0, 0)`. -/
def sampleState (x m : ℚ) : KinematicState := ⟨true, m, x, 0, 0⟩

/-- A fitted particle at address `a` with the given state. -/
def sampleParticle (a : Nat) (ks : KinematicState) : KinematicParticle :=
  ⟨a, 0, ks.mass, 0, 0, 0, ks⟩

/-- A non-empty tree whose top particle, also under the cursor, is `p`. -/
def sampleTree (p : KinematicParticle) : KinematicTree := ⟨false, p, 0, p, 0⟩

/-- Fitters that never throw: the vertex fit gives a valid tree of momentum
`(n, 0, 0)` for `n` particles, the constrained fit a valid tree of momentum
`(7, 0, 0)`, the constrained vertex fit a valid tree of momentum `(9, 0, 0)`. -/
def sampleFitters : Fitters where
  vertexFit := fun ps => .tree (sampleTree (sampleParticle 100 (sampleState ps.length 5)))
  constrainedFit := fun _ _ => .tree (sampleTree (sampleParticle 101 (sampleState 7 5)))
  constrainedVertexFit := fun _ _ => .tree (sampleTree (sampleParticle 102 (sampleState 9 5)))
  particleState := fun _ m _ _ _ => sampleState 0 m
  sqrt := fun _ => 0

/-- A leaf daughter at address `a` with mass `1` and four-momentum
`(1, 0, 0, 5)`. -/
def sampleLeaf (a : Nat) : Candidate := ⟨a, 1, ⟨1, 0, 0, 5⟩⟩

/-- A composite with the two leaf daughters `11` and `12`, both with a track
and a mass sigma. -/
def sampleJPsi : BPHRecoCandidate :=
  .mk [sampleLeaf 11, sampleLeaf 12] ["MuPos", "MuNeg"] [(11, -1), (12, -1)]
    (fun a => some a) ⟨2, 0, 0, 10⟩ []

/-- A candidate with one leaf daughter `1` and the composite `sampleJPsi`
under the name `"JPsi"`. -/
def sampleCand : BPHKinematicFit :=
  BPHKinematicFit.construct
    (.mk [sampleLeaf 1] ["Kaon"] [(1, -1), (11, -1), (12, -1)] (fun a => some a)
      XYZTLorentzVector.zero [sampleJPsi])
    (fun n => if n = "Kaon" then some 1 else if n = "JPsi/MuPos" then some 11
      else if n = "JPsi/MuNeg" then some 12 else none)
    (fun n => if n = "JPsi" then some sampleJPsi else none)

/-! ## Well-formed candidates -/

mutual
/-- Every leaf daughter has an entry in the `dMSig` of the candidate that owns
it, so that line 400 reads a stored value. -/
def BPHRecoCandidate.sigmaComplete : BPHRecoCandidate → Bool
  | .mk daug _ dMSig _ _ comp =>
    daug.all (fun d => (mapFind dMSig d.ptr).isSome) && sigmaCompleteComp comp
/-- The same for a list of composite daughters. -/
def sigmaCompleteComp : List BPHRecoCandidate → Bool
  | [] => true
  | c :: rest => c.sigmaComplete && sigmaCompleteComp rest
end

mutual
/-- Number of flattened leaf daughters for which `getTransientTrack` gives a
track. -/
def BPHRecoCandidate.trackCount : BPHRecoCandidate → Nat
  | .mk daug _ _ getTT _ comp =>
    (daug.filter (fun d => (getTT d.ptr).isSome)).length + trackCountComp comp
/-- The same for a list of composite daughters. -/
def trackCountComp : List BPHRecoCandidate → Nat
  | [] => 0
  | c :: rest => trackCountComp rest + c.trackCount
end

mutual
/-- Every flattened leaf daughter has a track. -/
def BPHRecoCandidate.allTracked : BPHRecoCandidate → Bool
  | .mk daug _ _ getTT _ comp =>
    daug.all (fun d => (getTT d.ptr).isSome) && allTrackedComp comp
/-- The same for a list of composite daughters. -/
def allTrackedComp : List BPHRecoCandidate → Bool
  | [] => true
  | c :: rest => c.allTracked && allTrackedComp rest
end

/-- The containers after a run of `addParticles` that built `k` particles:
their addresses are the next `k` free ones, in the order of building. -/
def Build.Grows (b b1 : Build) (k : Nat) : Prop :=
  b1.kl.map (fun p => p.ptr) = b.kl.map (fun p => p.ptr) ++ List.range' b.next k ∧
  b1.next = b.next + k ∧ b1.cm = b.cm

/-! ## Observing the trace -/

namespace Event

/-- An entry into `buildParticles`. -/
def isBuild : Event → Bool
  | .buildParticles => true
  | _ => false

/-- An entry into one of the two fit entry points. -/
def isFitEntry : Event → Bool
  | .fitEntryKC _ _ => true
  | .fitEntryMT _ _ => true
  | _ => false

/-- A call of `KinematicParticleVertexFitter::fit`. -/
def isVertexFit : Event → Bool
  | .vertexFit _ => true
  | _ => false

/-- A call of `KinematicParticleFitter::fit`. -/
def isConstrainedFit : Event → Bool
  | .constrainedFit _ _ => true
  | _ => false

/-- A call of `KinematicConstrainedVertexFitter::fit`. -/
def isConstrainedVertexFit : Event → Bool
  | .constrainedVertexFit _ _ => true
  | _ => false

/-- A call of any of the three fitters. -/
def isFitterCall (e : Event) : Bool :=
  e.isVertexFit || e.isConstrainedFit || e.isConstrainedVertexFit

/-- The diagnostic `FitFailed`. -/
def isFitFailed : Event → Bool
  | .logFitFailed => true
  | _ => false

/-- The diagnostic `ParticleNotFound`. -/
def isNotFound : Event → Bool
  | .logParticleNotFound _ => true
  | _ => false

/-- The fitter call recorded by the event threw. -/
def raised (fit : Fitters) : Event → Bool
  | .vertexFit ps => fit.vertexFit ps == FitResult.raise
  | .constrainedFit kc t => fit.constrainedFit kc t == FitResult.raise
  | .constrainedVertexFit ps kc => fit.constrainedVertexFit ps kc == FitResult.raise
  | _ => false

end Event

/-- Number of events of a kind in a stretch of the trace. -/
def countEvents (k : Event → Bool) (evs : List Event) : Nat := (evs.filter k).length

namespace BPHKinematicFit

/-- The candidate is well formed: every leaf daughter has a mass sigma where
`addParticles` looks for it, and no composite the name resolver can return
declares more daughter names than the candidate has leaf daughters.  These
are the conditions under which lines 400 and 205 have a defined result. -/
def WellFormed (s : BPHKinematicFit) : Prop :=
  s.cand.sigmaComplete = true ∧
  ∀ name comp, s.getComp name = some comp → comp.daugNames.length ≤ s.cand.daughFull.length

/-- The particle list, when it is not stale, was built from the daughters: one
particle for each leaf daughter with a track, no particle object twice. -/
def ParticlesBuilt (s : BPHKinematicFit) : Prop :=
  s.oldKPs = false →
    s.allParticles.length = s.cand.trackCount ∧ (s.allParticles.map (fun p => p.ptr)).Nodup

/-- What the caller gave the object: the daughters, the resolvers and the
constraint. -/
def inputs (s : BPHKinematicFit) :
    BPHRecoCandidate × (String → Option Nat) × (String → Option BPHRecoCandidate) × ℚ × ℚ :=
  (s.cand, s.getDaug, s.getComp, s.massConst, s.massSigma)

/-- The particle cache: the stale flag, the list, the two indices. -/
def particleCache (s : BPHKinematicFit) :
    Bool × List KinematicParticle × List (Nat × KinematicParticle) ×
      List (Nat × KinematicParticle) × Nat :=
  (s.oldKPs, s.allParticles, s.kinMap, s.kCDMap, s.nextPtr)

/-- The momentum cache: the stale flag and the cached four-vector. -/
def momentumCache (s : BPHKinematicFit) : Bool × XYZTLorentzVector :=
  (s.oldMom, s.totalMomentum)

/-- The state `s1` after `kinParticles()` was called in the state `s`: the
particle list is fresh, and it was rebuilt only if it was stale. -/
structure Rebuilt (s s1 : BPHKinematicFit) : Prop where
  sameInputs : s1.inputs = s.inputs
  sameFit : s1.oldFit = s.oldFit ∧ s1.kinTree = s.kinTree
  sameMomentum : s1.momentumCache = s.momentumCache
  fresh : s1.oldKPs = false
  length : s1.allParticles.length = s1.cand.trackCount
  nodup : (s1.allParticles.map (fun p => p.ptr)).Nodup
  trace : s1.trace = (if s.oldKPs then [Event.buildParticles] else []) ++ s.trace
  kept : s.oldKPs = false → s1.particleCache = s.particleCache

/-- The two-stage fit on `kComp` and `kTail` went through and gave `tr`: the
component fit gave a non-empty tree, the constrained fit (when a constraint is
given) gave a non-empty tree, and either there is no tail and `tr` is that
tree with the cursor at the top, or the top state is valid and `tr` is the fit
of the tail followed by the top particle. -/
def FitSucceeded (fit : Fitters) (kc : Option KinematicConstraint)
    (kComp kTail : List KinematicParticle) (tr : KinematicTree) : Prop :=
  ∃ t0 t1, fit.vertexFit kComp = FitResult.tree t0 ∧ t0.isEmpty = false ∧
    ((kc = none ∧ t1 = t0) ∨
      (∃ c, kc = some c ∧ fit.constrainedFit c t0 = FitResult.tree t1 ∧ t1.isEmpty = false)) ∧
    ((kTail = [] ∧ tr = t1.movePointerToTheTop) ∨
      (kTail ≠ [] ∧ t1.topParticle.currentState.isValid = true ∧
        fit.vertexFit (kTail ++ [t1.topParticle]) = FitResult.tree tr))

/-- The events `evs` of a `try` block that ended with the tree `t`: fitter
calls and at most one `FitFailed` diagnostic, printed exactly when a fitter
call threw, in which case `t` is null. -/
def FitTrace (fit : Fitters) (evs : List Event) (t : Option KinematicTree) : Prop :=
  (∀ e ∈ evs, e.isFitterCall = true ∨ e.isFitFailed = true) ∧
  countEvents Event.isFitFailed evs = (if evs.any (Event.raised fit) then 1 else 0) ∧
  (evs.any (Event.raised fit) = true → t = none)

/-- What holds for the result `r` of either fit entry point called in the
state `s`, `entry` being the event of the entry and `evs` the events after
it: the inputs and the momentum cache are untouched, the fit is no longer
stale and the cached tree is the returned one, the particle list is fresh and
was rebuilt only if stale, one `FitFailed` diagnostic is printed exactly when
a fitter call threw, and then, as on a particle count mismatch, the tree is
null. -/
structure EntryFacts (fit : Fitters) (s : BPHKinematicFit) (entry : Event)
    (r : Option KinematicTree × BPHKinematicFit) (evs : List Event) : Prop where
  sameInputs : r.2.inputs = s.inputs
  sameMomentum : r.2.momentumCache = s.momentumCache
  oldFit : r.2.oldFit = false
  kinTree : r.2.kinTree = r.1
  fresh : r.2.oldKPs = false
  length : r.2.allParticles.length = r.2.cand.trackCount
  nodup : (r.2.allParticles.map (fun p => p.ptr)).Nodup
  kept : s.oldKPs = false → r.2.particleCache = s.particleCache
  trace : r.2.trace = evs ++ entry :: s.trace
  builds : countEvents Event.isBuild evs = if s.oldKPs then 1 else 0
  entries : countEvents Event.isFitEntry evs = 0
  failed : countEvents Event.isFitFailed evs = if evs.any (Event.raised fit) then 1 else 0
  raised : evs.any (Event.raised fit) = true → r.1 = none
  mismatch : r.2.allParticles.length ≠ s.cand.daughFull.length →
    r.1 = none ∧ countEvents Event.isFitterCall evs = 0

/-- Every address in `pset` belongs to a particle of `plist`. -/
def Selection.Sound (sel : Selection) : Prop :=
  ∀ a ∈ sel.pset, a ∈ sel.plist.map (fun p => p.ptr)

end BPHKinematicFit

/-! ## Terminal states of a fit -/

/-- The test of `isEmpty()` (lines 284-286) on a tree pointer: null, or an
empty tree. -/
def treeIsEmpty : Option KinematicTree → Bool
  | none => true
  | some t => t.isEmpty

/-- The tree is in a terminal state: Empty, or Valid, a non-empty tree whose
top particle has a valid state. -/
def Terminal (t : Option KinematicTree) : Prop :=
  treeIsEmpty t = true ∨
    ∃ tr, t = some tr ∧ tr.isEmpty = false ∧ tr.topParticle.currentState.isValid = true

/-- No fitter returns a non-empty tree whose top particle has an invalid
state. -/
def Fitters.TopValid (fit : Fitters) : Prop :=
  (∀ ps t, fit.vertexFit ps = FitResult.tree t →
    t.isEmpty = true ∨ t.topParticle.currentState.isValid = true) ∧
  (∀ c t0 t, fit.constrainedFit c t0 = FitResult.tree t →
    t.isEmpty = true ∨ t.topParticle.currentState.isValid = true) ∧
  (∀ ps c t, fit.constrainedVertexFit ps c = FitResult.tree t →
    t.isEmpty = true ∨ t.topParticle.currentState.isValid = true)

/-- Fitters as `sampleFitters`, but the vertex fit throws when given exactly
two particles. -/
def throwingFitters : Fitters :=
  { sampleFitters with
    vertexFit := fun ps =>
      if ps.length = 2 then FitResult.raise else sampleFitters.vertexFit ps }

/-- Fitters as `sampleFitters`, but the vertex fit gives a non-empty tree whose
top particle has an invalid state. -/
def invalidTopFitters : Fitters :=
  { sampleFitters with
    vertexFit := fun _ => FitResult.tree (sampleTree (sampleParticle 100 ⟨false, 0, 0, 0, 0⟩)) }

/-- The sample candidate, but the track of the leaf daughter `12` is missing. -/
def sampleUntracked : BPHKinematicFit :=
  BPHKinematicFit.construct
    (.mk [sampleLeaf 1] ["Kaon"] [(1, -1), (11, -1), (12, -1)] (fun a => some a)
      XYZTLorentzVector.zero
      [.mk [sampleLeaf 11, sampleLeaf 12] ["MuPos", "MuNeg"] [(11, -1), (12, -1)]
        (fun a => if a = 12 then none else some a) ⟨2, 0, 0, 10⟩ []])
    (fun n => if n = "Kaon" then some 1 else if n = "JPsi/MuPos" then some 11
      else if n = "JPsi/MuNeg" then some 12 else none)
    (fun n => if n = "JPsi" then some sampleJPsi else none)

/-! ## The public operations -/

/-- The public operations on an object whose daughters are set: the constraint
setter, the reset, the two particle queries, the overloads of `kinematicTree`,
the read accessors and `p4`. -/
inductive Op where
  | setConstraint (mass sigma : ℚ)
  | resetKinematicFit
  | kinParticles
  | kinParticlesNames (names : List String)
  | kinematicTree
  | kinematicTreeMassSigma (name : String) (mass sigma : ℚ)
  | kinematicTreeMass (name : String) (mass : ℚ)
  | kinematicTreeName (name : String)
  | kinematicTreeKC (name : String) (kc : Option KinematicConstraint)
  | kinematicTreeMT (name : String) (kc : Option MultiTrackKinematicConstraint)
  | isEmpty
  | isValidFit
  | currentParticle
  | currentDecayVertex
  | topParticle
  | topDecayVertex
  | mass
  | p4

namespace Op

/-- The state an operation leaves, `none` when its behaviour is not defined. -/
def run (fit : Fitters) : Op → BPHKinematicFit → Option BPHKinematicFit
  | .setConstraint m sg, s => some (s.setConstraint m sg)
  | .resetKinematicFit, s => some s.resetKinematicFit
  | .kinParticles, s => (BPHKinematicFit.kinParticles fit s).map (fun r => r.2)
  | .kinParticlesNames names, s =>
    (BPHKinematicFit.kinParticlesNames fit s names).map (fun r => r.2)
  | .kinematicTree, s => (BPHKinematicFit.kinematicTree fit s).map (fun r => r.2)
  | .kinematicTreeMassSigma name m sg, s =>
    (BPHKinematicFit.kinematicTreeMassSigma fit s name m sg).map (fun r => r.2)
  | .kinematicTreeMass name m, s =>
    (BPHKinematicFit.kinematicTreeMass fit s name m).map (fun r => r.2)
  | .kinematicTreeName name, s =>
    (BPHKinematicFit.kinematicTreeName fit s name).map (fun r => r.2)
  | .kinematicTreeKC name kc, s =>
    (BPHKinematicFit.kinematicTreeKC fit s name kc).map (fun r => r.2)
  | .kinematicTreeMT name kc, s =>
    (BPHKinematicFit.kinematicTreeMT fit s name kc).map (fun r => r.2)
  | .isEmpty, s => (BPHKinematicFit.isEmpty fit s).map (fun r => r.2)
  | .isValidFit, s => (BPHKinematicFit.isValidFit fit s).map (fun r => r.2)
  | .currentParticle, s => (BPHKinematicFit.currentParticle fit s).map (fun r => r.2)
  | .currentDecayVertex, s => (BPHKinematicFit.currentDecayVertex fit s).map (fun r => r.2)
  | .topParticle, s => (BPHKinematicFit.topParticle fit s).map (fun r => r.2)
  | .topDecayVertex, s => (BPHKinematicFit.topDecayVertex fit s).map (fun r => r.2)
  | .mass, s => (BPHKinematicFit.mass fit s).map (fun r => r.2)
  | .p4, s => (BPHKinematicFit.p4 fit s).map (fun r => r.2)

/-- The reads of a derived quantity: the accessors of the fit and `p4`. -/
def isRead : Op → Bool
  | .isEmpty => true
  | .isValidFit => true
  | .currentParticle => true
  | .currentDecayVertex => true
  | .topParticle => true
  | .topDecayVertex => true
  | .mass => true
  | .p4 => true
  | _ => false

end Op

namespace BPHKinematicFit

/-- The momentum `fitMomentum` computes when the cached tree is `t`: from the
top state when the tree is not empty and that state is valid, the plain sum
over the daughters otherwise. -/
def momentumOfTree (fit : Fitters) (cand : BPHRecoCandidate) (t : Option KinematicTree) :
    XYZTLorentzVector :=
  match t with
  | none => simpleMomentumSum cand
  | some tr =>
    if tr.isEmpty then simpleMomentumSum cand
    else if tr.topParticle.currentState.isValid then
      momentumOfState fit tr.topParticle.currentState
    else simpleMomentumSum cand

/-- The particle `topParticle()` returns when the cached tree is `t`. -/
def topOfTree : Option KinematicTree → Option KinematicParticle
  | none => none
  | some tr => if tr.isEmpty then none else some tr.topParticle

/-- The answer of `isValidFit()` when the cached tree is `t`. -/
def validTree (t : Option KinematicTree) : Bool :=
  match topOfTree t with
  | none => false
  | some kPart => kPart.currentState.isValid

/-- The state `s1` after `kinematicTree()` was called in the state `s`: the
fit is fresh; there was one entry into a fit entry point if the fit was stale
and none otherwise, one entry into `buildParticles` if the fit and the particle
list were stale and none otherwise; nothing changed if the fit was fresh. -/
structure Forced (fit : Fitters) (s s1 : BPHKinematicFit) : Prop where
  sameInputs : s1.inputs = s.inputs
  sameMomentum : s1.momentumCache = s.momentumCache
  oldFit : s1.oldFit = false
  built : s1.ParticlesBuilt
  trace : ∃ evs, s1.trace = evs ++ s.trace ∧
    countEvents Event.isFitEntry evs = (if s.oldFit then 1 else 0) ∧
    countEvents Event.isBuild evs = (if s.oldFit && s.oldKPs then 1 else 0)
  same : s.oldFit = false → s1 = s
  fresh : s.oldFit = true → s1.oldKPs = false

end BPHKinematicFit

namespace BPHKinematicFit

end BPHKinematicFit

namespace BPHKinematicFit

/-- The lookup of line 131: the particle the name resolves to, `none` when
`kinMap.find(getDaug(pname))` is the end iterator. -/
def resolveName (getDaug : String → Option Nat) (kinMap : List (Nat × KinematicParticle))
    (pname : String) : Option KinematicParticle :=
  (getDaug pname).bind (mapFind kinMap)

/-- The particles the loop of `kinParticles(names)` meets, in the order it
meets them: the particle of each resolved name up to the first `"*"`, then, if
there is a `"*"`, the list `rev`. -/
def metParticles (getDaug : String → Option Nat) (kinMap : List (Nat × KinematicParticle))
    (rev : List KinematicParticle) : List String → List KinematicParticle
  | [] => []
  | pname :: rest =>
    if pname = "*" then rev
    else
      match resolveName getDaug kinMap pname with
      | some kp => kp :: metParticles getDaug kinMap rev rest
      | none => metParticles getDaug kinMap rev rest

/-- The names up to the first `"*"` that resolve to no particle. -/
def unresolvedNames (getDaug : String → Option Nat) (kinMap : List (Nat × KinematicParticle))
    (names : List String) : List String :=
  (names.takeWhile (fun n => n != "*")).filter
    (fun n => (resolveName getDaug kinMap n).isNone)

/-- The de-duplication the spec describes: of the particle objects of a list,
each is kept where it occurs first. -/
def firstOccurrences : List KinematicParticle → List KinematicParticle
  | [] => []
  | p :: rest => p :: (firstOccurrences rest).filter (fun q => q.ptr != p.ptr)

/-- The addresses in `pset` are those of the particles of `plist`. -/
def Selection.Exact (sel : Selection) : Prop :=
  ∀ a, a ∈ sel.pset ↔ a ∈ sel.plist.map (fun p => p.ptr)

/-- The index `kinMap`, when the particle list is not stale, holds particles
of the particle list only. -/
def IndexBuilt (s : BPHKinematicFit) : Prop :=
  s.oldKPs = false → ∀ k p, mapFind s.kinMap k = some p → p ∈ s.allParticles

end BPHKinematicFit

/-- Every particle of the index `km` is in the list `kl`. -/
def Build.Indexed (b : Build) : Prop :=
  ∀ k p, mapFind b.km k = some p → p ∈ b.kl

namespace BPHKinematicFit

/-- The particle cache, when it is not stale, is what `buildParticles` left:
the containers `addParticles` fills from empty ones, and the address after
them. -/
def BuiltBy (fit : Fitters) (s : BPHKinematicFit) : Prop :=
  s.oldKPs = false →
    ∃ n, s.cand.addParticles fit ⟨[], [], [], n⟩ =
      some ⟨s.allParticles, s.kinMap, s.kCDMap, s.nextPtr⟩

/-- The particles of the names before the first `"*"` that resolve, in the
order of the names. -/
def resolvedBeforeStar (getDaug : String → Option Nat)
    (kinMap : List (Nat × KinematicParticle)) (names : List String) :
    List KinematicParticle :=
  (names.takeWhile (fun n => n != "*")).filterMap (resolveName getDaug kinMap)

end BPHKinematicFit

/-- A candidate with the three leaf daughters `1`, `2` and `3`, in this order,
each with a track of the same number, and no composite daughter. -/
def sampleThreeLeaves : BPHKinematicFit :=
  BPHKinematicFit.construct
    (.mk [sampleLeaf 1, sampleLeaf 2, sampleLeaf 3] ["Kaon", "PiPos", "PiNeg"]
      [(1, -1), (2, -1), (3, -1)] (fun a => some a) XYZTLorentzVector.zero [])
    (fun n => if n = "Kaon" then some 1 else if n = "PiPos" then some 2
      else if n = "PiNeg" then some 3 else none)
    (fun _ => none)

namespace BPHKinematicFit

/-- The object after the diagnostic of line 140 was printed for each of
`names`, from the first to the last. -/
def logNotFound (s : BPHKinematicFit) (names : List String) : BPHKinematicFit :=
  { s with trace := names.reverse.map notFoundParticle ++ s.trace }

end BPHKinematicFit

namespace BPHKinematicFit

/-- The result of the two-stage fit in the words of the specification, for the
component list `kComp` and the tail list `kTail`, `none` being the empty
result: empty if the vertex fit of the component is empty or, with a
constraint, the constrained fit of it is empty; otherwise the component tree
with the cursor at the top when there is no tail, and with a tail empty if the
state of the top particle is invalid and else the vertex fit of the tail
followed by the top particle.  A fitter that throws gives the empty result. -/
def twoStageFitSpec (fit : Fitters) (kc : Option KinematicConstraint)
    (kComp kTail : List KinematicParticle) : Option KinematicTree :=
  match fit.vertexFit kComp with
  | .raise => none
  | .tree t0 =>
    if t0.isEmpty then none
    else
      match (match kc with
        | none => FitResult.tree t0
        | some c => fit.constrainedFit c t0) with
      | .raise => none
      | .tree t1 =>
        if t1.isEmpty then none
        else if kTail = [] then some t1.movePointerToTheTop
        else if t1.topParticle.currentState.isValid = false then none
        else
          match fit.vertexFit (kTail ++ [t1.topParticle]) with
          | .raise => none
          | .tree t => some t

end BPHKinematicFit

/-- The candidate with the map `dMSig` replaced by `m`, every inherited part
kept. -/
def BPHRecoCandidate.withDMSig : BPHRecoCandidate → List (Nat × ℚ) → BPHRecoCandidate
  | .mk daug names _ getTT p4 comp, m => .mk daug names m getTT p4 comp

namespace BPHKinematicFit

/-- Member `addK(name, daug, searchList, mass, sigma)` (lines 356-361).
`addV` is the member of the base class `BPHDecayVertex`, declared outside
this file: it is taken as a given function on the object.
`daughters().back()` has no defined value on an empty vector. -/
def addK (addV : String → Candidate → String → ℚ → BPHKinematicFit → BPHKinematicFit)
    (name : String) (daug : Candidate) (searchList : String) (mass sigma : ℚ)
    (s : BPHKinematicFit) : Option BPHKinematicFit :=
  let s1 := addV name daug searchList mass s
  match s1.cand.daughters.getLast? with
  | none => none
  | some back =>
    some { s1 with cand := s1.cand.withDMSig (mapAssign s1.cand.dMSig back.ptr sigma) }

/-- Member `addK(name, daug, mass, sigma)` (lines 349-352). -/
def addKDefault (addV : String → Candidate → String → ℚ → BPHKinematicFit → BPHKinematicFit)
    (name : String) (daug : Candidate) (mass sigma : ℚ)
    (s : BPHKinematicFit) : Option BPHKinematicFit :=
  addK addV name daug "cfhpmig" mass sigma s

end BPHKinematicFit

/-- Modelled from the spec: `addV(name, daug, searchList, mass)` of the absent
`BPHDecayVertex`, as far as the daughters go: a clone of `daug` with the given
mass, at the address `a`, is appended to `daughters()` under the name `name`. -/
def sampleAddV (a : Nat) (name : String) (daug : Candidate) (_searchList : String)
    (mass : ℚ) (s : BPHKinematicFit) : BPHKinematicFit :=
  match s.cand with
  | .mk ds names m getTT p4 comp =>
    { s with cand := .mk (ds ++ [⟨a, mass, daug.p4⟩]) (names ++ [name]) m getTT p4 comp }

/-- The particle `p` as an object `d` addresses further on: every value the
factory gave it is kept. -/
def KinematicParticle.shift (d : Nat) (p : KinematicParticle) : KinematicParticle :=
  { p with ptr := p.ptr + d }

/-- The particle `p` without its address: the values the factory gave it. -/
def KinematicParticle.content (p : KinematicParticle) :
    Nat × ℚ × ℚ × ℚ × ℚ × KinematicState :=
  (p.track, p.mass, p.chi, p.ndf, p.sigma, p.currentState)

/-- The containers `b1` hold the particles of `b`, each `d` addresses further
on, in the same order and under the same keys. -/
def Build.Shifted (d : Nat) (b b1 : Build) : Prop :=
  b1.kl = b.kl.map (KinematicParticle.shift d) ∧
  b1.km = b.km.map (fun kv => (kv.1, KinematicParticle.shift d kv.2)) ∧
  b1.cm = b.cm.map (fun kv => (kv.1, KinematicParticle.shift d kv.2)) ∧
  b1.next = b.next + d

/-- The sigma the specification gives the particle of the leaf daughter `d`:
the value of `d` in `dMSig` when there is one and it is not negative, the
default `1.0e-7` when it is negative or missing. -/
def sigmaOrDefault (dMSig : List (Nat × ℚ)) (d : Candidate) : ℚ :=
  match mapFind dMSig d.ptr with
  | some v => if v < 0 then 1 / 10000000 else v
  | none => 1 / 10000000

/-- The track, the mass and the sigma the specification gives the particles
of the leaf daughters `daug`, one for each daughter with a track, from the
last daughter to the first. -/
def expectedLeaves (dMSig : List (Nat × ℚ)) (getTT : Nat → Option Nat)
    (daug : List Candidate) : List (Nat × ℚ × ℚ) :=
  daug.reverse.filterMap
    (fun d => (getTT d.ptr).map (fun tt => (tt, d.mass, sigmaOrDefault dMSig d)))

mutual
/-- The track, the mass and the sigma the specification gives the particles
of a candidate, in the order of building: its own leaf daughters, then those
of its composite daughters from the last to the first, each with its own
`dMSig`. -/
def BPHRecoCandidate.expectedParticles : BPHRecoCandidate → List (Nat × ℚ × ℚ)
  | .mk daug _ dMSig getTT _ comp =>
    expectedLeaves dMSig getTT daug ++ expectedParticlesComp comp
/-- The same for a list of composite daughters. -/
def expectedParticlesComp : List BPHRecoCandidate → List (Nat × ℚ × ℚ)
  | [] => []
  | c :: rest => expectedParticlesComp rest ++ c.expectedParticles
end

theorem Build.Grows.refl (b : Build) : b.Grows b 0 := by
  simp [Build.Grows]

theorem Build.Grows.trans {b b1 b2 : Build} {k1 k2 : Nat}
    (h1 : b.Grows b1 k1) (h2 : b1.Grows b2 k2) : b.Grows b2 (k1 + k2) := by
  obtain ⟨h1a, h1b, h1c⟩ := h1
  obtain ⟨h2a, h2b, h2c⟩ := h2
  refine ⟨?_, ?_, ?_⟩
  · rw [h2a, h1a, h1b, List.append_assoc, List.range'_append_1, Nat.add_comm k2 k1]
  · rw [h2b, h1b, Nat.add_assoc]
  · rw [h2c, h1c]

theorem addLeaf_grows (fit : Fitters) (dMSig : List (Nat × ℚ)) (getTT : Nat → Option Nat)
    (cand : Candidate) (b : Build) (h : (mapFind dMSig cand.ptr).isSome = true) :
    ∃ b1, addLeaf fit dMSig getTT cand b = some b1 ∧
      b.Grows b1 (if (getTT cand.ptr).isSome then 1 else 0) := by
  unfold addLeaf
  cases hs : mapFind dMSig cand.ptr with
  | none => simp [hs] at h
  | some v =>
    cases ht : getTT cand.ptr with
    | none => exact ⟨b, rfl, by simpa using Build.Grows.refl b⟩
    | some tt => exact ⟨_, rfl, by simp [Build.Grows]⟩

theorem addLeaves_grows (fit : Fitters) (dMSig : List (Nat × ℚ)) (getTT : Nat → Option Nat) :
    ∀ (daug : List Candidate) (b : Build),
      daug.all (fun d => (mapFind dMSig d.ptr).isSome) = true →
      ∃ b1, addLeaves fit dMSig getTT daug b = some b1 ∧
        b.Grows b1 (daug.filter (fun d => (getTT d.ptr).isSome)).length
  | [], b, _ => ⟨b, rfl, by simpa using Build.Grows.refl b⟩
  | cand :: rest, b, h => by
    simp only [List.all_cons, Bool.and_eq_true] at h
    obtain ⟨b1, e1, g1⟩ := addLeaves_grows fit dMSig getTT rest b h.2
    obtain ⟨b2, e2, g2⟩ := addLeaf_grows fit dMSig getTT cand b1 h.1
    refine ⟨b2, by simp [addLeaves, e1, e2], ?_⟩
    have g := g1.trans g2
    cases ht : (getTT cand.ptr).isSome <;> simpa [List.filter_cons, ht, Nat.add_comm] using g

mutual
theorem BPHRecoCandidate.addParticles_grows (fit : Fitters) :
    ∀ (c : BPHRecoCandidate) (b : Build), c.sigmaComplete = true →
      ∃ b1, c.addParticles fit b = some b1 ∧ b.Grows b1 c.trackCount
  | .mk daug _ dMSig getTT _ comp, b, h => by
    simp only [BPHRecoCandidate.sigmaComplete, Bool.and_eq_true] at h
    obtain ⟨b1, e1, g1⟩ := addLeaves_grows fit dMSig getTT daug b h.1
    obtain ⟨b2, e2, g2⟩ := addCompParticles_grows fit comp b1 h.2
    exact ⟨b2, by simp [BPHRecoCandidate.addParticles, e1, e2],
      by simpa [BPHRecoCandidate.trackCount] using g1.trans g2⟩
theorem addCompParticles_grows (fit : Fitters) :
    ∀ (cs : List BPHRecoCandidate) (b : Build), sigmaCompleteComp cs = true →
      ∃ b1, addCompParticles fit cs b = some b1 ∧ b.Grows b1 (trackCountComp cs)
  | [], b, _ => ⟨b, by simp [addCompParticles], by simpa [trackCountComp] using Build.Grows.refl b⟩
  | c :: rest, b, h => by
    simp only [sigmaCompleteComp, Bool.and_eq_true] at h
    obtain ⟨b1, e1, g1⟩ := addCompParticles_grows fit rest b h.2
    obtain ⟨b2, e2, g2⟩ := BPHRecoCandidate.addParticles_grows fit c b1 h.1
    exact ⟨b2, by simp [addCompParticles, e1, e2],
      by simpa [trackCountComp] using g1.trans g2⟩
end

theorem filter_tracked_le (getTT : Nat → Option Nat) (daug : List Candidate) :
    (daug.filter (fun d => (getTT d.ptr).isSome)).length ≤ daug.length :=
  List.length_filter_le _ _

theorem filter_tracked_lt (getTT : Nat → Option Nat) (daug : List Candidate)
    (h : daug.all (fun d => (getTT d.ptr).isSome) = false) :
    (daug.filter (fun d => (getTT d.ptr).isSome)).length < daug.length := by
  induction daug with
  | nil => simp at h
  | cons d rest ih =>
    cases hd : (getTT d.ptr).isSome
    · have := filter_tracked_le getTT rest
      simp [List.filter_cons, hd]
      omega
    · simp only [List.all_cons, hd, Bool.true_and] at h
      have := ih h
      simp [List.filter_cons, hd]
      omega

mutual
theorem BPHRecoCandidate.trackCount_le :
    ∀ c : BPHRecoCandidate, c.trackCount ≤ c.daughFull.length
  | .mk daug _ _ getTT _ comp => by
    have h1 := filter_tracked_le getTT daug
    have h2 := trackCountComp_le comp
    simp only [BPHRecoCandidate.trackCount, BPHRecoCandidate.daughFull, List.length_append]
    omega
theorem trackCountComp_le :
    ∀ cs : List BPHRecoCandidate, trackCountComp cs ≤ (daughFullComp cs).length
  | [] => by simp [trackCountComp, daughFullComp]
  | c :: rest => by
    have h1 := BPHRecoCandidate.trackCount_le c
    have h2 := trackCountComp_le rest
    simp only [trackCountComp, daughFullComp, List.length_append]
    omega
end

mutual
theorem BPHRecoCandidate.trackCount_lt :
    ∀ c : BPHRecoCandidate, c.allTracked = false → c.trackCount < c.daughFull.length
  | .mk daug _ _ getTT _ comp, h => by
    simp only [BPHRecoCandidate.trackCount, BPHRecoCandidate.daughFull, List.length_append]
    simp only [BPHRecoCandidate.allTracked, Bool.and_eq_false_iff] at h
    have h1 := filter_tracked_le getTT daug
    have h2 := trackCountComp_le comp
    rcases h with h | h
    · have := filter_tracked_lt getTT daug h
      omega
    · have := trackCountComp_lt comp h
      omega
theorem trackCountComp_lt :
    ∀ cs : List BPHRecoCandidate, allTrackedComp cs = false →
      trackCountComp cs < (daughFullComp cs).length
  | [], h => by simp [allTrackedComp] at h
  | c :: rest, h => by
    simp only [trackCountComp, daughFullComp, List.length_append]
    simp only [allTrackedComp, Bool.and_eq_false_iff] at h
    have h1 := BPHRecoCandidate.trackCount_le c
    have h2 := trackCountComp_le rest
    rcases h with h | h
    · have := BPHRecoCandidate.trackCount_lt c h
      omega
    · have := trackCountComp_lt rest h
      omega
end

/-! ## Selecting particles by name: lemmas -/

namespace BPHKinematicFit

theorem Selection.push_log (sel : Selection) (kp : KinematicParticle) :
    (sel.push kp).log = sel.log := by
  unfold Selection.push
  split <;> rfl

theorem Selection.push_mem (sel : Selection) (kp : KinematicParticle) :
    kp.ptr ∈ (sel.push kp).pset := by
  unfold Selection.push
  split
  · next h => simpa using h
  · simp

theorem Selection.push_subset (sel : Selection) (kp : KinematicParticle) :
    ∀ a ∈ sel.pset, a ∈ (sel.push kp).pset := by
  intro a ha
  unfold Selection.push
  split
  · exact ha
  · simp [ha]

theorem Selection.push_sound (sel : Selection) (kp : KinematicParticle) (h : sel.Sound) :
    (sel.push kp).Sound := by
  unfold Selection.push
  split
  · exact h
  · intro a ha
    simp only [List.mem_cons] at ha
    rcases ha with rfl | ha
    · simp
    · have := h a ha
      simp only [List.map_append, List.mem_append]
      exact Or.inl this

theorem foldl_push_log (rev : List KinematicParticle) :
    ∀ sel : Selection, (rev.foldl Selection.push sel).log = sel.log := by
  induction rev with
  | nil => intro sel; rfl
  | cons kp rest ih => intro sel; simp [List.foldl_cons, ih, Selection.push_log]

theorem foldl_push_subset (rev : List KinematicParticle) :
    ∀ sel : Selection, ∀ a ∈ sel.pset, a ∈ (rev.foldl Selection.push sel).pset := by
  induction rev with
  | nil => intro sel a ha; exact ha
  | cons kp rest ih =>
    intro sel a ha
    exact ih (sel.push kp) a (Selection.push_subset sel kp a ha)

theorem foldl_push_sound (rev : List KinematicParticle) :
    ∀ sel : Selection, sel.Sound → (rev.foldl Selection.push sel).Sound := by
  induction rev with
  | nil => intro sel h; exact h
  | cons kp rest ih => intro sel h; exact ih (sel.push kp) (Selection.push_sound sel kp h)

theorem foldl_push_mem (rev : List KinematicParticle) :
    ∀ sel : Selection, ∀ p ∈ rev, p.ptr ∈ (rev.foldl Selection.push sel).pset := by
  induction rev with
  | nil => intro sel p hp; simp at hp
  | cons kp rest ih =>
    intro sel p hp
    simp only [List.mem_cons] at hp
    rcases hp with rfl | hp
    · exact foldl_push_subset rest (sel.push p) _ (Selection.push_mem sel p)
    · exact ih (sel.push kp) p hp

theorem selectNames_sound (getDaug : String → Option Nat)
    (kinMap : List (Nat × KinematicParticle)) (rev : List KinematicParticle) :
    ∀ (names : List String) (sel : Selection), sel.Sound →
      (selectNames getDaug kinMap rev names sel).Sound := by
  intro names
  induction names with
  | nil => intro sel h; exact h
  | cons pname rest ih =>
    intro sel h
    unfold selectNames
    split
    · exact foldl_push_sound rev sel h
    · split
      · exact ih _ (Selection.push_sound sel _ h)
      · exact ih _ h

theorem selectNames_star (getDaug : String → Option Nat)
    (kinMap : List (Nat × KinematicParticle)) (rev : List KinematicParticle) :
    ∀ (names : List String) (sel : Selection), "*" ∈ names →
      ∀ p ∈ rev, p.ptr ∈ (selectNames getDaug kinMap rev names sel).pset := by
  intro names
  induction names with
  | nil => intro sel h; simp at h
  | cons pname rest ih =>
    intro sel h p hp
    unfold selectNames
    split
    · exact foldl_push_mem rev sel p hp
    · next hne =>
      have h1 : "*" ∈ rest := by
        simp only [List.mem_cons] at h
        rcases h with h | h
        · exact absurd h.symm hne
        · exact h
      split
      · exact ih _ h1 p hp
      · exact ih _ h1 p hp

/-- With `"*"` among the names the selection is at least as long as the list
of built particles, when no particle object occurs twice in that list. -/
theorem selectNames_length (getDaug : String → Option Nat)
    (kinMap : List (Nat × KinematicParticle)) (rev : List KinematicParticle)
    (names : List String) (hstar : "*" ∈ names)
    (hnd : (rev.map (fun p => p.ptr)).Nodup) :
    rev.length ≤ (selectNames getDaug kinMap rev names ⟨[], [], []⟩).plist.length := by
  have hs : (selectNames getDaug kinMap rev names ⟨[], [], []⟩).Sound :=
    selectNames_sound getDaug kinMap rev names _ (by intro a ha; simp at ha)
  have hsub : rev.map (fun p => p.ptr) ⊆
      (selectNames getDaug kinMap rev names ⟨[], [], []⟩).plist.map (fun p => p.ptr) := by
    intro a ha
    obtain ⟨p, hp, rfl⟩ := List.mem_map.1 ha
    exact hs _ (selectNames_star getDaug kinMap rev names _ hstar p hp)
  have := (List.subperm_of_subset hnd hsub).length_le
  simpa using this

/-- The diagnostics of the selection loop are `ParticleNotFound` ones, added in
front of those already there. -/
theorem selectNames_log (getDaug : String → Option Nat)
    (kinMap : List (Nat × KinematicParticle)) (rev : List KinematicParticle) :
    ∀ (names : List String) (sel : Selection),
      ∃ evs, (selectNames getDaug kinMap rev names sel).log = evs ++ sel.log ∧
        ∀ e ∈ evs, e.isNotFound = true := by
  intro names
  induction names with
  | nil => intro sel; exact ⟨[], rfl, by simp⟩
  | cons pname rest ih =>
    intro sel
    unfold selectNames
    split
    · exact ⟨[], by simp [foldl_push_log], by simp⟩
    · split
      · obtain ⟨evs, h1, h2⟩ := ih (sel.push _)
        exact ⟨evs, by rw [h1, Selection.push_log], h2⟩
      · obtain ⟨evs, h1, h2⟩ := ih { sel with log := notFoundParticle pname :: sel.log }
        refine ⟨evs ++ [notFoundParticle pname], by simp [h1], ?_⟩
        intro e he
        simp only [List.mem_append, List.mem_singleton] at he
        rcases he with he | rfl
        · exact h2 e he
        · rfl

/-! ## The particle cache: lemmas -/

theorem buildParticles_spec (fit : Fitters) (s : BPHKinematicFit)
    (hw : s.cand.sigmaComplete = true) :
    ∃ ps km n, buildParticles fit s =
        some { s with allParticles := ps, kinMap := km, kCDMap := [], nextPtr := n,
                      oldKPs := false, trace := Event.buildParticles :: s.trace } ∧
      ps.length = s.cand.trackCount ∧ (ps.map (fun p => p.ptr)).Nodup := by
  obtain ⟨b1, e1, g1, _, g3⟩ := BPHRecoCandidate.addParticles_grows fit s.cand
    ⟨[], [], [], s.nextPtr⟩ hw
  simp only [List.map_nil, List.nil_append] at g1
  refine ⟨b1.kl, b1.km, b1.next, ?_, ?_, ?_⟩
  · simp only [buildParticles, e1]
    simp at g3
    rw [g3]
  · have := congrArg List.length g1
    simpa using this
  · rw [g1]
    exact List.nodup_range' _ _

theorem kinParticles_spec (fit : Fitters) (s : BPHKinematicFit)
    (hw : s.cand.sigmaComplete = true) (hb : s.ParticlesBuilt) :
    ∃ s1, kinParticles fit s = some (s1.allParticles, s1) ∧ Rebuilt s s1 := by
  by_cases hk : s.oldKPs = true
  · obtain ⟨ps, km, n, e, hl, hn⟩ := buildParticles_spec fit s hw
    refine ⟨{ s with allParticles := ps, kinMap := km, kCDMap := [], nextPtr := n,
                     oldKPs := false, trace := Event.buildParticles :: s.trace }, ?_, ?_⟩
    · unfold kinParticles
      rw [if_pos hk, e]
    · exact ⟨rfl, ⟨rfl, rfl⟩, rfl, rfl, hl, hn, by simp [hk], by simp [hk]⟩
  · have hk1 : s.oldKPs = false := by simpa using hk
    obtain ⟨hl, hn⟩ := hb hk1
    refine ⟨s, ?_, ?_⟩
    · unfold kinParticles
      rw [if_neg hk]
    · exact ⟨rfl, ⟨rfl, rfl⟩, rfl, hk1, hl, hn, by simp [hk1], fun _ => rfl⟩

theorem kinParticlesNames_spec (fit : Fitters) (s : BPHKinematicFit) (names : List String)
    (hk : s.oldKPs = false) :
    ∃ ps evs, kinParticlesNames fit s names = some (ps, { s with trace := evs ++ s.trace }) ∧
      (∀ e ∈ evs, e.isNotFound = true) ∧
      ("*" ∈ names → (s.allParticles.map (fun p => p.ptr)).Nodup →
        s.allParticles.length = s.cand.daughFull.length →
        s.cand.daughFull.length ≤ ps.length) := by
  have hk1 : ¬ s.oldKPs = true := by simp [hk]
  unfold kinParticlesNames
  rw [if_neg hk1]
  by_cases hm : s.allParticles.length = s.cand.daughFull.length
  · obtain ⟨evs, h1, h2⟩ := selectNames_log s.getDaug s.kinMap
      (s.allParticles.take s.cand.daughFull.length).reverse names ⟨[], [], []⟩
    refine ⟨(selectNames s.getDaug s.kinMap
      (s.allParticles.take s.cand.daughFull.length).reverse names ⟨[], [], []⟩).plist,
      evs, ?_, h2, ?_⟩
    · simp only [ne_eq, hm, not_true_eq_false, if_false, h1, List.append_nil]
    · intro hstar hnd _
      have := selectNames_length s.getDaug s.kinMap
        (s.allParticles.take s.cand.daughFull.length).reverse names hstar
        (by
          rw [← hm, List.take_length, List.map_reverse]
          exact List.nodup_reverse.2 hnd)
      rw [List.length_reverse, List.length_take, hm, Nat.min_self] at this
      exact this
  · refine ⟨[], [], ?_, by simp, ?_⟩
    · simp only [ne_eq, hm, not_false_eq_true, if_true, List.nil_append]
    · intro _ _ h
      exact absurd h hm

/-! ## The two-stage fit: lemmas -/

theorem FitTrace.after (fit : Fitters) (evs : List Event) (t : Option KinematicTree)
    (e0 : Event) (h : FitTrace fit evs t) (hc : e0.isFitterCall = true)
    (hr : e0.raised fit = false) (hf : e0.isFitFailed = false) :
    FitTrace fit (evs ++ [e0]) t := by
  obtain ⟨h1, h2, h3⟩ := h
  refine ⟨?_, ?_, ?_⟩
  · intro e he
    simp only [List.mem_append, List.mem_singleton] at he
    rcases he with he | rfl
    · exact h1 e he
    · exact Or.inl hc
  · simp only [countEvents, List.filter_append, List.length_append, List.any_append,
      List.filter_cons, List.filter_nil, hf, List.any_cons, hr, List.any_nil, Bool.or_false]
    simpa [countEvents] using h2
  · intro ha
    apply h3
    simpa [hr] using ha

theorem fitTail_spec (fit : Fitters) (s : BPHKinematicFit) (kTail : List KinematicParticle)
    (compTree : KinematicTree) (hs : s.kinTree = none) :
    ∃ t evs, fitTail fit s kTail compTree =
        (t, { s with kinTree := t, trace := evs ++ s.trace }) ∧
      FitTrace fit evs t ∧
      (∀ tr, t = some tr →
        (kTail = [] ∧ tr = compTree.movePointerToTheTop) ∨
        (kTail ≠ [] ∧ compTree.topParticle.currentState.isValid = true ∧
          fit.vertexFit (kTail ++ [compTree.topParticle]) = FitResult.tree tr)) := by
  unfold fitTail
  by_cases hk : kTail = []
  · refine ⟨some compTree.movePointerToTheTop, [], ?_, ?_, ?_⟩
    · simp [hk]
    · simp [FitTrace, countEvents]
    · intro tr h
      left
      exact ⟨hk, (Option.some.inj h).symm⟩
  · simp only [ne_eq, hk, not_false_eq_true, if_true]
    cases hv : compTree.topParticle.currentState.isValid with
    | false =>
      refine ⟨none, [], ?_, ?_, ?_⟩
      · simp [KinematicTree.movePointerToTheTop, hv, hs]
        rw [← hs]
      · simp [FitTrace, countEvents]
      · intro tr h
        simp at h
    | true =>
      cases hf : fit.vertexFit (kTail ++ [compTree.topParticle]) with
      | raise =>
        refine ⟨none, [Event.logFitFailed,
          Event.vertexFit (kTail ++ [compTree.topParticle])], ?_, ?_, ?_⟩
        · simp [KinematicTree.movePointerToTheTop, hv, hf, fitFailed]
        · simp [FitTrace, countEvents, Event.isFitterCall, Event.isVertexFit,
            Event.isFitFailed, Event.raised, hf]
        · intro tr h
          simp at h
      | tree t =>
        refine ⟨some t, [Event.vertexFit (kTail ++ [compTree.topParticle])], ?_, ?_, ?_⟩
        · simp [KinematicTree.movePointerToTheTop, hv, hf]
        · simp [FitTrace, countEvents, Event.isFitterCall, Event.isVertexFit,
            Event.isFitFailed, Event.raised, hf]
        · intro tr h
          cases h
          exact Or.inr ⟨by simp, rfl, rfl⟩

theorem fitComponent_spec (fit : Fitters) (s : BPHKinematicFit)
    (kc : Option KinematicConstraint) (kComp kTail : List KinematicParticle)
    (hs : s.kinTree = none) :
    ∃ t evs, fitComponent fit s kc kComp kTail =
        (t, { s with kinTree := t, trace := evs ++ s.trace }) ∧
      FitTrace fit evs t ∧ (∀ tr, t = some tr → FitSucceeded fit kc kComp kTail tr) := by
  obtain ⟨cand, gd, gc, mc, ms, okp, oft, om, kt, ap, km, kcd, tm, np, tr0⟩ := s
  simp only at hs
  subst hs
  unfold fitComponent
  cases hf : fit.vertexFit kComp with
  | raise =>
    refine ⟨none, [Event.logFitFailed, Event.vertexFit kComp], ?_, ?_, ?_⟩
    · simp [fitFailed]
    · simp [FitTrace, countEvents, Event.isFitterCall, Event.isVertexFit,
        Event.isFitFailed, Event.raised, hf]
    · intro tr h
      simp at h
  | tree t0 =>
    have hcall : FitTrace fit [Event.vertexFit kComp] none := by
      simp [FitTrace, countEvents, Event.isFitterCall, Event.isVertexFit,
        Event.isFitFailed, Event.raised, hf]
    cases he : t0.isEmpty with
    | true =>
      refine ⟨none, [Event.vertexFit kComp], ?_, hcall, ?_⟩
      · simp [he]
      · intro tr h
        simp at h
    | false =>
      cases kc with
      | none =>
        obtain ⟨t, evs, e1, h1, h2⟩ := fitTail_spec fit
          ⟨cand, gd, gc, mc, ms, okp, oft, om, none, ap, km, kcd, tm, np,
            Event.vertexFit kComp :: tr0⟩ kTail t0 rfl
        refine ⟨t, evs ++ [Event.vertexFit kComp], ?_, ?_, ?_⟩
        · simp [he, e1]
        · exact FitTrace.after fit evs t _ h1 rfl (by simp [Event.raised, hf]) rfl
        · intro tr h
          exact ⟨t0, t0, hf, he, Or.inl ⟨rfl, rfl⟩, h2 tr h⟩
      | some c =>
        cases hc : fit.constrainedFit c t0 with
        | raise =>
          refine ⟨none, [Event.logFitFailed, Event.constrainedFit c t0,
            Event.vertexFit kComp], ?_, ?_, ?_⟩
          · simp [fitFailed, he, hc]
          · simp [FitTrace, countEvents, Event.isFitterCall, Event.isVertexFit,
              Event.isConstrainedFit, Event.isFitFailed, Event.raised, hf, hc]
          · intro tr h
            simp at h
        | tree t1 =>
          have hcall2 : FitTrace fit [Event.constrainedFit c t0, Event.vertexFit kComp] none := by
            simp [FitTrace, countEvents, Event.isFitterCall, Event.isVertexFit,
              Event.isConstrainedFit, Event.isFitFailed, Event.raised, hf, hc]
          cases he1 : t1.isEmpty with
          | true =>
            refine ⟨none, [Event.constrainedFit c t0, Event.vertexFit kComp], ?_, hcall2, ?_⟩
            · simp [he, hc, he1]
            · intro tr h
              simp at h
          | false =>
            obtain ⟨t, evs, e1, h1, h2⟩ := fitTail_spec fit
              ⟨cand, gd, gc, mc, ms, okp, oft, om, none, ap, km, kcd, tm, np,
                Event.constrainedFit c t0 :: Event.vertexFit kComp :: tr0⟩ kTail t1 rfl
            refine ⟨t, evs ++ [Event.constrainedFit c t0] ++ [Event.vertexFit kComp],
              ?_, ?_, ?_⟩
            · simp [he, hc, he1, e1]
            · refine FitTrace.after fit _ t _ (FitTrace.after fit evs t _ h1 rfl ?_ rfl) rfl
                ?_ rfl
              · simp [Event.raised, hc]
              · simp [Event.raised, hf]
            · intro tr h
              exact ⟨t0, t1, hf, he, Or.inr ⟨c, rfl, hc, he1⟩, h2 tr h⟩

/-! ## Counting events: lemmas -/

theorem countEvents_append (k : Event → Bool) (a b : List Event) :
    countEvents k (a ++ b) = countEvents k a + countEvents k b := by
  simp [countEvents]

theorem countEvents_cons (k : Event → Bool) (e : Event) (b : List Event) :
    countEvents k (e :: b) = (if k e then 1 else 0) + countEvents k b := by
  unfold countEvents
  cases h : k e <;> simp [List.filter_cons, h, Nat.add_comm]

theorem countEvents_zero (k : Event → Bool) (evs : List Event)
    (h : ∀ e ∈ evs, k e = false) : countEvents k evs = 0 := by
  unfold countEvents
  rw [List.length_eq_zero, List.filter_eq_nil_iff]
  intro e he
  simp [h e he]

theorem any_raised_false (fit : Fitters) (evs : List Event)
    (h : ∀ e ∈ evs, e.raised fit = false) : evs.any (Event.raised fit) = false := by
  rw [List.any_eq_false]
  intro e he
  simp [h e he]

theorem FitTrace.noBuild {fit : Fitters} {evs : List Event} {t : Option KinematicTree}
    (h : FitTrace fit evs t) : countEvents Event.isBuild evs = 0 := by
  apply countEvents_zero
  intro e he
  rcases h.1 e he with h1 | h1 <;> cases e <;>
    simp_all [Event.isFitterCall, Event.isVertexFit, Event.isConstrainedFit,
      Event.isConstrainedVertexFit, Event.isFitFailed, Event.isBuild]

theorem FitTrace.noEntry {fit : Fitters} {evs : List Event} {t : Option KinematicTree}
    (h : FitTrace fit evs t) : countEvents Event.isFitEntry evs = 0 := by
  apply countEvents_zero
  intro e he
  rcases h.1 e he with h1 | h1 <;> cases e <;>
    simp_all [Event.isFitterCall, Event.isVertexFit, Event.isConstrainedFit,
      Event.isConstrainedVertexFit, Event.isFitFailed, Event.isFitEntry]

/-- Events that are neither fitter calls nor `FitFailed` diagnostics, put
before (that is, listed after) those of a `try` block, change none of the
counts the block is described by. -/
theorem FitTrace.older {fit : Fitters} {evs : List Event} {t : Option KinematicTree}
    (h : FitTrace fit evs t) (pre : List Event)
    (hp : ∀ e ∈ pre, e.isNotFound = true ∨ e.isBuild = true) :
    countEvents Event.isFitFailed (evs ++ pre) =
        (if (evs ++ pre).any (Event.raised fit) then 1 else 0) ∧
      ((evs ++ pre).any (Event.raised fit) = true → t = none) ∧
      countEvents Event.isFitEntry (evs ++ pre) = 0 ∧
      countEvents Event.isBuild (evs ++ pre) = countEvents Event.isBuild pre := by
  have h1 : countEvents Event.isFitFailed pre = 0 := by
    apply countEvents_zero
    intro e he
    rcases hp e he with h1 | h1 <;> cases e <;>
      simp_all [Event.isNotFound, Event.isBuild, Event.isFitFailed]
  have h2 : pre.any (Event.raised fit) = false := by
    apply any_raised_false
    intro e he
    rcases hp e he with h1 | h1 <;> cases e <;>
      simp_all [Event.isNotFound, Event.isBuild, Event.raised]
  have h3 : countEvents Event.isFitEntry pre = 0 := by
    apply countEvents_zero
    intro e he
    rcases hp e he with h1 | h1 <;> cases e <;>
      simp_all [Event.isNotFound, Event.isBuild, Event.isFitEntry]
  refine ⟨?_, ?_, ?_, ?_⟩
  · rw [countEvents_append, h1, List.any_append, h2, Bool.or_false, Nat.add_zero]
    exact h.2.1
  · rw [List.any_append, h2, Bool.or_false]
    exact h.2.2
  · rw [countEvents_append, h3, h.noEntry]
  · rw [countEvents_append, h.noBuild, Nat.zero_add]

/-! ## The fit entry points: lemmas -/

theorem builds_of_flag (b : Bool) :
    countEvents Event.isBuild (if b = true then [Event.buildParticles] else []) =
      if b = true then 1 else 0 := by
  cases b <;> simp [countEvents, Event.isBuild]

theorem older_of_flag (b : Bool) (nevs : List Event)
    (h : ∀ e ∈ nevs, e.isNotFound = true) :
    ∀ e ∈ nevs ++ (if b = true then [Event.buildParticles] else []),
      e.isNotFound = true ∨ e.isBuild = true := by
  intro e he
  rw [List.mem_append] at he
  rcases he with he | he
  · exact Or.inl (h e he)
  · cases b <;> simp at he
    subst he
    exact Or.inr rfl

theorem noFitterCall_of_flag (b : Bool) (nevs : List Event)
    (h : ∀ e ∈ nevs, e.isNotFound = true) :
    countEvents Event.isFitterCall
      (nevs ++ (if b = true then [Event.buildParticles] else [])) = 0 := by
  apply countEvents_zero
  intro e he
  rcases older_of_flag b nevs h e he with h1 | h1 <;> cases e <;>
    simp_all [Event.isNotFound, Event.isBuild, Event.isFitterCall, Event.isVertexFit,
      Event.isConstrainedFit, Event.isConstrainedVertexFit]

/-- The facts of an entry point that returns before the `try` block. -/
theorem EntryFacts.ofEarly (fit : Fitters) (s s1 : BPHKinematicFit) (entry : Event)
    (hr : Rebuilt { s with kinTree := none, oldFit := false, trace := entry :: s.trace } s1)
    (nevs : List Event) (hnf : ∀ e ∈ nevs, e.isNotFound = true) :
    EntryFacts fit s entry (s1.kinTree, { s1 with trace := nevs ++ s1.trace })
      (nevs ++ (if s.oldKPs = true then [Event.buildParticles] else [])) := by
  obtain ⟨hin, ⟨hof, hkt⟩, hmo, hfr, hlen, hnd, htr, hkept⟩ := hr
  have hold := older_of_flag s.oldKPs nevs hnf
  have hemp : FitTrace fit [] (none : Option KinematicTree) := by
    simp [FitTrace, countEvents]
  obtain ⟨o1, o2, o3, o4⟩ := hemp.older _ hold
  simp only [List.nil_append] at o1 o2 o3 o4
  refine ⟨hin, hmo, hof, rfl, hfr, hlen, hnd, hkept, ?_, ?_, o3, o1, ?_, ?_⟩
  · simp only [htr, List.append_assoc]
  · rw [countEvents_append, builds_of_flag, countEvents_zero, Nat.zero_add]
    intro e he
    have := hnf e he
    cases e <;> simp_all [Event.isNotFound, Event.isBuild]
  · intro _
    exact hkt
  · intro _
    exact ⟨hkt, noFitterCall_of_flag _ _ hnf⟩

/-- The facts of an entry point that went into the `try` block, which ended
with the tree `t` after the events `fevs`. -/
theorem EntryFacts.ofFit (fit : Fitters) (s s1 : BPHKinematicFit) (entry : Event)
    (hr : Rebuilt { s with kinTree := none, oldFit := false, trace := entry :: s.trace } s1)
    (hm : s1.allParticles.length = s1.cand.daughFull.length)
    (nevs : List Event) (hnf : ∀ e ∈ nevs, e.isNotFound = true)
    (t : Option KinematicTree) (fevs : List Event) (hft : FitTrace fit fevs t) :
    EntryFacts fit s entry (t, { s1 with kinTree := t, trace := fevs ++ (nevs ++ s1.trace) })
      (fevs ++ (nevs ++ (if s.oldKPs = true then [Event.buildParticles] else []))) := by
  obtain ⟨hin, ⟨hof, hkt⟩, hmo, hfr, hlen, hnd, htr, hkept⟩ := hr
  have hold := older_of_flag s.oldKPs nevs hnf
  obtain ⟨o1, o2, o3, o4⟩ := hft.older _ hold
  have hcand : s1.cand = s.cand := by
    have := congrArg Prod.fst hin
    simpa [inputs] using this
  refine ⟨hin, hmo, hof, rfl, hfr, hlen, hnd, hkept, ?_, ?_, o3, o1, o2, ?_⟩
  · simp only [htr, List.append_assoc]
  · rw [o4, countEvents_append, builds_of_flag, countEvents_zero, Nat.zero_add]
    intro e he
    have := hnf e he
    cases e <;> simp_all [Event.isNotFound, Event.isBuild]
  · intro h
    rw [← hcand] at h
    exact absurd hm h

theorem kinematicTreeKC_spec (fit : Fitters) (s : BPHKinematicFit) (name : String)
    (kc : Option KinematicConstraint) (hw : s.WellFormed) (hb : s.ParticlesBuilt) :
    ∃ r evs, kinematicTreeKC fit s name kc = some r ∧
      EntryFacts fit s (Event.fitEntryKC name kc) r evs ∧
      (name ≠ "" → s.getComp name = none →
        r.1 = none ∧ countEvents Event.isFitterCall evs = 0) ∧
      (∀ tr, r.1 = some tr → ∃ kComp kTail, FitSucceeded fit kc kComp kTail tr ∧
        (name = "" → kComp = r.2.allParticles ∧ kTail = [])) := by
  obtain ⟨s1, e1, hr⟩ := kinParticles_spec fit
    { s with kinTree := none, oldFit := false,
             trace := Event.fitEntryKC name kc :: s.trace } hw.1 hb
  unfold kinematicTreeKC
  simp only [e1]
  have hkt : s1.kinTree = none := hr.sameFit.2
  have hin := hr.sameInputs
  simp only [inputs, Prod.mk.injEq] at hin
  obtain ⟨hcand, -, hgc, -, -⟩ := hin
  by_cases hm : s1.allParticles.length = s1.cand.daughFull.length
  · by_cases hn : name = ""
    · obtain ⟨t, fevs, e3, hft, hsucc⟩ := fitComponent_spec fit s1 kc s1.allParticles [] hkt
      refine ⟨_, _, ?_, EntryFacts.ofFit fit s s1 _ hr hm [] (by simp) t fevs hft, ?_, ?_⟩
      · simp [hm, hn, e3]
      · intro h
        exact absurd hn h
      · intro tr h
        exact ⟨s1.allParticles, [], hsucc tr h, fun _ => ⟨rfl, rfl⟩⟩
    · cases hg : s.getComp name with
      | none =>
        refine ⟨_, _, ?_, EntryFacts.ofEarly fit s s1 _ hr [notFoundDaughter name]
          (by simp [notFoundDaughter, Event.isNotFound]), ?_, ?_⟩
        · have hg1 : s1.getComp name = none := by rw [hgc]; exact hg
          simp [hm, hn, hg1]
        · intro _ _
          exact ⟨hkt, noFitterCall_of_flag _ _ (by simp [notFoundDaughter, Event.isNotFound])⟩
        · intro tr h
          rw [show (s1.kinTree, ({ s1 with trace := [notFoundDaughter name] ++ s1.trace } :
            BPHKinematicFit)).1 = s1.kinTree from rfl, hkt] at h
          simp at h
      | some comp =>
        obtain ⟨ps, nevs, e2, hnf, hlen⟩ := kinParticlesNames_spec fit s1
          (nfull name comp.daugNames) hr.fresh
        have hbound : ¬ ps.length < comp.daugNames.length := by
          have h1 := hlen (by simp [nfull]) hr.nodup hm
          have h2 := hw.2 name comp hg
          rw [hcand] at h1
          omega
        obtain ⟨t, fevs, e3, hft, hsucc⟩ := fitComponent_spec fit
          { s1 with trace := nevs ++ s1.trace } kc (ps.take comp.daugNames.length)
          (ps.drop comp.daugNames.length) hkt
        refine ⟨_, _, ?_, EntryFacts.ofFit fit s s1 _ hr hm nevs hnf t fevs hft, ?_, ?_⟩
        · have hg1 : s1.getComp name = some comp := by rw [hgc]; exact hg
          simp [hm, hn, hg1, e2, hbound, e3]
        · intro _ h
          cases h
        · intro tr h
          exact ⟨_, _, hsucc tr h, fun h0 => absurd h0 hn⟩
  · refine ⟨_, _, ?_, EntryFacts.ofEarly fit s s1 _ hr [] (by simp), ?_, ?_⟩
    · simp [hm]
    · intro _ _
      exact ⟨hkt, noFitterCall_of_flag _ _ (by simp)⟩
    · intro tr h
      rw [show (s1.kinTree, ({ s1 with trace := [] ++ s1.trace } : BPHKinematicFit)).1
        = s1.kinTree from rfl, hkt] at h
      simp at h

theorem constrainedVertexFit_trace (fit : Fitters) (ps : List KinematicParticle)
    (kc : Option MultiTrackKinematicConstraint) :
    (fit.constrainedVertexFit ps kc = FitResult.raise →
      FitTrace fit [Event.logFitFailed, Event.constrainedVertexFit ps kc] none) ∧
    (∀ t, fit.constrainedVertexFit ps kc = FitResult.tree t →
      FitTrace fit [Event.constrainedVertexFit ps kc] (some t)) := by
  constructor
  · intro h
    simp [FitTrace, countEvents, Event.isFitterCall, Event.isConstrainedVertexFit,
      Event.isFitFailed, Event.raised, h]
  · intro t h
    simp [FitTrace, countEvents, Event.isFitterCall, Event.isConstrainedVertexFit,
      Event.isFitFailed, Event.raised, h]

theorem kinematicTreeMT_spec (fit : Fitters) (s : BPHKinematicFit) (name : String)
    (kc : Option MultiTrackKinematicConstraint) (hw : s.WellFormed) (hb : s.ParticlesBuilt) :
    ∃ r evs, kinematicTreeMT fit s name kc = some r ∧
      EntryFacts fit s (Event.fitEntryMT name kc) r evs ∧
      (name ≠ "" → s.getComp name = none →
        r.1 = none ∧ countEvents Event.isFitterCall evs = 0) ∧
      (∀ tr, r.1 = some tr → ∃ ps, fit.constrainedVertexFit ps kc = FitResult.tree tr) := by
  obtain ⟨s1, e1, hr⟩ := kinParticles_spec fit
    { s with kinTree := none, oldFit := false,
             trace := Event.fitEntryMT name kc :: s.trace } hw.1 hb
  unfold kinematicTreeMT
  simp only [e1]
  have hkt : s1.kinTree = none := hr.sameFit.2
  have hin := hr.sameInputs
  simp only [inputs, Prod.mk.injEq] at hin
  obtain ⟨hcand, -, hgc, -, -⟩ := hin
  have main : ∀ nf : List String, ∃ r evs,
      (match kinParticlesNames fit s1 nf with
        | none => none
        | some (kPart, s2) =>
          match fit.constrainedVertexFit kPart kc with
          | .raise => some (fitFailed
              { s2 with trace := Event.constrainedVertexFit kPart kc :: s2.trace })
          | .tree t => some (some t,
              { s2 with kinTree := some t,
                        trace := Event.constrainedVertexFit kPart kc :: s2.trace })) = some r ∧
      (s1.allParticles.length = s1.cand.daughFull.length →
        EntryFacts fit s (Event.fitEntryMT name kc) r evs) ∧
      (∀ tr, r.1 = some tr → ∃ ps, fit.constrainedVertexFit ps kc = FitResult.tree tr) := by
    intro nf
    obtain ⟨ps, nevs, e2, hnf, -⟩ := kinParticlesNames_spec fit s1 nf hr.fresh
    obtain ⟨hraise, htree⟩ := constrainedVertexFit_trace fit ps kc
    rw [e2]
    cases hf : fit.constrainedVertexFit ps kc with
    | raise =>
      refine ⟨(none, { s1 with kinTree := none, trace :=
          [Event.logFitFailed, Event.constrainedVertexFit ps kc] ++ (nevs ++ s1.trace) }),
        [Event.logFitFailed, Event.constrainedVertexFit ps kc] ++
          (nevs ++ (if s.oldKPs = true then [Event.buildParticles] else [])),
        ?_, fun hm => ?_, ?_⟩
      · simp [hf, fitFailed]
      · exact EntryFacts.ofFit fit s s1 _ hr hm nevs hnf none _ (hraise hf)
      · intro tr h
        simp at h
    | tree t =>
      refine ⟨(some t, { s1 with kinTree := some t, trace :=
          [Event.constrainedVertexFit ps kc] ++ (nevs ++ s1.trace) }),
        [Event.constrainedVertexFit ps kc] ++
          (nevs ++ (if s.oldKPs = true then [Event.buildParticles] else [])),
        ?_, fun hm => ?_, ?_⟩
      · simp [hf]
      · exact EntryFacts.ofFit fit s s1 _ hr hm nevs hnf (some t) _ (htree t hf)
      · intro tr h
        exact ⟨ps, by rw [hf]; exact congrArg FitResult.tree (Option.some.inj h)⟩
  by_cases hm : s1.allParticles.length = s1.cand.daughFull.length
  · by_cases hn : name = ""
    · obtain ⟨r, evs, e3, hf, hs⟩ := main ["*"]
      refine ⟨r, evs, ?_, hf hm, fun h => absurd hn h, hs⟩
      simp only [hm, ne_eq, not_true_eq_false, if_false, hn]
      exact e3
    · cases hg : s.getComp name with
      | none =>
        have hg1 : s1.getComp name = none := by rw [hgc]; exact hg
        refine ⟨_, _, ?_, EntryFacts.ofEarly fit s s1 _ hr [notFoundDaughter name]
          (by simp [notFoundDaughter, Event.isNotFound]), ?_, ?_⟩
        · simp [hm, hn, hg1]
        · intro _ _
          exact ⟨hkt, noFitterCall_of_flag _ _ (by simp [notFoundDaughter, Event.isNotFound])⟩
        · intro tr h
          rw [show (s1.kinTree, ({ s1 with trace := [notFoundDaughter name] ++ s1.trace } :
            BPHKinematicFit)).1 = s1.kinTree from rfl, hkt] at h
          simp at h
      | some comp =>
        have hg1 : s1.getComp name = some comp := by rw [hgc]; exact hg
        obtain ⟨r, evs, e3, hf, hs⟩ := main (nfull name comp.daugNames)
        refine ⟨r, evs, ?_, hf hm, ?_, hs⟩
        · simp only [hm, ne_eq, not_true_eq_false, if_false, hn, not_false_eq_true, if_true,
            hg1, Option.map_some']
          exact e3
        · intro _ h
          cases h
  · refine ⟨_, _, ?_, EntryFacts.ofEarly fit s s1 _ hr [] (by simp), ?_, ?_⟩
    · simp [hm]
    · intro _ _
      exact ⟨hkt, noFitterCall_of_flag _ _ (by simp)⟩
    · intro tr h
      rw [show (s1.kinTree, ({ s1 with trace := [] ++ s1.trace } : BPHKinematicFit)).1
        = s1.kinTree from rfl, hkt] at h
      simp at h

end BPHKinematicFit

/-! ## The sample candidate -/

theorem sampleCand_wellFormed : sampleCand.WellFormed := by
  refine ⟨by decide, ?_⟩
  intro name comp h
  simp only [sampleCand, BPHKinematicFit.construct] at h
  split at h
  · cases h
    decide
  · cases h

theorem sampleCand_particlesBuilt : sampleCand.ParticlesBuilt := by
  intro h
  simp [sampleCand, BPHKinematicFit.construct] at h

/-! ## Constraint selection -/

open BPHKinematicFit

/-- C1 (amended): for a mass that is not negative, a negative sigma makes the
call the call `kinematicTree(name, mass)`, which fits through the
constrained-vertex entry point with a two-track or an N-track mass constraint
of that mass, and a sigma that is not negative sends it to the two-stage
entry point with the single mass constraint of that mass and that sigma. -/
theorem C1_sigma_sign_selects_constraint (fit : Fitters) (s : BPHKinematicFit)
    (name : String) (mass sigma : ℚ) (hmass : 0 ≤ mass) :
    (sigma < 0 →
      kinematicTreeMassSigma fit s name mass sigma = kinematicTreeMass fit s name mass ∧
      ∃ mkc, kinematicTreeMassSigma fit s name mass sigma =
          kinematicTreeMT fit s name (some mkc) ∧
        (mkc = MultiTrackKinematicConstraint.TwoTrackMassKinematicConstraint mass ∨
          ∃ n, mkc = MultiTrackKinematicConstraint.MultiTrackMassKinematicConstraint mass n)) ∧
    (0 ≤ sigma →
      kinematicTreeMassSigma fit s name mass sigma =
        kinematicTreeKC fit s name
          (some (KinematicConstraint.MassKinematicConstraint mass sigma))) := by
  have hm : ¬ mass < 0 := not_lt.2 hmass
  constructor
  · intro hs
    have e : kinematicTreeMassSigma fit s name mass sigma =
        kinematicTreeMass fit s name mass := by
      unfold kinematicTreeMassSigma
      rw [if_neg hm, if_pos hs]
    refine ⟨e, ?_⟩
    rw [e]
    unfold kinematicTreeMass
    rw [if_neg hm]
    by_cases h2 : s.cand.daughFull.length = 2
    · exact ⟨MultiTrackKinematicConstraint.TwoTrackMassKinematicConstraint mass,
        by simp only [h2, if_true], Or.inl rfl⟩
    · exact ⟨MultiTrackKinematicConstraint.MultiTrackMassKinematicConstraint mass
          s.cand.daughFull.length,
        by simp only [h2, if_false], Or.inr ⟨_, rfl⟩⟩
  · intro hs
    unfold kinematicTreeMassSigma
    rw [if_neg hm, if_neg (not_lt.2 hs)]

/-- Witness of C1 on the sample candidate: mass 3 with sigma -1 and with
sigma 1. -/
theorem C1_sigma_sign_selects_constraint_witness :
    (0 : ℚ) ≤ 3 ∧
    (kinematicTreeMassSigma sampleFitters sampleCand "" 3 (-1) =
        kinematicTreeMass sampleFitters sampleCand "" 3 ∧
      ∃ mkc, kinematicTreeMassSigma sampleFitters sampleCand "" 3 (-1) =
          kinematicTreeMT sampleFitters sampleCand "" (some mkc) ∧
        (mkc = MultiTrackKinematicConstraint.TwoTrackMassKinematicConstraint 3 ∨
          ∃ n, mkc = MultiTrackKinematicConstraint.MultiTrackMassKinematicConstraint 3 n)) ∧
    kinematicTreeMassSigma sampleFitters sampleCand "" 3 1 =
      kinematicTreeKC sampleFitters sampleCand ""
        (some (KinematicConstraint.MassKinematicConstraint 3 1)) :=
  ⟨by decide,
    (C1_sigma_sign_selects_constraint sampleFitters sampleCand "" 3 (-1) (by decide)).1
      (by decide),
    (C1_sigma_sign_selects_constraint sampleFitters sampleCand "" 3 1 (by decide)).2
      (by decide)⟩

/-- C1 as stated fails on the sample candidate: with mass 3 and sigma -1 the
call is not a two-stage fit with any single constraint (it makes no call of
the constrained fitter and one of the constrained vertex fitter, with the
N-track constraint), and with sigma 1 it is not a constrained-vertex fit with
any multi-track constraint (it makes one call of the constrained fitter, with
the mass constraint of sigma 1). -/
theorem C1_counterexample :
    (kinematicTreeMassSigma sampleFitters sampleCand "" 3 (-1)).map
        (fun r => (r.2.trace.getLast?, countEvents Event.isConstrainedFit r.2.trace,
          countEvents Event.isConstrainedVertexFit r.2.trace)) =
      some (some (Event.fitEntryMT ""
        (some (MultiTrackKinematicConstraint.MultiTrackMassKinematicConstraint 3 3))), 0, 1) ∧
    (kinematicTreeMassSigma sampleFitters sampleCand "" 3 1).map
        (fun r => (r.2.trace.getLast?, countEvents Event.isConstrainedFit r.2.trace,
          countEvents Event.isConstrainedVertexFit r.2.trace)) =
      some (some (Event.fitEntryKC ""
        (some (KinematicConstraint.MassKinematicConstraint 3 1))), 1, 0) := by
  constructor <;> decide

/-- C2 at the failing input: on the sample candidate the group `"JPsi"` has
two flattened daughters and the whole candidate three, and the call
`kinematicTree("JPsi", 3)` fits with the N-track constraint for three
particles, not with the two-track constraint. -/
theorem C2_count_of_whole_candidate :
    (sampleCand.getComp "JPsi").map (fun c => c.daughFull.length) = some 2 ∧
    sampleCand.cand.daughFull.length = 3 ∧
    kinematicTreeMass sampleFitters sampleCand "JPsi" 3 =
      kinematicTreeMT sampleFitters sampleCand "JPsi"
        (some (MultiTrackKinematicConstraint.MultiTrackMassKinematicConstraint 3 3)) ∧
    (kinematicTreeMass sampleFitters sampleCand "JPsi" 3).map
        (fun r => (r.2.trace.getLast?, countEvents Event.isConstrainedVertexFit r.2.trace)) =
      some (some (Event.fitEntryMT "JPsi"
        (some (MultiTrackKinematicConstraint.MultiTrackMassKinematicConstraint 3 3))), 1) := by
  refine ⟨by decide, by decide, ?_, by decide⟩
  unfold kinematicTreeMass
  rw [if_neg (by decide), if_neg (by decide)]
  rfl

/-- C3: with a negative mass the three-argument and the two-argument calls
are the call `kinematicTree(name)`, whatever sigma is: same returned tree, same
state afterwards; and that call is the two-stage entry point with the null
constraint. -/
theorem C3_negative_mass_is_unconstrained (fit : Fitters) (s : BPHKinematicFit)
    (name : String) (mass sigma : ℚ) (hmass : mass < 0) :
    kinematicTreeMassSigma fit s name mass sigma = kinematicTreeName fit s name ∧
    kinematicTreeMass fit s name mass = kinematicTreeName fit s name ∧
    kinematicTreeName fit s name = kinematicTreeKC fit s name none := by
  refine ⟨?_, ?_, rfl⟩
  · unfold kinematicTreeMassSigma
    rw [if_pos hmass]
  · unfold kinematicTreeMass
    rw [if_pos hmass]

/-- Witness of C3 on the sample candidate: mass -1, sigma 5. -/
theorem C3_negative_mass_is_unconstrained_witness :
    (-1 : ℚ) < 0 ∧
    kinematicTreeMassSigma sampleFitters sampleCand "JPsi" (-1) 5 =
      kinematicTreeName sampleFitters sampleCand "JPsi" ∧
    kinematicTreeMass sampleFitters sampleCand "JPsi" (-1) =
      kinematicTreeName sampleFitters sampleCand "JPsi" ∧
    kinematicTreeName sampleFitters sampleCand "JPsi" =
      kinematicTreeKC sampleFitters sampleCand "JPsi" none :=
  ⟨by decide, C3_negative_mass_is_unconstrained sampleFitters sampleCand "JPsi" (-1) 5
    (by decide)⟩

/-! ## The cache after a fit -/

/-- The state after either entry point is one in which `isEmpty()` answers from
the cache. -/
theorem isEmpty_of_null (fit : Fitters) (s : BPHKinematicFit) (h1 : s.oldFit = false)
    (h2 : s.kinTree = none) : isEmpty fit s = some (true, s) := by
  unfold isEmpty kinematicTree
  simp [h1, h2]

/-- C5: when a flattened leaf daughter of a well-formed candidate has no track,
both fit entry points return the null tree, make no fitter call, and
`isEmpty()` is true afterwards. -/
theorem C5_missing_track_gives_empty_tree (fit : Fitters) (s : BPHKinematicFit)
    (name : String) (kc : Option KinematicConstraint)
    (mkc : Option MultiTrackKinematicConstraint)
    (hw : s.WellFormed) (hb : s.ParticlesBuilt) (hmiss : s.cand.allTracked = false) :
    (∃ s1 evs, kinematicTreeKC fit s name kc = some (none, s1) ∧
      s1.allParticles.length ≠ s.cand.daughFull.length ∧
      s1.trace = evs ++ Event.fitEntryKC name kc :: s.trace ∧
      countEvents Event.isFitterCall evs = 0 ∧
      isEmpty fit s1 = some (true, s1)) ∧
    (∃ s1 evs, kinematicTreeMT fit s name mkc = some (none, s1) ∧
      s1.allParticles.length ≠ s.cand.daughFull.length ∧
      s1.trace = evs ++ Event.fitEntryMT name mkc :: s.trace ∧
      countEvents Event.isFitterCall evs = 0 ∧
      isEmpty fit s1 = some (true, s1)) := by
  have hlt := BPHRecoCandidate.trackCount_lt s.cand hmiss
  have key : ∀ (entry : Event) (r : Option KinematicTree × BPHKinematicFit) (evs : List Event),
      EntryFacts fit s entry r evs →
      r = (none, r.2) ∧ r.2.allParticles.length ≠ s.cand.daughFull.length ∧
        r.2.trace = evs ++ entry :: s.trace ∧ countEvents Event.isFitterCall evs = 0 ∧
        isEmpty fit r.2 = some (true, r.2) := by
    intro entry r evs hf
    have hc : r.2.cand = s.cand := by
      have := congrArg Prod.fst hf.sameInputs
      simpa [inputs] using this
    have hne : r.2.allParticles.length ≠ s.cand.daughFull.length := by
      rw [hf.length, hc]
      omega
    obtain ⟨h1, h2⟩ := hf.mismatch hne
    refine ⟨Prod.ext h1 rfl, hne, hf.trace, h2, ?_⟩
    exact isEmpty_of_null fit r.2 hf.oldFit (by rw [hf.kinTree, h1])
  constructor
  · obtain ⟨r, evs, e, hf, -, -⟩ := kinematicTreeKC_spec fit s name kc hw hb
    obtain ⟨k1, k2⟩ := key _ r evs hf
    exact ⟨r.2, evs, by rw [e, ← k1], k2⟩
  · obtain ⟨r, evs, e, hf, -, -⟩ := kinematicTreeMT_spec fit s name mkc hw hb
    obtain ⟨k1, k2⟩ := key _ r evs hf
    exact ⟨r.2, evs, by rw [e, ← k1], k2⟩

theorem sampleUntracked_wellFormed : sampleUntracked.WellFormed := by
  refine ⟨by decide, ?_⟩
  intro name comp h
  simp only [sampleUntracked, BPHKinematicFit.construct] at h
  split at h
  · cases h
    decide
  · cases h

theorem sampleUntracked_particlesBuilt : sampleUntracked.ParticlesBuilt := by
  intro h
  simp [sampleUntracked, BPHKinematicFit.construct] at h

/-- Witness of C5: the sample candidate without the track of one muon. -/
theorem C5_missing_track_gives_empty_tree_witness :
    sampleUntracked.WellFormed ∧ sampleUntracked.ParticlesBuilt ∧
    sampleUntracked.cand.allTracked = false ∧
    (∃ s1, kinematicTreeKC sampleFitters sampleUntracked "" none = some (none, s1) ∧
      isEmpty sampleFitters s1 = some (true, s1)) ∧
    (∃ s1, kinematicTreeMT sampleFitters sampleUntracked "" none = some (none, s1) ∧
      isEmpty sampleFitters s1 = some (true, s1)) :=
  have h := C5_missing_track_gives_empty_tree sampleFitters sampleUntracked "" none none
    sampleUntracked_wellFormed sampleUntracked_particlesBuilt (by decide)
  ⟨sampleUntracked_wellFormed, sampleUntracked_particlesBuilt, by decide,
    h.1.elim fun s1 h1 => h1.elim fun _ h2 => ⟨s1, h2.1, h2.2.2.2.2⟩,
    h.2.elim fun s1 h1 => h1.elim fun _ h2 => ⟨s1, h2.1, h2.2.2.2.2⟩⟩

/-! ## Exceptions of the fitters -/

/-- C6: when a fitter call made by either entry point throws (the component
vertex fit, the constrained fit, the tail vertex fit, or the constrained vertex
fit), the call still returns, the returned and the cached tree are null, and
the call prints exactly one `FitFailed` diagnostic; when no fitter call throws
it prints none. -/
theorem C6_fitter_exception_gives_empty_tree (fit : Fitters) (s : BPHKinematicFit)
    (name : String) (kc : Option KinematicConstraint)
    (mkc : Option MultiTrackKinematicConstraint)
    (hw : s.WellFormed) (hb : s.ParticlesBuilt) :
    (∃ r evs, kinematicTreeKC fit s name kc = some r ∧
      r.2.trace = evs ++ Event.fitEntryKC name kc :: s.trace ∧
      (evs.any (Event.raised fit) = true →
        r.1 = none ∧ r.2.kinTree = none ∧ countEvents Event.isFitFailed evs = 1) ∧
      (evs.any (Event.raised fit) = false → countEvents Event.isFitFailed evs = 0)) ∧
    (∃ r evs, kinematicTreeMT fit s name mkc = some r ∧
      r.2.trace = evs ++ Event.fitEntryMT name mkc :: s.trace ∧
      (evs.any (Event.raised fit) = true →
        r.1 = none ∧ r.2.kinTree = none ∧ countEvents Event.isFitFailed evs = 1) ∧
      (evs.any (Event.raised fit) = false → countEvents Event.isFitFailed evs = 0)) := by
  have key : ∀ (entry : Event) (r : Option KinematicTree × BPHKinematicFit) (evs : List Event),
      EntryFacts fit s entry r evs →
      r.2.trace = evs ++ entry :: s.trace ∧
      (evs.any (Event.raised fit) = true →
        r.1 = none ∧ r.2.kinTree = none ∧ countEvents Event.isFitFailed evs = 1) ∧
      (evs.any (Event.raised fit) = false → countEvents Event.isFitFailed evs = 0) := by
    intro entry r evs hf
    refine ⟨hf.trace, ?_, ?_⟩
    · intro h
      have h1 := hf.raised h
      refine ⟨h1, by rw [hf.kinTree, h1], ?_⟩
      rw [hf.failed, h]
      rfl
    · intro h
      rw [hf.failed, h]
      rfl
  constructor
  · obtain ⟨r, evs, e, hf, -, -⟩ := kinematicTreeKC_spec fit s name kc hw hb
    exact ⟨r, evs, e, key _ r evs hf⟩
  · obtain ⟨r, evs, e, hf, -, -⟩ := kinematicTreeMT_spec fit s name mkc hw hb
    exact ⟨r, evs, e, key _ r evs hf⟩

/-- Witness of C6 on the sample candidate with fitters whose vertex fit throws
on the two muons of the group `"JPsi"`: the call returns the null tree and
prints one `FitFailed` diagnostic. -/
theorem C6_fitter_exception_gives_empty_tree_witness :
    sampleCand.WellFormed ∧ sampleCand.ParticlesBuilt ∧
    (∃ r evs, kinematicTreeKC throwingFitters sampleCand "JPsi" none = some r ∧
      r.2.trace = evs ++ Event.fitEntryKC "JPsi" none :: sampleCand.trace ∧
      (evs.any (Event.raised throwingFitters) = true →
        r.1 = none ∧ r.2.kinTree = none ∧ countEvents Event.isFitFailed evs = 1) ∧
      (evs.any (Event.raised throwingFitters) = false →
        countEvents Event.isFitFailed evs = 0)) ∧
    (kinematicTreeKC throwingFitters sampleCand "JPsi" none).map
      (fun r => (r.1, r.2.kinTree, r.2.trace.any (Event.raised throwingFitters),
        countEvents Event.isFitFailed r.2.trace)) = some (none, none, true, 1) :=
  ⟨sampleCand_wellFormed, sampleCand_particlesBuilt,
    (C6_fitter_exception_gives_empty_tree throwingFitters sampleCand "JPsi" none none
      sampleCand_wellFormed sampleCand_particlesBuilt).1,
    by decide⟩

/-! ## Terminal states -/

theorem terminal_of_tree (tr : KinematicTree)
    (h : tr.isEmpty = true ∨ tr.topParticle.currentState.isValid = true) :
    Terminal (some tr) := by
  cases he : tr.isEmpty with
  | true => exact Or.inl he
  | false =>
    rcases h with h | h
    · rw [he] at h
      cases h
    · exact Or.inr ⟨tr, rfl, he, h⟩

theorem terminal_of_fitSucceeded (fit : Fitters) (hfit : fit.TopValid)
    (kc : Option KinematicConstraint) (kComp kTail : List KinematicParticle)
    (tr : KinematicTree) (h : FitSucceeded fit kc kComp kTail tr) : Terminal (some tr) := by
  obtain ⟨t0, t1, h0, he0, h1, h2⟩ := h
  have hv1 : t1.isEmpty = true ∨ t1.topParticle.currentState.isValid = true := by
    rcases h1 with ⟨-, rfl⟩ | ⟨c, -, hc, -⟩
    · exact hfit.1 kComp t1 h0
    · exact hfit.2.1 c t0 t1 hc
  rcases h2 with ⟨-, rfl⟩ | ⟨-, -, hf⟩
  · exact terminal_of_tree _ hv1
  · exact terminal_of_tree _ (hfit.1 _ tr hf)

/-- C7, as the code has it: the tree either entry point returns is the tree
it leaves in the cache, and when no fitter returns a non-empty tree whose top
particle has an invalid state, that tree is Empty (null or empty) or Valid
(non-empty with a valid top state). -/
theorem C7_terminal_when_fitters_give_valid_tops (fit : Fitters) (s : BPHKinematicFit)
    (name : String) (kc : Option KinematicConstraint)
    (mkc : Option MultiTrackKinematicConstraint)
    (hw : s.WellFormed) (hb : s.ParticlesBuilt) (hfit : fit.TopValid) :
    (∃ r, kinematicTreeKC fit s name kc = some r ∧ r.2.kinTree = r.1 ∧ Terminal r.1) ∧
    (∃ r, kinematicTreeMT fit s name mkc = some r ∧ r.2.kinTree = r.1 ∧ Terminal r.1) := by
  constructor
  · obtain ⟨r, evs, e, hf, -, hs⟩ := kinematicTreeKC_spec fit s name kc hw hb
    refine ⟨r, e, hf.kinTree, ?_⟩
    cases h : r.1 with
    | none => exact Or.inl rfl
    | some tr =>
      obtain ⟨kComp, kTail, h1, -⟩ := hs tr h
      exact terminal_of_fitSucceeded fit hfit kc kComp kTail tr h1
  · obtain ⟨r, evs, e, hf, -, hs⟩ := kinematicTreeMT_spec fit s name mkc hw hb
    refine ⟨r, e, hf.kinTree, ?_⟩
    cases h : r.1 with
    | none => exact Or.inl rfl
    | some tr =>
      obtain ⟨ps, h1⟩ := hs tr h
      exact terminal_of_tree _ (hfit.2.2 ps mkc tr h1)

theorem sampleFitters_topValid : sampleFitters.TopValid := by
  refine ⟨?_, ?_, ?_⟩
  · intro ps t h
    simp only [sampleFitters, FitResult.tree.injEq] at h
    subst h
    exact Or.inr rfl
  · intro c t0 t h
    simp only [sampleFitters, FitResult.tree.injEq] at h
    subst h
    exact Or.inr rfl
  · intro ps c t h
    simp only [sampleFitters, FitResult.tree.injEq] at h
    subst h
    exact Or.inr rfl

/-- Witness of C7 on the sample candidate with the sample fitters. -/
theorem C7_terminal_when_fitters_give_valid_tops_witness :
    sampleCand.WellFormed ∧ sampleCand.ParticlesBuilt ∧ sampleFitters.TopValid ∧
    (∃ r, kinematicTreeKC sampleFitters sampleCand "JPsi" none = some r ∧
      r.2.kinTree = r.1 ∧ Terminal r.1) ∧
    (∃ r, kinematicTreeMT sampleFitters sampleCand "JPsi" none = some r ∧
      r.2.kinTree = r.1 ∧ Terminal r.1) :=
  ⟨sampleCand_wellFormed, sampleCand_particlesBuilt, sampleFitters_topValid,
    C7_terminal_when_fitters_give_valid_tops sampleFitters sampleCand "JPsi" none none
      sampleCand_wellFormed sampleCand_particlesBuilt sampleFitters_topValid⟩

/-- C7 as stated fails: with a vertex fitter that gives a non-empty tree whose
top particle has an invalid state, the unconstrained fit of the whole sample
candidate returns and caches that tree, non-empty with an invalid top state. -/
theorem C7_counterexample :
    (kinematicTreeKC invalidTopFitters sampleCand "" none).map
        (fun r => (r.1.map (fun t => (t.isEmpty, t.topParticle.currentState.isValid)),
          r.2.kinTree.map (fun t => (t.isEmpty, t.topParticle.currentState.isValid)))) =
      some (some (false, false), some (false, false)) := by
  decide

/-! ## The constraint setter -/

/-- C9: `setConstraint(mass, sigma)` sets the fit and momentum stale flags,
leaves the particle stale flag, the particle list, both indices, the mass-sigma
map and every other field as they were, and afterwards `constrMass()` is
`mass` and `constrSigma()` is `sigma`; on a freshly constructed candidate both
are -1. -/
theorem C9_setConstraint_frame (s : BPHKinematicFit) (mass sigma : ℚ)
    (cand : BPHRecoCandidate) (getDaug : String → Option Nat)
    (getComp : String → Option BPHRecoCandidate) :
    (s.setConstraint mass sigma).oldFit = true ∧
    (s.setConstraint mass sigma).oldMom = true ∧
    (s.setConstraint mass sigma).particleCache = s.particleCache ∧
    (s.setConstraint mass sigma).cand = s.cand ∧
    (s.setConstraint mass sigma).getDaug = s.getDaug ∧
    (s.setConstraint mass sigma).getComp = s.getComp ∧
    (s.setConstraint mass sigma).kinTree = s.kinTree ∧
    (s.setConstraint mass sigma).totalMomentum = s.totalMomentum ∧
    (s.setConstraint mass sigma).trace = s.trace ∧
    (s.setConstraint mass sigma).constrMass = mass ∧
    (s.setConstraint mass sigma).constrSigma = sigma ∧
    (construct cand getDaug getComp).constrMass = -1 ∧
    (construct cand getDaug getComp).constrSigma = -1 ∧
    BPHKinematicFit.default.constrMass = -1 ∧
    BPHKinematicFit.default.constrSigma = -1 :=
  ⟨rfl, rfl, rfl, rfl, rfl, rfl, rfl, rfl, rfl, rfl, rfl, rfl, rfl, rfl, rfl⟩

/-! ## Lazy evaluation of the fit: lemmas -/

namespace BPHKinematicFit

theorem entryFacts_particlesBuilt {fit : Fitters} {s : BPHKinematicFit} {entry : Event}
    {r : Option KinematicTree × BPHKinematicFit} {evs : List Event}
    (hf : EntryFacts fit s entry r evs) : r.2.ParticlesBuilt :=
  fun _ => ⟨hf.length, hf.nodup⟩

theorem kinematicTreeMass_spec (fit : Fitters) (s : BPHKinematicFit) (name : String)
    (mass : ℚ) (hw : s.WellFormed) (hb : s.ParticlesBuilt) :
    ∃ r evs entry, kinematicTreeMass fit s name mass = some r ∧
      entry.isFitEntry = true ∧ EntryFacts fit s entry r evs := by
  unfold kinematicTreeMass kinematicTreeName
  by_cases hm : mass < 0
  · obtain ⟨r, evs, e, hf, -, -⟩ := kinematicTreeKC_spec fit s name none hw hb
    exact ⟨r, evs, Event.fitEntryKC name none, by rw [if_pos hm]; exact e, rfl, hf⟩
  · by_cases h2 : s.cand.daughFull.length = 2
    · obtain ⟨r, evs, e, hf, -, -⟩ := kinematicTreeMT_spec fit s name
        (some (MultiTrackKinematicConstraint.TwoTrackMassKinematicConstraint mass)) hw hb
      refine ⟨r, evs, Event.fitEntryMT name _, ?_, rfl, hf⟩
      simp only [hm, if_false, h2, if_true]
      exact e
    · obtain ⟨r, evs, e, hf, -, -⟩ := kinematicTreeMT_spec fit s name
        (some (MultiTrackKinematicConstraint.MultiTrackMassKinematicConstraint mass
          s.cand.daughFull.length)) hw hb
      refine ⟨r, evs, Event.fitEntryMT name _, ?_, rfl, hf⟩
      simp only [hm, if_false, h2]
      exact e

theorem kinematicTreeMassSigma_spec (fit : Fitters) (s : BPHKinematicFit) (name : String)
    (mass sigma : ℚ) (hw : s.WellFormed) (hb : s.ParticlesBuilt) :
    ∃ r evs entry, kinematicTreeMassSigma fit s name mass sigma = some r ∧
      entry.isFitEntry = true ∧ EntryFacts fit s entry r evs := by
  unfold kinematicTreeMassSigma kinematicTreeName
  by_cases hm : mass < 0
  · obtain ⟨r, evs, e, hf, -, -⟩ := kinematicTreeKC_spec fit s name none hw hb
    exact ⟨r, evs, Event.fitEntryKC name none, by rw [if_pos hm]; exact e, rfl, hf⟩
  · rw [if_neg hm]
    by_cases hs : sigma < 0
    · rw [if_pos hs]
      exact kinematicTreeMass_spec fit s name mass hw hb
    · rw [if_neg hs]
      obtain ⟨r, evs, e, hf, -, -⟩ := kinematicTreeKC_spec fit s name
        (some (KinematicConstraint.MassKinematicConstraint mass sigma)) hw hb
      exact ⟨r, evs, Event.fitEntryKC name _, e, rfl, hf⟩

theorem kinematicTree_spec (fit : Fitters) (s : BPHKinematicFit)
    (hw : s.WellFormed) (hb : s.ParticlesBuilt) :
    ∃ s1, kinematicTree fit s = some (s1.kinTree, s1) ∧ Forced fit s s1 := by
  unfold kinematicTree
  cases ho : s.oldFit with
  | false =>
    refine ⟨s, by simp, rfl, rfl, ho, hb, ⟨[], ?_⟩, fun _ => rfl, ?_⟩
    · simp [ho, countEvents]
    · intro h
      rw [ho] at h
      cases h
  | true =>
    obtain ⟨r, evs, entry, e, hen, hf⟩ := kinematicTreeMassSigma_spec fit s ""
      s.massConst s.massSigma hw hb
    refine ⟨r.2, ?_, hf.sameInputs, hf.sameMomentum, hf.oldFit, entryFacts_particlesBuilt hf,
      ⟨evs ++ [entry], ?_⟩, ?_, fun _ => hf.fresh⟩
    · simp only [if_true, e, hf.kinTree]
    · refine ⟨by simp [hf.trace], ?_, ?_⟩
      · rw [countEvents_append, hf.entries, countEvents_cons, hen, ho]
        rfl
      · have hb0 : entry.isBuild = false := by
          cases entry <;> simp_all [Event.isFitEntry, Event.isBuild]
        rw [countEvents_append, hf.builds, countEvents_cons, hb0, ho]
        cases s.oldKPs <;> rfl
    · intro h
      rw [ho] at h
      cases h

theorem isEmpty_spec (fit : Fitters) (s : BPHKinematicFit)
    (hw : s.WellFormed) (hb : s.ParticlesBuilt) :
    ∃ s1, Forced fit s s1 ∧ isEmpty fit s = some (treeIsEmpty s1.kinTree, s1) := by
  obtain ⟨s1, e, hf⟩ := kinematicTree_spec fit s hw hb
  refine ⟨s1, hf, ?_⟩
  unfold isEmpty
  rw [e]
  cases h : s1.kinTree <;> simp [treeIsEmpty, h]

theorem topParticle_spec (fit : Fitters) (s : BPHKinematicFit)
    (hw : s.WellFormed) (hb : s.ParticlesBuilt) :
    ∃ s1, Forced fit s s1 ∧ topParticle fit s = some (topOfTree s1.kinTree, s1) := by
  obtain ⟨s1, hf, e⟩ := isEmpty_spec fit s hw hb
  refine ⟨s1, hf, ?_⟩
  unfold topParticle
  rw [e]
  cases h : s1.kinTree with
  | none => simp [treeIsEmpty, topOfTree]
  | some t => cases h2 : t.isEmpty <;> simp [treeIsEmpty, topOfTree, h2, h]

theorem currentParticle_spec (fit : Fitters) (s : BPHKinematicFit)
    (hw : s.WellFormed) (hb : s.ParticlesBuilt) :
    ∃ s1 v, Forced fit s s1 ∧ currentParticle fit s = some (v, s1) := by
  obtain ⟨s1, hf, e⟩ := isEmpty_spec fit s hw hb
  unfold currentParticle
  rw [e]
  cases h : s1.kinTree with
  | none => exact ⟨s1, none, hf, by simp [treeIsEmpty]⟩
  | some t =>
    cases h2 : t.isEmpty
    · exact ⟨s1, some t.currentParticle, hf, by simp [treeIsEmpty, h2, h]⟩
    · exact ⟨s1, none, hf, by simp [treeIsEmpty, h2]⟩

theorem currentDecayVertex_spec (fit : Fitters) (s : BPHKinematicFit)
    (hw : s.WellFormed) (hb : s.ParticlesBuilt) :
    ∃ s1 v, Forced fit s s1 ∧ currentDecayVertex fit s = some (v, s1) := by
  obtain ⟨s1, hf, e⟩ := isEmpty_spec fit s hw hb
  unfold currentDecayVertex
  rw [e]
  cases h : s1.kinTree with
  | none => exact ⟨s1, none, hf, by simp [treeIsEmpty]⟩
  | some t =>
    cases h2 : t.isEmpty
    · exact ⟨s1, some t.currentDecayVertex, hf, by simp [treeIsEmpty, h2, h]⟩
    · exact ⟨s1, none, hf, by simp [treeIsEmpty, h2]⟩

theorem topDecayVertex_spec (fit : Fitters) (s : BPHKinematicFit)
    (hw : s.WellFormed) (hb : s.ParticlesBuilt) :
    ∃ s1 v, Forced fit s s1 ∧
      (topDecayVertex fit s = some (v, s1) ∨
        ∃ t, s1.kinTree = some t ∧
          topDecayVertex fit s = some (v, { s1 with kinTree := some t.movePointerToTheTop })) := by
  obtain ⟨s1, hf, e⟩ := isEmpty_spec fit s hw hb
  unfold topDecayVertex
  rw [e]
  cases h : s1.kinTree with
  | none => exact ⟨s1, none, hf, Or.inl (by simp [treeIsEmpty])⟩
  | some t =>
    cases h2 : t.isEmpty
    · exact ⟨s1, some t.movePointerToTheTop.currentDecayVertex, hf,
        Or.inr ⟨t, h, by simp [treeIsEmpty, h2, h]⟩⟩
    · exact ⟨s1, none, hf, Or.inl (by simp [treeIsEmpty, h2])⟩

theorem isValidFit_spec (fit : Fitters) (s : BPHKinematicFit)
    (hw : s.WellFormed) (hb : s.ParticlesBuilt) :
    ∃ s1, Forced fit s s1 ∧ isValidFit fit s = some (validTree s1.kinTree, s1) := by
  obtain ⟨s1, hf, e⟩ := topParticle_spec fit s hw hb
  refine ⟨s1, hf, ?_⟩
  unfold isValidFit validTree
  rw [e]
  cases topOfTree s1.kinTree <;> rfl

theorem mass_spec (fit : Fitters) (s : BPHKinematicFit)
    (hw : s.WellFormed) (hb : s.ParticlesBuilt) :
    ∃ s1 v, Forced fit s s1 ∧ mass fit s = some (v, s1) := by
  obtain ⟨s1, hf, e⟩ := topParticle_spec fit s hw hb
  unfold mass
  rw [e]
  cases h : topOfTree s1.kinTree with
  | none => exact ⟨s1, -1, hf, rfl⟩
  | some kPart =>
    cases h2 : kPart.currentState.isValid
    · exact ⟨s1, -1, hf, by simp [h2]⟩
    · exact ⟨s1, kPart.currentState.mass, hf, by simp [h2]⟩

theorem forced_wellFormed {fit : Fitters} {s s1 : BPHKinematicFit}
    (hf : Forced fit s s1) (hw : s.WellFormed) : s1.WellFormed := by
  have h := hf.sameInputs
  simp only [inputs, Prod.mk.injEq] at h
  obtain ⟨h1, -, h3, -, -⟩ := h
  unfold WellFormed
  rw [h1, h3]
  exact hw

theorem momentumOfTree_eq (fit : Fitters) (cand : BPHRecoCandidate)
    (t : Option KinematicTree) :
    momentumOfTree fit cand t =
      match topOfTree t with
      | none => simpleMomentumSum cand
      | some top =>
        if top.currentState.isValid then momentumOfState fit top.currentState
        else simpleMomentumSum cand := by
  cases t with
  | none => rfl
  | some tr =>
    cases h : tr.isEmpty <;> simp [momentumOfTree, topOfTree, h]

/-- The state `fitMomentum` leaves: that after `kinematicTree()`, with the
momentum computed from the cached tree, the momentum flag cleared, and one
`FitNotFound` diagnostic if the fit is not valid. -/
theorem fitMomentum_spec (fit : Fitters) (s : BPHKinematicFit)
    (hw : s.WellFormed) (hb : s.ParticlesBuilt) :
    ∃ s1, Forced fit s s1 ∧
      fitMomentum fit s = some { s1 with
        totalMomentum := momentumOfTree fit s1.cand s1.kinTree, oldMom := false,
        trace := (if validTree s1.kinTree then [] else [Event.logFitNotFound]) ++ s1.trace } := by
  obtain ⟨s1, hf, e⟩ := isValidFit_spec fit s hw hb
  refine ⟨s1, hf, ?_⟩
  unfold fitMomentum
  rw [e]
  obtain ⟨s2, hf2, e2⟩ := topParticle_spec fit s1 (forced_wellFormed hf hw) hf.built
  have hs2 : s2 = s1 := hf2.same hf.oldFit
  subst hs2
  rw [momentumOfTree_eq]
  cases hv : validTree s2.kinTree with
  | false =>
    simp only [Bool.false_eq_true, if_false, List.singleton_append]
    unfold validTree at hv
    cases ht : topOfTree s2.kinTree with
    | none => rfl
    | some top =>
      rw [ht] at hv
      simp only at hv
      simp [hv]
  | true =>
    simp only [if_true, List.nil_append, e2]
    unfold validTree at hv
    cases ht : topOfTree s2.kinTree with
    | none =>
      rw [ht] at hv
      simp at hv
    | some top =>
      rw [ht] at hv
      simp only at hv
      simp [hv]

theorem wellFormed_of_inputs {s s1 : BPHKinematicFit} (h : s1.inputs = s.inputs)
    (hw : s.WellFormed) : s1.WellFormed := by
  simp only [inputs, Prod.mk.injEq] at h
  obtain ⟨h1, -, h3, -, -⟩ := h
  unfold WellFormed
  rw [h1, h3]
  exact hw

theorem particlesBuilt_of_cache {s s1 : BPHKinematicFit}
    (h : s1.particleCache = s.particleCache) (hc : s1.cand = s.cand)
    (hb : s.ParticlesBuilt) : s1.ParticlesBuilt := by
  simp only [particleCache, Prod.mk.injEq] at h
  obtain ⟨h1, h2, -, -, -⟩ := h
  unfold ParticlesBuilt
  rw [h1, h2, hc]
  exact hb

/-- The operations that only force the fit end in the state `kinematicTree()`
leaves. -/
theorem run_forced (fit : Fitters) (s : BPHKinematicFit) (op : Op)
    (hop : op = Op.kinematicTree ∨ op = Op.isEmpty ∨ op = Op.isValidFit ∨
      op = Op.currentParticle ∨ op = Op.currentDecayVertex ∨ op = Op.topParticle ∨
      op = Op.mass)
    (hw : s.WellFormed) (hb : s.ParticlesBuilt) :
    ∃ s1, Forced fit s s1 ∧ op.run fit s = some s1 := by
  rcases hop with rfl | rfl | rfl | rfl | rfl | rfl | rfl
  · obtain ⟨s1, e, hf⟩ := kinematicTree_spec fit s hw hb
    exact ⟨s1, hf, by simp [Op.run, e]⟩
  · obtain ⟨s1, hf, e⟩ := isEmpty_spec fit s hw hb
    exact ⟨s1, hf, by simp [Op.run, e]⟩
  · obtain ⟨s1, hf, e⟩ := isValidFit_spec fit s hw hb
    exact ⟨s1, hf, by simp [Op.run, e]⟩
  · obtain ⟨s1, v, hf, e⟩ := currentParticle_spec fit s hw hb
    exact ⟨s1, hf, by simp [Op.run, e]⟩
  · obtain ⟨s1, v, hf, e⟩ := currentDecayVertex_spec fit s hw hb
    exact ⟨s1, hf, by simp [Op.run, e]⟩
  · obtain ⟨s1, hf, e⟩ := topParticle_spec fit s hw hb
    exact ⟨s1, hf, by simp [Op.run, e]⟩
  · obtain ⟨s1, v, hf, e⟩ := mass_spec fit s hw hb
    exact ⟨s1, hf, by simp [Op.run, e]⟩

/-- A read of a derived quantity: it returns, the fit is fresh afterwards, and
it went once into a fit entry point if the fit was stale, once into
`buildParticles` if the particle list was stale too, and into neither
otherwise. -/
theorem read_spec (fit : Fitters) (s : BPHKinematicFit) (op : Op) (hop : op.isRead = true)
    (hw : s.WellFormed) (hb : s.ParticlesBuilt) (hmom : s.oldMom = false → s.oldFit = false) :
    ∃ s1, op.run fit s = some s1 ∧ s1.WellFormed ∧ s1.ParticlesBuilt ∧ s1.oldFit = false ∧
      ∃ evs, s1.trace = evs ++ s.trace ∧
        countEvents Event.isFitEntry evs = (if s.oldFit then 1 else 0) ∧
        countEvents Event.isBuild evs = (if s.oldFit && s.oldKPs then 1 else 0) := by
  have forced : ∀ op : Op, (op = Op.kinematicTree ∨ op = Op.isEmpty ∨ op = Op.isValidFit ∨
      op = Op.currentParticle ∨ op = Op.currentDecayVertex ∨ op = Op.topParticle ∨
      op = Op.mass) →
      ∃ s1, op.run fit s = some s1 ∧ s1.WellFormed ∧ s1.ParticlesBuilt ∧ s1.oldFit = false ∧
        ∃ evs, s1.trace = evs ++ s.trace ∧
          countEvents Event.isFitEntry evs = (if s.oldFit then 1 else 0) ∧
          countEvents Event.isBuild evs = (if s.oldFit && s.oldKPs then 1 else 0) := by
    intro op h
    obtain ⟨s1, hf, e⟩ := run_forced fit s op h hw hb
    exact ⟨s1, e, forced_wellFormed hf hw, hf.built, hf.oldFit, hf.trace⟩
  cases op with
  | isEmpty => exact forced _ (by simp)
  | isValidFit => exact forced _ (by simp)
  | currentParticle => exact forced _ (by simp)
  | currentDecayVertex => exact forced _ (by simp)
  | topParticle => exact forced _ (by simp)
  | mass => exact forced _ (by simp)
  | topDecayVertex =>
    obtain ⟨s1, v, hf, e⟩ := topDecayVertex_spec fit s hw hb
    rcases e with e | ⟨t, -, e⟩
    · exact ⟨s1, by simp [Op.run, e], forced_wellFormed hf hw, hf.built, hf.oldFit, hf.trace⟩
    · exact ⟨{ s1 with kinTree := some t.movePointerToTheTop }, by simp [Op.run, e],
        wellFormed_of_inputs rfl (show s1.WellFormed from forced_wellFormed hf hw),
        particlesBuilt_of_cache rfl rfl hf.built,
        hf.oldFit, hf.trace⟩
  | p4 =>
    cases hm : s.oldMom with
    | false =>
      have ho := hmom hm
      refine ⟨s, by simp [Op.run, BPHKinematicFit.p4, hm], hw, hb, ho, [], ?_⟩
      simp [ho, countEvents]
    | true =>
      obtain ⟨s1, hf, e⟩ := fitMomentum_spec fit s hw hb
      obtain ⟨evs, h1, h2, h3⟩ := hf.trace
      refine ⟨{ s1 with
          totalMomentum := momentumOfTree fit s1.cand s1.kinTree, oldMom := false,
          trace := (if validTree s1.kinTree then [] else [Event.logFitNotFound]) ++ s1.trace },
        by simp [Op.run, BPHKinematicFit.p4, hm, e],
        wellFormed_of_inputs rfl (show s1.WellFormed from forced_wellFormed hf hw),
        particlesBuilt_of_cache rfl rfl hf.built,
        hf.oldFit,
        (if validTree s1.kinTree then [] else [Event.logFitNotFound]) ++ evs, ?_, ?_, ?_⟩
      · simp only [h1, List.append_assoc]
      · rw [countEvents_append, h2]
        cases validTree s1.kinTree <;> simp [countEvents, Event.isFitEntry]
      · rw [countEvents_append, h3]
        cases validTree s1.kinTree <;> simp [countEvents, Event.isBuild]
  | setConstraint _ _ => simp [Op.isRead] at hop
  | resetKinematicFit => simp [Op.isRead] at hop
  | kinParticles => simp [Op.isRead] at hop
  | kinParticlesNames _ => simp [Op.isRead] at hop
  | kinematicTree => simp [Op.isRead] at hop
  | kinematicTreeMassSigma _ _ _ => simp [Op.isRead] at hop
  | kinematicTreeMass _ _ => simp [Op.isRead] at hop
  | kinematicTreeName _ => simp [Op.isRead] at hop
  | kinematicTreeKC _ _ => simp [Op.isRead] at hop
  | kinematicTreeMT _ _ => simp [Op.isRead] at hop

end BPHKinematicFit

/-! ## Invariants of the public operations -/

namespace BPHKinematicFit

theorem momentumOfTree_movePointer (fit : Fitters) (cand : BPHRecoCandidate)
    (t : KinematicTree) :
    momentumOfTree fit cand (some t.movePointerToTheTop) = momentumOfTree fit cand (some t) :=
  rfl

end BPHKinematicFit

/-! ## Reset and lazy recomputation -/

/-- C8: after `resetKinematicFit()` the three stale flags are set; the next
read of a derived quantity (`isEmpty`, `isValidFit`, `topParticle`,
`currentParticle`, `mass`, `p4`, or a decay vertex accessor) returns after
exactly one entry into `buildParticles` and exactly one entry into a fit entry
point, and a read that follows at once makes neither. -/
theorem C8_reset_then_one_rebuild_and_one_fit (fit : Fitters) (s : BPHKinematicFit)
    (op1 op2 : Op) (hw : s.WellFormed) (h1 : op1.isRead = true) (h2 : op2.isRead = true) :
    s.resetKinematicFit.oldKPs = true ∧ s.resetKinematicFit.oldFit = true ∧
    s.resetKinematicFit.oldMom = true ∧
    ∃ s1 s2 evs1 evs2,
      op1.run fit s.resetKinematicFit = some s1 ∧ s1.trace = evs1 ++ s.trace ∧
      countEvents Event.isBuild evs1 = 1 ∧ countEvents Event.isFitEntry evs1 = 1 ∧
      op2.run fit s1 = some s2 ∧ s2.trace = evs2 ++ s1.trace ∧
      countEvents Event.isBuild evs2 = 0 ∧ countEvents Event.isFitEntry evs2 = 0 := by
  refine ⟨rfl, rfl, rfl, ?_⟩
  obtain ⟨s1, e1, hw1, hb1, ho1, evs1, t1, c1, b1⟩ := read_spec fit s.resetKinematicFit op1 h1
    hw (by intro h; cases h) (by intro h; cases h)
  obtain ⟨s2, e2, -, -, -, evs2, t2, c2, b2⟩ := read_spec fit s1 op2 h2 hw1 hb1 (fun _ => ho1)
  refine ⟨s1, s2, evs1, evs2, e1, t1, ?_, ?_, e2, t2, ?_, ?_⟩
  · simpa [resetKinematicFit] using b1
  · simpa [resetKinematicFit] using c1
  · simpa [ho1] using b2
  · simpa [ho1] using c2

/-- Witness of C8 on the sample candidate: `isValidFit()` and then `p4()`. -/
theorem C8_reset_then_one_rebuild_and_one_fit_witness :
    sampleCand.WellFormed ∧ Op.isValidFit.isRead = true ∧ Op.p4.isRead = true ∧
    ∃ s1 s2 evs1 evs2,
      Op.isValidFit.run sampleFitters sampleCand.resetKinematicFit = some s1 ∧
      s1.trace = evs1 ++ sampleCand.trace ∧
      countEvents Event.isBuild evs1 = 1 ∧ countEvents Event.isFitEntry evs1 = 1 ∧
      Op.p4.run sampleFitters s1 = some s2 ∧ s2.trace = evs2 ++ s1.trace ∧
      countEvents Event.isBuild evs2 = 0 ∧ countEvents Event.isFitEntry evs2 = 0 :=
  ⟨sampleCand_wellFormed, rfl, rfl,
    (C8_reset_then_one_rebuild_and_one_fit sampleFitters sampleCand Op.isValidFit Op.p4
      sampleCand_wellFormed rfl rfl).2.2.2⟩

/-! ## The momentum cache -/

theorem firstOccurrences_filter (P : Nat → Bool) :
    ∀ l : List KinematicParticle,
      firstOccurrences (l.filter (fun p => P p.ptr)) =
        (firstOccurrences l).filter (fun p => P p.ptr)
  | [] => rfl
  | q :: r => by
    have ih := firstOccurrences_filter P r
    cases hq : P q.ptr with
    | true =>
      simp only [List.filter_cons, hq, if_true, firstOccurrences, ih]
      congr 1
      rw [List.filter_filter, List.filter_filter]
      congr 1
      funext x
      exact Bool.and_comm _ _
    | false =>
      simp only [List.filter_cons, hq, Bool.false_eq_true, if_false, firstOccurrences, ih,
        List.filter_filter]
      apply List.filter_congr
      intro x _
      cases hx : P x.ptr with
      | false => rfl
      | true =>
        have : (x.ptr != q.ptr) = true := by
          simp only [bne_iff_ne, ne_eq]
          intro h
          rw [h, hq] at hx
          cases hx
        simp [this]

theorem firstOccurrences_mem :
    ∀ (l : List KinematicParticle) (q : KinematicParticle), q ∈ firstOccurrences l → q ∈ l
  | [], q, h => by simp [firstOccurrences] at h
  | p :: rest, q, h => by
    simp only [firstOccurrences, List.mem_cons, List.mem_filter] at h
    rcases h with h | ⟨h, -⟩
    · exact h ▸ List.mem_cons_self _ _
    · exact List.mem_cons_of_mem _ (firstOccurrences_mem rest q h)

theorem firstOccurrences_covers :
    ∀ (l : List KinematicParticle) (q : KinematicParticle), q ∈ l →
      q.ptr ∈ (firstOccurrences l).map (fun p => p.ptr)
  | [], q, h => by simp at h
  | p :: rest, q, h => by
    simp only [firstOccurrences, List.map_cons, List.mem_cons]
    by_cases hq : q.ptr = p.ptr
    · exact Or.inl hq
    · right
      simp only [List.mem_cons] at h
      rcases h with h | h
      · exact absurd (h ▸ rfl) hq
      · obtain ⟨x, hx, hxq⟩ := List.mem_map.1 (firstOccurrences_covers rest q h)
        refine List.mem_map.2 ⟨x, List.mem_filter.2 ⟨hx, ?_⟩, hxq⟩
        simp only [bne_iff_ne, ne_eq]
        rw [hxq]
        exact hq

theorem firstOccurrences_nodup :
    ∀ l : List KinematicParticle, ((firstOccurrences l).map (fun p => p.ptr)).Nodup
  | [] => by simp [firstOccurrences]
  | p :: rest => by
    simp only [firstOccurrences, List.map_cons, List.nodup_cons]
    constructor
    · intro h
      obtain ⟨x, hx, hxp⟩ := List.mem_map.1 h
      have := (List.mem_filter.1 hx).2
      simp only [bne_iff_ne, ne_eq] at this
      exact this hxp
    · exact (firstOccurrences_nodup rest).sublist
        (List.Sublist.map (fun x : KinematicParticle => x.ptr) (List.filter_sublist _))

theorem firstOccurrences_of_nodup :
    ∀ l : List KinematicParticle, (l.map (fun p => p.ptr)).Nodup → firstOccurrences l = l
  | [], _ => rfl
  | p :: rest, h => by
    simp only [List.map_cons, List.nodup_cons] at h
    simp only [firstOccurrences, firstOccurrences_of_nodup rest h.2]
    congr 1
    rw [List.filter_eq_self]
    intro x hx
    simp only [bne_iff_ne, ne_eq]
    intro hxp
    exact h.1 (List.mem_map.2 ⟨x, hx, hxp⟩)

theorem firstOccurrences_append :
    ∀ a b : List KinematicParticle,
      firstOccurrences (a ++ b) =
        firstOccurrences a ++
          (firstOccurrences b).filter (fun q => !(a.map (fun p => p.ptr)).contains q.ptr)
  | [], b => by simp [firstOccurrences]
  | p :: rest, b => by
    have ih := firstOccurrences_append rest b
    have e1 : firstOccurrences (p :: rest ++ b) =
        p :: (firstOccurrences (rest ++ b)).filter (fun q => q.ptr != p.ptr) := rfl
    have e2 : firstOccurrences (p :: rest) =
        p :: (firstOccurrences rest).filter (fun q => q.ptr != p.ptr) := rfl
    rw [e1, e2, ih, List.filter_append, List.filter_filter, List.cons_append]
    congr 2
    apply List.filter_congr
    intro x _
    cases h1 : (x.ptr == p.ptr) <;>
      cases h2 : (rest.map (fun p => p.ptr)).contains x.ptr <;>
      simp only [List.map_cons, List.contains_cons, bne, h1, h2] <;> rfl

theorem natContains_iff (l : List Nat) (a : Nat) : l.contains a = true ↔ a ∈ l := by
  simp

theorem natContains_snoc (l : List Nat) (a x : Nat) :
    (l ++ [a]).contains x = (l.contains x || x == a) := by
  induction l with
  | nil => rw [List.nil_append, List.contains_cons, Bool.or_comm]
  | cons b r ih =>
    rw [List.cons_append, List.contains_cons, List.contains_cons, ih, Bool.or_assoc]

theorem Selection.push_withLog (sel : Selection) (kp : KinematicParticle) (lg : List Event) :
    ({ sel with log := lg } : Selection).push kp = { sel.push kp with log := lg } := by
  unfold Selection.push
  split <;> rfl

theorem foldl_push_withLog (l : List KinematicParticle) :
    ∀ (sel : Selection) (lg : List Event),
      l.foldl Selection.push { sel with log := lg } =
        { l.foldl Selection.push sel with log := lg } := by
  induction l with
  | nil => intro sel lg; rfl
  | cons kp rest ih =>
    intro sel lg
    rw [List.foldl_cons, List.foldl_cons, Selection.push_withLog]
    exact ih (sel.push kp) lg

theorem Selection.push_exact (sel : Selection) (kp : KinematicParticle) (h : sel.Exact) :
    (sel.push kp).Exact ∧
      (sel.push kp).plist =
        if (sel.plist.map (fun p => p.ptr)).contains kp.ptr then sel.plist
        else sel.plist ++ [kp] := by
  unfold Selection.push
  by_cases hc : sel.pset.contains kp.ptr = true
  · have hm : (sel.plist.map (fun p => p.ptr)).contains kp.ptr = true := by
      rw [natContains_iff] at hc ⊢
      exact (h _).1 hc
    rw [if_pos hc, if_pos hm]
    exact ⟨h, rfl⟩
  · have hm : ¬ (sel.plist.map (fun p => p.ptr)).contains kp.ptr = true := by
      rw [natContains_iff] at hc ⊢
      exact fun hx => hc ((h _).2 hx)
    rw [if_neg hc, if_neg hm]
    refine ⟨?_, rfl⟩
    intro a
    simp only [List.mem_cons, List.map_append, List.map_cons, List.map_nil, List.mem_append,
      List.mem_singleton]
    rw [h a]
    simp [or_comm]

/-- Pushing a list onto a selection appends the first occurrences of the
particle objects not yet selected. -/
theorem foldl_push_plist (l : List KinematicParticle) :
    ∀ sel : Selection, sel.Exact →
      (l.foldl Selection.push sel).Exact ∧
        (l.foldl Selection.push sel).plist =
          sel.plist ++ firstOccurrences
            (l.filter (fun q => !(sel.plist.map (fun p => p.ptr)).contains q.ptr)) := by
  induction l with
  | nil => intro sel h; exact ⟨h, by simp [firstOccurrences]⟩
  | cons kp rest ih =>
    intro sel h
    obtain ⟨h1, h2⟩ := Selection.push_exact sel kp h
    obtain ⟨h3, h4⟩ := ih (sel.push kp) h1
    refine ⟨h3, ?_⟩
    rw [List.foldl_cons, h4, h2]
    by_cases hm : (sel.plist.map (fun p => p.ptr)).contains kp.ptr = true
    · rw [if_pos hm]
      simp only [List.filter_cons, hm, Bool.not_true, Bool.false_eq_true, if_false]
    · have hm1 : (sel.plist.map (fun p => p.ptr)).contains kp.ptr = false := by
        simpa using hm
      rw [if_neg hm]
      simp only [List.filter_cons, hm1, Bool.not_false, if_true, firstOccurrences,
        List.append_assoc, List.singleton_append]
      congr 2
      rw [← firstOccurrences_filter (fun a => a != kp.ptr), List.filter_filter]
      congr 1
      apply List.filter_congr
      intro x _
      simp only [List.map_append, List.map_cons, List.map_nil, natContains_snoc]
      cases h5 : (x.ptr == kp.ptr) <;>
        cases h6 : (sel.plist.map (fun p => p.ptr)).contains x.ptr <;>
        simp only [bne, h5, h6] <;> rfl

theorem selectNames_plist (getDaug : String → Option Nat)
    (kinMap : List (Nat × KinematicParticle)) (rev : List KinematicParticle) :
    ∀ (names : List String) (sel : Selection),
      (selectNames getDaug kinMap rev names sel).plist =
          ((metParticles getDaug kinMap rev names).foldl Selection.push sel).plist ∧
        (selectNames getDaug kinMap rev names sel).pset =
          ((metParticles getDaug kinMap rev names).foldl Selection.push sel).pset := by
  intro names
  induction names with
  | nil => intro sel; exact ⟨rfl, rfl⟩
  | cons pname rest ih =>
    intro sel
    unfold selectNames metParticles resolveName
    by_cases hs : pname = "*"
    · rw [if_pos hs, if_pos hs]
      exact ⟨rfl, rfl⟩
    · rw [if_neg hs, if_neg hs]
      cases hr : (getDaug pname).bind (mapFind kinMap) with
      | some kp =>
        simp only [List.foldl_cons]
        exact ih (sel.push kp)
      | none =>
        simp only
        have := ih { sel with log := notFoundParticle pname :: sel.log }
        rw [foldl_push_withLog] at this
        exact this

theorem selectNames_log_eq (getDaug : String → Option Nat)
    (kinMap : List (Nat × KinematicParticle)) (rev : List KinematicParticle) :
    ∀ (names : List String) (sel : Selection),
      (selectNames getDaug kinMap rev names sel).log =
        (unresolvedNames getDaug kinMap names).reverse.map notFoundParticle ++ sel.log := by
  intro names
  induction names with
  | nil => intro sel; simp [selectNames, unresolvedNames]
  | cons pname rest ih =>
    intro sel
    unfold selectNames
    by_cases hs : pname = "*"
    · rw [if_pos hs]
      simp [foldl_push_log, unresolvedNames, hs]
    · rw [if_neg hs]
      have hs1 : (pname != "*") = true := by simpa using hs
      cases hr : (getDaug pname).bind (mapFind kinMap) with
      | some kp =>
        simp only
        rw [ih, Selection.push_log]
        simp [unresolvedNames, List.takeWhile_cons, hs1, List.filter_cons, resolveName, hr]
      | none =>
        simp only
        rw [ih]
        simp [unresolvedNames, List.takeWhile_cons, hs1, List.filter_cons, resolveName, hr]

theorem metParticles_eq (getDaug : String → Option Nat)
    (kinMap : List (Nat × KinematicParticle)) (rev : List KinematicParticle) :
    ∀ names : List String,
      metParticles getDaug kinMap rev names =
        (names.takeWhile (fun n => n != "*")).filterMap (resolveName getDaug kinMap) ++
          (if "*" ∈ names then rev else []) := by
  intro names
  induction names with
  | nil => simp [metParticles]
  | cons pname rest ih =>
    unfold metParticles
    by_cases hs : pname = "*"
    · rw [if_pos hs]
      simp [hs]
    · rw [if_neg hs]
      have hs1 : (pname != "*") = true := by simpa using hs
      have hmem : ("*" ∈ pname :: rest) = ("*" ∈ rest) := by
        simp only [List.mem_cons, eq_iff_iff]
        constructor
        · rintro (h | h)
          · exact absurd h.symm hs
          · exact h
        · exact Or.inr
      cases hr : resolveName getDaug kinMap pname with
      | some kp =>
        simp only [ih, List.takeWhile_cons, hs1, if_true, List.filterMap_cons, hr,
          List.cons_append, hmem]
      | none =>
        simp only [ih, List.takeWhile_cons, hs1, if_true, List.filterMap_cons, hr, hmem]

theorem buildParticles_fresh (fit : Fitters) (s s1 : BPHKinematicFit)
    (h : buildParticles fit s = some s1) :
    s1.oldKPs = false ∧ s1.inputs = s.inputs := by
  unfold buildParticles at h
  cases hb : s.cand.addParticles fit ⟨[], [], [], s.nextPtr⟩ with
  | none => rw [hb] at h; cases h
  | some b =>
    rw [hb] at h
    cases h
    exact ⟨rfl, rfl⟩

/-- After `kinParticles()` the particle list is fresh, and `kinParticles(names)`
gives what it gives in the state `kinParticles()` left. -/
theorem kinParticlesNames_after (fit : Fitters) (s s1 : BPHKinematicFit)
    (ps : List KinematicParticle) (names : List String)
    (h : kinParticles fit s = some (ps, s1)) :
    s1.oldKPs = false ∧ ps = s1.allParticles ∧ s1.inputs = s.inputs ∧
      kinParticlesNames fit s names = kinParticlesNames fit s1 names := by
  unfold kinParticles at h
  by_cases hk : s.oldKPs = true
  · rw [if_pos hk] at h
    cases hb : buildParticles fit s with
    | none => rw [hb] at h; cases h
    | some s2 =>
      rw [hb] at h
      obtain ⟨h1, h2⟩ := buildParticles_fresh fit s s2 hb
      cases h
      refine ⟨h1, rfl, h2, ?_⟩
      unfold kinParticlesNames
      rw [if_pos hk, hb, if_neg (by simp [h1])]
  · rw [if_neg hk] at h
    cases h
    exact ⟨by simpa using hk, rfl, rfl, rfl⟩

/-- The result of `kinParticles(names)` when the particle list is fresh: the
empty list on a count mismatch, and otherwise the first occurrences of the
particles the loop meets, with one diagnostic for each unresolved name before
the first `"*"`. -/
theorem kinParticlesNames_built (fit : Fitters) (s : BPHKinematicFit) (names : List String)
    (hk : s.oldKPs = false) :
    kinParticlesNames fit s names =
      if s.allParticles.length ≠ s.cand.daughFull.length then some ([], s)
      else some
        (firstOccurrences (metParticles s.getDaug s.kinMap s.allParticles.reverse names),
          { s with trace :=
              (unresolvedNames s.getDaug s.kinMap names).reverse.map notFoundParticle
                ++ s.trace }) := by
  have hk1 : ¬ s.oldKPs = true := by simp [hk]
  unfold kinParticlesNames
  rw [if_neg hk1]
  by_cases hm : s.allParticles.length = s.cand.daughFull.length
  · have ht : s.allParticles.take s.cand.daughFull.length = s.allParticles := by
      rw [← hm, List.take_length]
    have hex : (⟨[], [], []⟩ : Selection).Exact := by
      intro a
      simp
    obtain ⟨-, hp⟩ := foldl_push_plist
      (metParticles s.getDaug s.kinMap s.allParticles.reverse names) ⟨[], [], []⟩ hex
    simp only [ne_eq, hm, not_true_eq_false, if_false, ht,
      (selectNames_plist s.getDaug s.kinMap s.allParticles.reverse names ⟨[], [], []⟩).1,
      selectNames_log_eq, hp, List.append_nil, List.nil_append, List.map_nil,
      List.contains_nil, Bool.not_false, List.filter_true]
  · simp only [ne_eq, hm, not_false_eq_true, if_true]

theorem mapFind_mapAssign (m : List (Nat × KinematicParticle)) (k k1 : Nat)
    (v : KinematicParticle) :
    mapFind (mapAssign m k v) k1 = if k1 = k then some v else mapFind m k1 := by
  unfold mapFind mapAssign
  by_cases h : k1 = k
  · subst h
    simp
  · have hne : (k == k1) = false := by
      simp only [beq_eq_false_iff_ne, ne_eq]
      exact fun e => h e.symm
    rw [if_neg h, List.find?_cons, hne]
    congr 1
    induction m with
    | nil => rfl
    | cons kv rest ih =>
      by_cases hkv : kv.1 = k
      · have h1 : (kv.1 != k) = false := by simp [hkv]
        have h2 : (kv.1 == k1) = false := by
          simp only [beq_eq_false_iff_ne, ne_eq, hkv]
          exact fun e => h e.symm
        rw [List.filter_cons, h1, List.find?_cons, h2]
        exact ih
      · have h1 : (kv.1 != k) = true := by simp [hkv]
        rw [List.filter_cons, h1, if_pos rfl, List.find?_cons, List.find?_cons]
        cases kv.1 == k1
        · exact ih
        · rfl

/-! ## The pattern `"*"` alone -/

theorem trace_nil_append (s : BPHKinematicFit) :
    { s with trace := ([] : List Event) ++ s.trace } = s := by
  cases s
  rfl

/-- What `kinParticles()` gives on a well-formed candidate with every leaf
daughter tracked: a fresh list of as many particles as `daughFull()` has
entries, no particle object twice. -/
theorem kinParticles_complete (fit : Fitters) (s : BPHKinematicFit)
    (hw : s.WellFormed) (hb : s.ParticlesBuilt)
    (hc : s.cand.trackCount = s.cand.daughFull.length) :
    ∃ s1, kinParticles fit s = some (s1.allParticles, s1) ∧ Rebuilt s s1 ∧
      s1.allParticles.length = s1.cand.daughFull.length ∧
      ∀ names, kinParticlesNames fit s names =
        some (firstOccurrences
            (metParticles s1.getDaug s1.kinMap s1.allParticles.reverse names),
          { s1 with trace :=
              (unresolvedNames s1.getDaug s1.kinMap names).reverse.map notFoundParticle
                ++ s1.trace }) := by
  obtain ⟨s1, e, R⟩ := kinParticles_spec fit s hw.1 hb
  have hcand : s1.cand = s.cand := congrArg Prod.fst R.sameInputs
  have hlen : s1.allParticles.length = s1.cand.daughFull.length := by
    rw [R.length, hcand, hc]
  refine ⟨s1, e, R, hlen, ?_⟩
  intro names
  obtain ⟨-, -, -, hn⟩ := kinParticlesNames_after fit s s1 _ names e
  rw [hn, kinParticlesNames_built fit s1 names R.fresh, if_neg (not_not.2 hlen)]

/-- C12: on a well-formed candidate whose build is complete, `kinParticles()`
returns a list `ps` of as many particles as `daughFull()` has entries, and
`kinParticles({"*"})` returns `ps` reversed, leaving the object as
`kinParticles()` leaves it: the result holds the particles of `ps` and no
particle object twice. -/
theorem C12_star_alone_is_reverse_build_order (fit : Fitters) (s : BPHKinematicFit)
    (hw : s.WellFormed) (hb : s.ParticlesBuilt)
    (hc : s.cand.trackCount = s.cand.daughFull.length) :
    ∃ ps s1, kinParticles fit s = some (ps, s1) ∧
      ps.length = s.cand.daughFull.length ∧
      kinParticlesNames fit s ["*"] = some (ps.reverse, s1) ∧
      (ps.reverse.map (fun p => p.ptr)).Nodup ∧ ps.reverse.Perm ps := by
  obtain ⟨s1, e, R, hlen, hn⟩ := kinParticles_complete fit s hw hb hc
  have hcand : s1.cand = s.cand := congrArg Prod.fst R.sameInputs
  have hnd : (s1.allParticles.reverse.map (fun p => p.ptr)).Nodup := by
    rw [List.map_reverse]
    exact List.nodup_reverse.2 R.nodup
  refine ⟨s1.allParticles, s1, e, by rw [hlen, hcand], ?_, hnd, List.reverse_perm _⟩
  rw [hn ["*"]]
  have h1 : metParticles s1.getDaug s1.kinMap s1.allParticles.reverse ["*"] =
      s1.allParticles.reverse := by
    simp [metParticles]
  have h2 : unresolvedNames s1.getDaug s1.kinMap ["*"] = [] := by
    simp [unresolvedNames]
  rw [h1, h2, firstOccurrences_of_nodup _ hnd, List.reverse_nil, List.map_nil,
    trace_nil_append]

/-- Witness of C12: the sample candidate, a kaon and a composite of two muons,
every leaf daughter tracked. -/
theorem C12_star_alone_is_reverse_build_order_witness :
    sampleCand.WellFormed ∧ sampleCand.ParticlesBuilt ∧
      sampleCand.cand.trackCount = sampleCand.cand.daughFull.length ∧
      ∃ ps s1, kinParticles sampleFitters sampleCand = some (ps, s1) ∧
        ps.length = sampleCand.cand.daughFull.length ∧
        kinParticlesNames sampleFitters sampleCand ["*"] = some (ps.reverse, s1) ∧
        (ps.reverse.map (fun p => p.ptr)).Nodup ∧ ps.reverse.Perm ps :=
  ⟨sampleCand_wellFormed, sampleCand_particlesBuilt, by decide,
    C12_star_alone_is_reverse_build_order sampleFitters sampleCand
      sampleCand_wellFormed sampleCand_particlesBuilt (by decide)⟩

/-! ## The index and the order of the built particles -/

theorem addLeaf_indexed (fit : Fitters) (dMSig : List (Nat × ℚ)) (getTT : Nat → Option Nat)
    (cand : Candidate) (b b1 : Build) (h : addLeaf fit dMSig getTT cand b = some b1)
    (hi : b.Indexed) : b1.Indexed := by
  unfold addLeaf at h
  cases hs : mapFind dMSig cand.ptr with
  | none => rw [hs] at h; cases h
  | some v =>
    rw [hs] at h
    cases ht : getTT cand.ptr with
    | none =>
      rw [ht] at h
      cases h
      exact hi
    | some tt =>
      rw [ht] at h
      cases h
      intro k p hk
      simp only [mapFind_mapAssign] at hk
      by_cases e : k = cand.ptr
      · rw [if_pos e] at hk
        cases hk
        simp
      · rw [if_neg e] at hk
        exact List.mem_append_left _ (hi k p hk)

theorem addLeaves_indexed (fit : Fitters) (dMSig : List (Nat × ℚ)) (getTT : Nat → Option Nat) :
    ∀ (daug : List Candidate) (b b1 : Build),
      addLeaves fit dMSig getTT daug b = some b1 → b.Indexed → b1.Indexed
  | [], b, b1, h, hi => by
    cases h
    exact hi
  | cand :: rest, b, b1, h, hi => by
    simp only [addLeaves] at h
    cases e : addLeaves fit dMSig getTT rest b with
    | none => rw [e] at h; cases h
    | some b2 =>
      rw [e] at h
      exact addLeaf_indexed fit dMSig getTT cand b2 b1 h
        (addLeaves_indexed fit dMSig getTT rest b b2 e hi)

mutual
theorem BPHRecoCandidate.addParticles_indexed (fit : Fitters) :
    ∀ (c : BPHRecoCandidate) (b b1 : Build),
      c.addParticles fit b = some b1 → b.Indexed → b1.Indexed
  | .mk daug _ dMSig getTT _ comp, b, b1, h, hi => by
    simp only [BPHRecoCandidate.addParticles] at h
    cases e : addLeaves fit dMSig getTT daug b with
    | none => rw [e] at h; cases h
    | some b2 =>
      rw [e] at h
      exact addCompParticles_indexed fit comp b2 b1 h
        (addLeaves_indexed fit dMSig getTT daug b b2 e hi)
theorem addCompParticles_indexed (fit : Fitters) :
    ∀ (cs : List BPHRecoCandidate) (b b1 : Build),
      addCompParticles fit cs b = some b1 → b.Indexed → b1.Indexed
  | [], b, b1, h, hi => by
    simp only [addCompParticles] at h
    cases h
    exact hi
  | c :: rest, b, b1, h, hi => by
    simp only [addCompParticles] at h
    cases e : addCompParticles fit rest b with
    | none => rw [e] at h; cases h
    | some b2 =>
      rw [e] at h
      exact BPHRecoCandidate.addParticles_indexed fit c b2 b1 h
        (addCompParticles_indexed fit rest b b2 e hi)
end

/-- The tracks of the particles the first loop appends: those of the
daughters with a track, from the last daughter to the first. -/
theorem addLeaves_tracks (fit : Fitters) (dMSig : List (Nat × ℚ)) (getTT : Nat → Option Nat) :
    ∀ (daug : List Candidate) (b b1 : Build),
      addLeaves fit dMSig getTT daug b = some b1 →
      b1.kl.map (fun p => p.track) =
        b.kl.map (fun p => p.track) ++ daug.reverse.filterMap (fun d => getTT d.ptr)
  | [], b, b1, h => by
    cases h
    simp
  | cand :: rest, b, b1, h => by
    simp only [addLeaves] at h
    cases e : addLeaves fit dMSig getTT rest b with
    | none => rw [e] at h; cases h
    | some b2 =>
      rw [e] at h
      have ih := addLeaves_tracks fit dMSig getTT rest b b2 e
      unfold addLeaf at h
      cases hs : mapFind dMSig cand.ptr with
      | none => rw [hs] at h; cases h
      | some v =>
        rw [hs] at h
        cases ht : getTT cand.ptr with
        | none =>
          rw [ht] at h
          cases h
          rw [ih, List.reverse_cons, List.filterMap_append]
          simp [ht]
        | some tt =>
          rw [ht] at h
          cases h
          rw [List.reverse_cons, List.filterMap_append]
          simp [ht, ih]

theorem buildParticles_builtBy (fit : Fitters) (s s1 : BPHKinematicFit)
    (h : buildParticles fit s = some s1) : BuiltBy fit s1 := by
  unfold buildParticles at h
  cases hb : s.cand.addParticles fit ⟨[], [], [], s.nextPtr⟩ with
  | none => rw [hb] at h; cases h
  | some b =>
    rw [hb] at h
    cases h
    intro _
    exact ⟨s.nextPtr, hb⟩

theorem kinParticles_builtBy (fit : Fitters) (s s1 : BPHKinematicFit)
    (ps : List KinematicParticle) (h : kinParticles fit s = some (ps, s1))
    (hB : BuiltBy fit s) : BuiltBy fit s1 := by
  unfold kinParticles at h
  by_cases hk : s.oldKPs = true
  · rw [if_pos hk] at h
    cases hb : buildParticles fit s with
    | none => rw [hb] at h; cases h
    | some s2 =>
      rw [hb] at h
      have := buildParticles_builtBy fit s s2 hb
      cases h
      exact this
  · rw [if_neg hk] at h
    cases h
    exact hB

theorem builtBy_particlesBuilt (fit : Fitters) (s : BPHKinematicFit)
    (hw : s.cand.sigmaComplete = true) (hB : BuiltBy fit s) : s.ParticlesBuilt := by
  intro hk
  obtain ⟨n, e⟩ := hB hk
  obtain ⟨b1, e1, g1, -, -⟩ := BPHRecoCandidate.addParticles_grows fit s.cand
    ⟨[], [], [], n⟩ hw
  rw [e] at e1
  cases e1
  simp only [List.map_nil, List.nil_append] at g1
  constructor
  · have := congrArg List.length g1
    simpa using this
  · rw [g1]
    exact List.nodup_range' _ _

theorem builtBy_indexBuilt (fit : Fitters) (s : BPHKinematicFit) (hB : BuiltBy fit s) :
    s.IndexBuilt := by
  intro hk
  obtain ⟨n, e⟩ := hB hk
  have := BPHRecoCandidate.addParticles_indexed fit s.cand ⟨[], [], [], n⟩ _ e
    (by
      intro k p h
      simp [mapFind] at h)
  exact this

/-- For a candidate with leaf daughters only, the tracks of the built
particles are those of the daughters from the last to the first. -/
theorem builtBy_tracks (fit : Fitters) (s : BPHKinematicFit) (hB : BuiltBy fit s)
    (hk : s.oldKPs = false) (hcomp : s.cand.daughComp = []) :
    s.allParticles.map (fun p => p.track) =
      s.cand.daughters.reverse.filterMap (fun d => s.cand.getTransientTrack d.ptr) := by
  obtain ⟨n, e⟩ := hB hk
  cases hcand : s.cand with
  | mk daug nm dMSig getTT pp comp =>
    rw [hcand] at e hcomp
    simp only [BPHRecoCandidate.daughComp] at hcomp
    subst hcomp
    simp only [BPHRecoCandidate.addParticles] at e
    cases e1 : addLeaves fit dMSig getTT daug ⟨[], [], [], n⟩ with
    | none => rw [e1] at e; cases e
    | some b2 =>
      rw [e1] at e
      simp only [addCompParticles, Option.bind_some, Option.some.injEq] at e
      have := addLeaves_tracks fit dMSig getTT daug _ _ e1
      rw [e] at this
      simpa [BPHRecoCandidate.daughters, BPHRecoCandidate.getTransientTrack] using this

/-- A list whose particles are those of `ps`, with the repetitions removed, is
a rearrangement of `ps`. -/
theorem firstOccurrences_perm (l ps : List KinematicParticle)
    (hnd : (ps.map (fun p => p.ptr)).Nodup)
    (hsub : ∀ q ∈ l, q ∈ ps) (hsup : ∀ q ∈ ps, q ∈ l) : (firstOccurrences l).Perm ps := by
  have h1 : (firstOccurrences l).Nodup :=
    List.Nodup.of_map (fun p : KinematicParticle => p.ptr) (firstOccurrences_nodup l)
  have h2 : ps.Nodup := List.Nodup.of_map (fun p : KinematicParticle => p.ptr) hnd
  rw [List.perm_ext_iff_of_nodup h1 h2]
  intro q
  constructor
  · intro hq
    exact hsub q (firstOccurrences_mem l q hq)
  · intro hq
    have := firstOccurrences_covers l q (hsup q hq)
    obtain ⟨q1, hq1, e⟩ := List.mem_map.1 this
    have hq1ps : q1 ∈ ps := hsub q1 (firstOccurrences_mem l q1 hq1)
    have : q1 = q := List.inj_on_of_nodup_map hnd hq1ps hq e
    exact this ▸ hq1

theorem resolveName_mem (s : BPHKinematicFit) (hi : s.IndexBuilt) (hk : s.oldKPs = false)
    (n : String) (q : KinematicParticle)
    (h : resolveName s.getDaug s.kinMap n = some q) : q ∈ s.allParticles := by
  unfold resolveName at h
  cases hd : s.getDaug n with
  | none => rw [hd] at h; cases h
  | some k =>
    rw [hd] at h
    exact hi hk k q h

theorem sampleThreeLeaves_wellFormed : sampleThreeLeaves.WellFormed := by
  refine ⟨by decide, ?_⟩
  intro name comp h
  simp [sampleThreeLeaves, BPHKinematicFit.construct] at h

theorem sampleThreeLeaves_builtBy : BuiltBy sampleFitters sampleThreeLeaves := by
  intro h
  simp [sampleThreeLeaves, BPHKinematicFit.construct] at h

theorem sampleCand_builtBy : BuiltBy sampleFitters sampleCand := by
  intro h
  simp [sampleCand, BPHKinematicFit.construct] at h

/-! ## The pattern `"*"` after names -/

/-- C20, counterexample: for the candidate with the leaf daughters `1`, `2`,
`3` in this order, all tracked, `kinParticles({"*"})` lists the particles
from the first daughter to the last, not from the last down to the first. -/
theorem C20_counterexample :
    sampleThreeLeaves.cand.daughters.map (fun d => d.ptr) = [1, 2, 3] ∧
      sampleThreeLeaves.cand.trackCount = sampleThreeLeaves.cand.daughFull.length ∧
      (kinParticlesNames sampleFitters sampleThreeLeaves ["*"]).map
        (fun r => r.1.map (fun p => p.track)) = some [1, 2, 3] ∧
      (kinParticlesNames sampleFitters sampleThreeLeaves ["*"]).map
        (fun r => r.1.map (fun p => p.track)) ≠ some [3, 2, 1] := by
  decide

/-- C20 (amended): on a well-formed candidate whose build is complete, for a
name list containing `"*"`, `kinParticles(names)` returns the particles of
the resolved names before the first `"*"`, each where it occurs first,
followed by the particles not among them in the reverse of the build order
(`ps` being the list of `kinParticles()`); the result holds no particle
object twice and is a rearrangement of `ps`.  For a candidate with leaf
daughters only the reverse of the build order is the order of the daughters,
from the first to the last. -/
theorem C20_star_appends_rest_in_reverse_build_order (fit : Fitters) (s : BPHKinematicFit)
    (names : List String) (hw : s.WellFormed) (hB : BuiltBy fit s)
    (hc : s.cand.trackCount = s.cand.daughFull.length) (hs : "*" ∈ names) :
    ∃ ps s1 out s2, kinParticles fit s = some (ps, s1) ∧
      kinParticlesNames fit s names = some (out, s2) ∧
      out = firstOccurrences (resolvedBeforeStar s1.getDaug s1.kinMap names) ++
        ps.reverse.filter (fun q =>
          !((resolvedBeforeStar s1.getDaug s1.kinMap names).map
            (fun p => p.ptr)).contains q.ptr) ∧
      (out.map (fun p => p.ptr)).Nodup ∧ out.Perm ps ∧
      (s.cand.daughComp = [] →
        ps.reverse.map (fun p => p.track) =
          s.cand.daughters.filterMap (fun d => s.cand.getTransientTrack d.ptr)) := by
  obtain ⟨s1, e, R, hlen, hn⟩ :=
    kinParticles_complete fit s hw (builtBy_particlesBuilt fit s hw.1 hB) hc
  have hcand : s1.cand = s.cand := congrArg Prod.fst R.sameInputs
  have hB1 := kinParticles_builtBy fit s s1 _ e hB
  have hI := builtBy_indexBuilt fit s1 hB1
  have hnd : (s1.allParticles.reverse.map (fun p => p.ptr)).Nodup := by
    rw [List.map_reverse]
    exact List.nodup_reverse.2 R.nodup
  refine ⟨s1.allParticles, s1, _, _, e, hn names, ?_, firstOccurrences_nodup _, ?_, ?_⟩
  · rw [metParticles_eq, if_pos hs, firstOccurrences_append,
      firstOccurrences_of_nodup _ hnd]
    rfl
  · apply firstOccurrences_perm _ _ R.nodup
    · intro q hq
      rw [metParticles_eq, if_pos hs, List.mem_append] at hq
      rcases hq with hq | hq
      · obtain ⟨n, -, hq⟩ := List.mem_filterMap.1 hq
        exact resolveName_mem s1 hI R.fresh n q hq
      · exact List.mem_reverse.1 hq
    · intro q hq
      rw [metParticles_eq, if_pos hs, List.mem_append]
      exact Or.inr (List.mem_reverse.2 hq)
  · intro hcomp
    have := builtBy_tracks fit s1 hB1 R.fresh (by rw [hcand]; exact hcomp)
    rw [List.map_reverse, this, List.filterMap_reverse, List.reverse_reverse, hcand]

/-- Witness of C20 (amended): the candidate with three leaf daughters and the
names of the third and, twice, of the first daughter before `"*"`. -/
theorem C20_star_appends_rest_in_reverse_build_order_witness :
    sampleThreeLeaves.WellFormed ∧ BuiltBy sampleFitters sampleThreeLeaves ∧
      sampleThreeLeaves.cand.trackCount = sampleThreeLeaves.cand.daughFull.length ∧
      "*" ∈ ["PiNeg", "Kaon", "Nope", "PiNeg", "*"] ∧
      ∃ ps s1 out s2, kinParticles sampleFitters sampleThreeLeaves = some (ps, s1) ∧
        kinParticlesNames sampleFitters sampleThreeLeaves
          ["PiNeg", "Kaon", "Nope", "PiNeg", "*"] = some (out, s2) ∧
        out = firstOccurrences (resolvedBeforeStar s1.getDaug s1.kinMap
            ["PiNeg", "Kaon", "Nope", "PiNeg", "*"]) ++
          ps.reverse.filter (fun q =>
            !((resolvedBeforeStar s1.getDaug s1.kinMap
              ["PiNeg", "Kaon", "Nope", "PiNeg", "*"]).map
              (fun p => p.ptr)).contains q.ptr) ∧
        (out.map (fun p => p.ptr)).Nodup ∧ out.Perm ps ∧
        (sampleThreeLeaves.cand.daughComp = [] →
          ps.reverse.map (fun p => p.track) =
            sampleThreeLeaves.cand.daughters.filterMap
              (fun d => sampleThreeLeaves.cand.getTransientTrack d.ptr)) :=
  ⟨sampleThreeLeaves_wellFormed, sampleThreeLeaves_builtBy, by decide, by decide,
    C20_star_appends_rest_in_reverse_build_order sampleFitters sampleThreeLeaves
      ["PiNeg", "Kaon", "Nope", "PiNeg", "*"] sampleThreeLeaves_wellFormed
      sampleThreeLeaves_builtBy (by decide) (by decide)⟩

/-! ## Names that resolve to no particle -/

theorem metParticles_skip (getDaug : String → Option Nat)
    (kinMap : List (Nat × KinematicParticle)) (rev : List KinematicParticle)
    (bad : String) (post : List String) (hbad : bad ≠ "*")
    (hres : resolveName getDaug kinMap bad = none) :
    ∀ pre : List String,
      metParticles getDaug kinMap rev (pre ++ bad :: post) =
        metParticles getDaug kinMap rev (pre ++ post)
  | [] => by
    simp only [List.nil_append, metParticles, if_neg hbad, hres]
  | n :: pre => by
    have ih := metParticles_skip getDaug kinMap rev bad post hbad hres pre
    have e1 : metParticles getDaug kinMap rev (n :: pre ++ bad :: post) =
        if n = "*" then rev
        else
          match resolveName getDaug kinMap n with
          | some kp => kp :: metParticles getDaug kinMap rev (pre ++ bad :: post)
          | none => metParticles getDaug kinMap rev (pre ++ bad :: post) := rfl
    have e2 : metParticles getDaug kinMap rev (n :: pre ++ post) =
        if n = "*" then rev
        else
          match resolveName getDaug kinMap n with
          | some kp => kp :: metParticles getDaug kinMap rev (pre ++ post)
          | none => metParticles getDaug kinMap rev (pre ++ post) := rfl
    rw [e1, e2, ih]

theorem unresolvedNames_append (getDaug : String → Option Nat)
    (kinMap : List (Nat × KinematicParticle)) (rest : List String) :
    ∀ pre : List String, "*" ∉ pre →
      unresolvedNames getDaug kinMap (pre ++ rest) =
        pre.filter (fun n => (resolveName getDaug kinMap n).isNone) ++
          unresolvedNames getDaug kinMap rest
  | [], _ => by simp
  | n :: pre, h => by
    simp only [List.mem_cons, not_or] at h
    have ih := unresolvedNames_append getDaug kinMap rest pre h.2
    have hn : (n != "*") = true := by
      simp only [bne_iff_ne, ne_eq]
      exact fun e => h.1 e.symm
    unfold unresolvedNames at ih ⊢
    rw [List.cons_append, List.takeWhile_cons, if_pos hn, List.filter_cons, ih,
      List.filter_cons]
    split <;> rfl

theorem unresolvedNames_nil (getDaug : String → Option Nat)
    (kinMap : List (Nat × KinematicParticle)) :
    ∀ names : List String,
      (∀ n ∈ names, n ≠ "*" → (resolveName getDaug kinMap n).isSome = true) →
      unresolvedNames getDaug kinMap names = []
  | [], _ => by simp [unresolvedNames]
  | n :: rest, h => by
    have ih := unresolvedNames_nil getDaug kinMap rest
      (fun m hm => h m (List.mem_cons_of_mem _ hm))
    unfold unresolvedNames at ih ⊢
    by_cases hn : n = "*"
    · have : (n != "*") = false := by simp [hn]
      rw [List.takeWhile_cons, this]
      rfl
    · have h1 : (n != "*") = true := by simpa using hn
      have h2 := h n (List.mem_cons_self _ _) hn
      have h3 : (resolveName getDaug kinMap n).isNone = false := by
        cases hr : resolveName getDaug kinMap n with
        | none => rw [hr] at h2; cases h2
        | some _ => rfl
      rw [List.takeWhile_cons, if_pos h1, List.filter_cons, h3, ih]
      rfl

theorem unresolvedNames_single (getDaug : String → Option Nat)
    (kinMap : List (Nat × KinematicParticle)) (pre post : List String) (bad : String)
    (hp : "*" ∉ pre) (hbad : bad ≠ "*") (hres : resolveName getDaug kinMap bad = none)
    (ho : ∀ n ∈ pre ++ post, n ≠ "*" → (resolveName getDaug kinMap n).isSome = true) :
    unresolvedNames getDaug kinMap (pre ++ post) = [] ∧
      unresolvedNames getDaug kinMap (pre ++ bad :: post) = [bad] := by
  have h0 := unresolvedNames_nil getDaug kinMap (pre ++ post) ho
  refine ⟨h0, ?_⟩
  rw [unresolvedNames_append getDaug kinMap post pre hp] at h0
  obtain ⟨h1, h2⟩ := List.append_eq_nil.1 h0
  rw [unresolvedNames_append getDaug kinMap (bad :: post) pre hp, h1, List.nil_append]
  have hn : (bad != "*") = true := by simpa using hbad
  unfold unresolvedNames at h2 ⊢
  rw [List.takeWhile_cons, if_pos hn, List.filter_cons, hres, h2]
  rfl

/-- C13, counterexample: on the sample candidate the name `"Nope"` resolves to
no particle, and it is the one such entry of the list `"*"`, `"Nope"`; the
loop ends at `"*"`, and `kinParticles` prints no diagnostic at all. -/
theorem C13_counterexample :
    sampleCand.getDaug "Nope" = none ∧
      sampleCand.cand.trackCount = sampleCand.cand.daughFull.length ∧
      (kinParticlesNames sampleFitters sampleCand ["*", "Nope"]).map
        (fun r => (r.1.map (fun p => p.track), countEvents Event.isNotFound r.2.trace)) =
        some ([11, 12, 1], 0) ∧
      (kinParticlesNames sampleFitters sampleCand ["*"]).map
        (fun r => r.1.map (fun p => p.track)) = some [11, 12, 1] := by
  decide

/-- C13 (amended): on a well-formed candidate whose build is complete, let
`s1` be the object as `kinParticles()` leaves it.  For a name list with an
entry `bad` that is not `"*"`, stands before every `"*"` and resolves to no
built particle, all other names resolving, `kinParticles(names)` returns the
list it returns for the name list without that entry, where it prints
nothing, and prints the one diagnostic of `bad`; neither call raises. -/
theorem C13_unresolved_name_before_star_gives_one_diagnostic (fit : Fitters)
    (s : BPHKinematicFit) (hw : s.WellFormed) (hb : s.ParticlesBuilt)
    (hc : s.cand.trackCount = s.cand.daughFull.length) :
    ∃ ps s1, kinParticles fit s = some (ps, s1) ∧
      ∀ (pre post : List String) (bad : String), "*" ∉ pre → bad ≠ "*" →
        resolveName s1.getDaug s1.kinMap bad = none →
        (∀ n ∈ pre ++ post, n ≠ "*" →
          (resolveName s1.getDaug s1.kinMap n).isSome = true) →
        ∃ out, kinParticlesNames fit s (pre ++ post) = some (out, s1) ∧
          kinParticlesNames fit s (pre ++ bad :: post) =
            some (out, { s1 with trace := notFoundParticle bad :: s1.trace }) := by
  obtain ⟨s1, e, -, -, hn⟩ := kinParticles_complete fit s hw hb hc
  refine ⟨s1.allParticles, s1, e, ?_⟩
  intro pre post bad hp hbad hres ho
  obtain ⟨u1, u2⟩ := unresolvedNames_single s1.getDaug s1.kinMap pre post bad hp hbad hres ho
  refine ⟨firstOccurrences
    (metParticles s1.getDaug s1.kinMap s1.allParticles.reverse (pre ++ post)), ?_, ?_⟩
  · rw [hn (pre ++ post), u1, List.reverse_nil, List.map_nil, trace_nil_append]
  · rw [hn (pre ++ bad :: post), u2,
      metParticles_skip s1.getDaug s1.kinMap s1.allParticles.reverse bad post hbad hres pre]
    rfl

/-- Witness of C13 (amended): the sample candidate; with the names `"Kaon"`,
`"Nope"`, `"*"` the call gives the particles of `"Kaon"`, `"*"` and one
diagnostic more. -/
theorem C13_unresolved_name_before_star_gives_one_diagnostic_witness :
    sampleCand.WellFormed ∧ sampleCand.ParticlesBuilt ∧
      sampleCand.cand.trackCount = sampleCand.cand.daughFull.length ∧
      (∃ ps s1, kinParticles sampleFitters sampleCand = some (ps, s1) ∧
        ∀ (pre post : List String) (bad : String), "*" ∉ pre → bad ≠ "*" →
          resolveName s1.getDaug s1.kinMap bad = none →
          (∀ n ∈ pre ++ post, n ≠ "*" →
            (resolveName s1.getDaug s1.kinMap n).isSome = true) →
          ∃ out, kinParticlesNames sampleFitters sampleCand (pre ++ post) = some (out, s1) ∧
            kinParticlesNames sampleFitters sampleCand (pre ++ bad :: post) =
              some (out, { s1 with trace := notFoundParticle bad :: s1.trace })) ∧
      (kinParticlesNames sampleFitters sampleCand ["Kaon", "Nope", "*"]).map
          (fun r => (r.1.map (fun p => p.track), countEvents Event.isNotFound r.2.trace)) =
        (kinParticlesNames sampleFitters sampleCand ["Kaon", "*"]).map
          (fun r => (r.1.map (fun p => p.track),
            countEvents Event.isNotFound r.2.trace + 1)) :=
  ⟨sampleCand_wellFormed, sampleCand_particlesBuilt, by decide,
    C13_unresolved_name_before_star_gives_one_diagnostic sampleFitters sampleCand
      sampleCand_wellFormed sampleCand_particlesBuilt (by decide),
    by decide⟩

/-! ## The component and the tail of the two-stage fit -/

/-- What `kinematicTree(name, KinematicConstraint*)` does on a well-formed
candidate whose build is complete, `s1` being the object after the call of
`kinParticles()` at line 186: with an empty name the fit of the whole
particle list, with the name of a composite the fit of the first `ns` and the
other particles of `kinParticles(nfull)`, with an unknown name a diagnostic. -/
theorem kinematicTreeKC_complete (fit : Fitters) (s : BPHKinematicFit) (name : String)
    (kc : Option KinematicConstraint) (hw : s.WellFormed) (hb : s.ParticlesBuilt)
    (hc : s.cand.trackCount = s.cand.daughFull.length) :
    ∃ s1,
      kinParticles fit
        { s with kinTree := none, oldFit := false, trace := Event.fitEntryKC name kc :: s.trace }
        = some (s1.allParticles, s1) ∧
      Rebuilt
        { s with kinTree := none, oldFit := false, trace := Event.fitEntryKC name kc :: s.trace }
        s1 ∧
      s1.allParticles.length = s1.cand.daughFull.length ∧
      (name = "" →
        kinematicTreeKC fit s name kc = some (fitComponent fit s1 kc s1.allParticles [])) ∧
      (name ≠ "" → s.getComp name = none →
        kinematicTreeKC fit s name kc =
          some (none, { s1 with trace := notFoundDaughter name :: s1.trace })) ∧
      (∀ comp, name ≠ "" → s.getComp name = some comp →
        comp.daugNames.length ≤
          (firstOccurrences (metParticles s1.getDaug s1.kinMap s1.allParticles.reverse
            (nfull name comp.daugNames))).length ∧
        kinematicTreeKC fit s name kc =
          some (fitComponent fit
            (s1.logNotFound (unresolvedNames s1.getDaug s1.kinMap (nfull name comp.daugNames)))
            kc
            ((firstOccurrences (metParticles s1.getDaug s1.kinMap s1.allParticles.reverse
              (nfull name comp.daugNames))).take comp.daugNames.length)
            ((firstOccurrences (metParticles s1.getDaug s1.kinMap s1.allParticles.reverse
              (nfull name comp.daugNames))).drop comp.daugNames.length))) := by
  obtain ⟨s1, e1, hr⟩ := kinParticles_spec fit
    { s with kinTree := none, oldFit := false,
             trace := Event.fitEntryKC name kc :: s.trace } hw.1 hb
  have hkt : s1.kinTree = none := hr.sameFit.2
  have hin := hr.sameInputs
  simp only [inputs, Prod.mk.injEq] at hin
  obtain ⟨hcand, -, hgc, -, -⟩ := hin
  have hm : s1.allParticles.length = s1.cand.daughFull.length := by
    rw [hr.length, hcand]
    exact hc
  refine ⟨s1, e1, hr, hm, ?_, ?_, ?_⟩
  · intro hn
    unfold kinematicTreeKC
    simp only [e1]
    simp [hm, hn]
  · intro hn hg
    have hg1 : s1.getComp name = none := by rw [hgc]; exact hg
    unfold kinematicTreeKC
    simp only [e1]
    simp [hm, hn, hg1, hkt]
  · intro comp hn hg
    have hg1 : s1.getComp name = some comp := by rw [hgc]; exact hg
    have e2 := kinParticlesNames_built fit s1 (nfull name comp.daugNames) hr.fresh
    rw [if_neg (not_not.2 hm)] at e2
    obtain ⟨ps, nevs, e3, -, hlen⟩ := kinParticlesNames_spec fit s1
      (nfull name comp.daugNames) hr.fresh
    have h1 := hlen (by simp [nfull]) hr.nodup hm
    have h2 := hw.2 name comp hg
    rw [hcand] at h1
    rw [e2] at e3
    have e4 : firstOccurrences (metParticles s1.getDaug s1.kinMap s1.allParticles.reverse
        (nfull name comp.daugNames)) = ps := by
      have := congrArg (fun o => o.map Prod.fst) e3
      simpa using this
    have hbound : comp.daugNames.length ≤ (firstOccurrences (metParticles s1.getDaug
        s1.kinMap s1.allParticles.reverse (nfull name comp.daugNames))).length := by
      rw [e4]
      omega
    refine ⟨hbound, ?_⟩
    unfold kinematicTreeKC
    simp only [e1]
    simp only [ne_eq, hm, not_true_eq_false, if_false, hn, not_false_eq_true, if_true, hg1,
      e2, if_neg (Nat.not_lt.2 hbound)]
    rfl

theorem slash_ne_star (name n : String) : name ++ "/" ++ n ≠ "*" := by
  intro h
  have h1 := congrArg String.data h
  simp only [String.data_append] at h1
  cases hd : name.data with
  | nil =>
    rw [hd] at h1
    simp only [List.nil_append, List.cons_append, List.cons.injEq] at h1
    exact absurd h1.1 (by decide)
  | cons c r =>
    rw [hd] at h1
    simp only [List.cons_append, List.cons.injEq] at h1
    have := congrArg List.length h1.2
    simp at this

theorem logNotFound_nil (s : BPHKinematicFit) : s.logNotFound [] = s := by
  cases s
  rfl

/-- The particles the loop meets for the list `nfull` when each declared
daughter name resolves: the particles of the names, then the whole list. -/
theorem metParticles_nfull (getDaug : String → Option Nat)
    (kinMap : List (Nat × KinematicParticle)) (rev : List KinematicParticle)
    (name : String) :
    ∀ (names : List String) (ps : List KinematicParticle),
      names.map (fun n => resolveName getDaug kinMap (name ++ "/" ++ n)) = ps.map some →
      metParticles getDaug kinMap rev (nfull name names) = ps ++ rev ∧
        unresolvedNames getDaug kinMap (nfull name names) = []
  | [], ps, h => by
    cases ps with
    | nil => simp [nfull, metParticles, unresolvedNames]
    | cons p r => simp at h
  | n :: rest, ps, h => by
    cases ps with
    | nil => simp at h
    | cons p r =>
      simp only [List.map_cons, List.cons.injEq] at h
      obtain ⟨ih1, ih2⟩ := metParticles_nfull getDaug kinMap rev name rest r h.2
      have hne := slash_ne_star name n
      have hne1 : ((name ++ "/" ++ n) != "*") = true := by simpa using hne
      have e : nfull name (n :: rest) = (name ++ "/" ++ n) :: nfull name rest := rfl
      constructor
      · rw [e]
        simp only [metParticles, if_neg hne, h.1, ih1, List.cons_append]
      · rw [e]
        unfold unresolvedNames at ih2 ⊢
        rw [List.takeWhile_cons, if_pos hne1, List.filter_cons, h.1, ih2]
        rfl

/-- The selection for `nfull` when the declared daughter names resolve to
distinct particles: these particles, then the other particles in the reverse
of the build order. -/
theorem firstOccurrences_nfull (ps rev : List KinematicParticle)
    (h1 : (ps.map (fun p => p.ptr)).Nodup) (h2 : (rev.map (fun p => p.ptr)).Nodup) :
    firstOccurrences (ps ++ rev) =
      ps ++ rev.filter (fun q => !(ps.map (fun p => p.ptr)).contains q.ptr) := by
  rw [firstOccurrences_append, firstOccurrences_of_nodup ps h1,
    firstOccurrences_of_nodup rev h2]

/-- C19: on a well-formed candidate whose build is complete, for a group name
that resolves to a composite, `s1` being the object after the call of
`kinParticles()` at line 186: when the names `name/n` of the declared
daughter names `n` resolve, in this order, to the particles `ps`, no particle
object twice, then `kinematicTree(name, kc)` fits the component list `ps`,
which has one particle for each declared name, with the tail list of the
built particles not in `ps`; the tail holds no particle object twice, no
particle is in both lists, and the two together are a rearrangement of the
built particle list. -/
theorem C19_component_and_tail_split_the_particles (fit : Fitters) (s : BPHKinematicFit)
    (name : String) (kc : Option KinematicConstraint) (comp : BPHRecoCandidate)
    (hw : s.WellFormed) (hB : BuiltBy fit s)
    (hc : s.cand.trackCount = s.cand.daughFull.length)
    (hn : name ≠ "") (hg : s.getComp name = some comp) :
    ∃ s1,
      kinParticles fit
        { s with kinTree := none, oldFit := false, trace := Event.fitEntryKC name kc :: s.trace }
        = some (s1.allParticles, s1) ∧
      ∀ ps : List KinematicParticle,
        comp.daugNames.map (fun n => resolveName s1.getDaug s1.kinMap (name ++ "/" ++ n)) =
          ps.map some →
        (ps.map (fun p => p.ptr)).Nodup →
        kinematicTreeKC fit s name kc =
          some (fitComponent fit s1 kc ps
            (s1.allParticles.reverse.filter
              (fun q => !(ps.map (fun p => p.ptr)).contains q.ptr))) ∧
        ps.length = comp.daugNames.length ∧
        ((s1.allParticles.reverse.filter
          (fun q => !(ps.map (fun p => p.ptr)).contains q.ptr)).map (fun p => p.ptr)).Nodup ∧
        (∀ q ∈ ps, q ∉ s1.allParticles.reverse.filter
          (fun q => !(ps.map (fun p => p.ptr)).contains q.ptr)) ∧
        (ps ++ s1.allParticles.reverse.filter
          (fun q => !(ps.map (fun p => p.ptr)).contains q.ptr)).Perm s1.allParticles := by
  obtain ⟨s1, e1, hr, hm, -, -, h3⟩ := kinematicTreeKC_complete fit s name kc hw
    (builtBy_particlesBuilt fit s hw.1 hB) hc
  have hB1 : BuiltBy fit s1 := kinParticles_builtBy fit _ s1 _ e1 hB
  have hI := builtBy_indexBuilt fit s1 hB1
  refine ⟨s1, e1, ?_⟩
  intro ps hres hnd
  have hrev : (s1.allParticles.reverse.map (fun p => p.ptr)).Nodup := by
    rw [List.map_reverse]
    exact List.nodup_reverse.2 hr.nodup
  obtain ⟨m1, m2⟩ := metParticles_nfull s1.getDaug s1.kinMap s1.allParticles.reverse name
    comp.daugNames ps hres
  have hlen : ps.length = comp.daugNames.length := by
    have := congrArg List.length hres
    simpa using this.symm
  have hout := firstOccurrences_nfull ps s1.allParticles.reverse hnd hrev
  obtain ⟨-, e4⟩ := h3 comp hn hg
  rw [m1, m2, logNotFound_nil, hout, List.take_left' hlen, List.drop_left' hlen] at e4
  have hall := firstOccurrences_nodup (ps ++ s1.allParticles.reverse)
  rw [hout, List.map_append] at hall
  refine ⟨e4, hlen, (List.nodup_append.1 hall).2.1, ?_, ?_⟩
  · intro q hq hq1
    have := (List.mem_filter.1 hq1).2
    simp only [Bool.not_eq_true_eq_eq_false, Bool.not_eq_true] at this
    have hmem : q.ptr ∈ ps.map (fun p => p.ptr) := List.mem_map_of_mem _ hq
    rw [← natContains_iff] at hmem
    rw [hmem] at this
    cases this
  · rw [← hout]
    apply firstOccurrences_perm _ _ hr.nodup
    · intro q hq
      rcases List.mem_append.1 hq with hq | hq
      · have : some q ∈ ps.map some := List.mem_map_of_mem _ hq
        rw [← hres] at this
        obtain ⟨n, -, hq1⟩ := List.mem_map.1 this
        exact resolveName_mem s1 hI hr.fresh _ q hq1
      · exact List.mem_reverse.1 hq
    · intro q hq
      exact List.mem_append.2 (Or.inr (List.mem_reverse.2 hq))

/-- Witness of C19: the sample candidate and its composite `"JPsi"`, whose
two muons are the component and whose kaon is the tail. -/
theorem C19_component_and_tail_split_the_particles_witness :
    sampleCand.WellFormed ∧ BuiltBy sampleFitters sampleCand ∧
      sampleCand.cand.trackCount = sampleCand.cand.daughFull.length ∧
      "JPsi" ≠ "" ∧ sampleCand.getComp "JPsi" = some sampleJPsi ∧
      (kinParticlesNames sampleFitters sampleCand (nfull "JPsi" sampleJPsi.daugNames)).map
        (fun r => r.1.map (fun p => p.track)) = some [11, 12, 1] ∧
      ∃ s1,
        kinParticles sampleFitters
          { sampleCand with kinTree := none, oldFit := false,
                            trace := Event.fitEntryKC "JPsi" none :: sampleCand.trace }
          = some (s1.allParticles, s1) ∧
        ∀ ps : List KinematicParticle,
          sampleJPsi.daugNames.map
              (fun n => resolveName s1.getDaug s1.kinMap ("JPsi" ++ "/" ++ n)) =
            ps.map some →
          (ps.map (fun p => p.ptr)).Nodup →
          kinematicTreeKC sampleFitters sampleCand "JPsi" none =
            some (fitComponent sampleFitters s1 none ps
              (s1.allParticles.reverse.filter
                (fun q => !(ps.map (fun p => p.ptr)).contains q.ptr))) ∧
          ps.length = sampleJPsi.daugNames.length ∧
          ((s1.allParticles.reverse.filter
            (fun q => !(ps.map (fun p => p.ptr)).contains q.ptr)).map
              (fun p => p.ptr)).Nodup ∧
          (∀ q ∈ ps, q ∉ s1.allParticles.reverse.filter
            (fun q => !(ps.map (fun p => p.ptr)).contains q.ptr)) ∧
          (ps ++ s1.allParticles.reverse.filter
            (fun q => !(ps.map (fun p => p.ptr)).contains q.ptr)).Perm s1.allParticles :=
  ⟨sampleCand_wellFormed, sampleCand_builtBy, by decide, by decide, rfl, by decide,
    C19_component_and_tail_split_the_particles sampleFitters sampleCand "JPsi" none
      sampleJPsi sampleCand_wellFormed sampleCand_builtBy (by decide) (by decide) rfl⟩

/-! ## The result of the two-stage fit -/

theorem fitTail_eq_spec (fit : Fitters) (s : BPHKinematicFit)
    (kTail : List KinematicParticle) (t1 : KinematicTree) (hk : s.kinTree = none) :
    (fitTail fit s kTail t1).1 =
        (if kTail = [] then some t1.movePointerToTheTop
        else if t1.topParticle.currentState.isValid = false then none
        else
          match fit.vertexFit (kTail ++ [t1.topParticle]) with
          | .raise => none
          | .tree t => some t) ∧
      (fitTail fit s kTail t1).2.kinTree = (fitTail fit s kTail t1).1 := by
  unfold fitTail
  by_cases h : kTail = []
  · simp [h]
  · cases hv : t1.topParticle.currentState.isValid
    · simp [h, hv, hk, KinematicTree.movePointerToTheTop]
    · cases hf : fit.vertexFit (kTail ++ [t1.topParticle]) <;>
        simp [h, hv, hf, fitFailed, KinematicTree.movePointerToTheTop]

/-- The `try` block of the two-stage fit, entered with a null cached tree,
returns what the specification says, and caches it. -/
theorem fitComponent_eq_spec (fit : Fitters) (s : BPHKinematicFit)
    (kc : Option KinematicConstraint) (kComp kTail : List KinematicParticle)
    (hk : s.kinTree = none) :
    (fitComponent fit s kc kComp kTail).1 = twoStageFitSpec fit kc kComp kTail ∧
      (fitComponent fit s kc kComp kTail).2.kinTree =
        (fitComponent fit s kc kComp kTail).1 := by
  unfold fitComponent twoStageFitSpec
  cases hf : fit.vertexFit kComp with
  | raise => simp [fitFailed]
  | tree t0 =>
    cases he : t0.isEmpty
    · cases kc with
      | none =>
        have := fitTail_eq_spec fit
          { s with trace := Event.vertexFit kComp :: s.trace } kTail t0 hk
        simpa [he] using this
      | some c =>
        cases hc : fit.constrainedFit c t0 with
        | raise => simp [fitFailed, he, hc]
        | tree t1 =>
          cases he1 : t1.isEmpty
          · have := fitTail_eq_spec fit
              { s with trace := Event.constrainedFit c t0 :: Event.vertexFit kComp :: s.trace }
              kTail t1 hk
            simpa [he, hc, he1] using this
          · simp [hk, he, hc, he1]
    · simp [hk, he]

/-- The list `kinParticles()` returns does not depend on the cached tree, the
fit flag or the events so far. -/
theorem kinParticles_list_entry (fit : Fitters) (s : BPHKinematicFit)
    (t : Option KinematicTree) (f : Bool) (tr : List Event) :
    (kinParticles fit { s with kinTree := t, oldFit := f, trace := tr }).map Prod.fst =
      (kinParticles fit s).map Prod.fst := by
  rcases s with ⟨cand, gd, gc, mc, ms, ok, ofl, om, kt, ap, km, kcd, tm, np, tr0⟩
  cases ok
  · rfl
  · simp only [kinParticles, buildParticles, if_true]
    cases BPHRecoCandidate.addParticles fit cand ⟨[], [], [], np⟩ <;> rfl

/-- The list `kinParticles(names)` returns does not depend on the cached tree,
the fit flag or the events so far. -/
theorem kinParticlesNames_list_entry (fit : Fitters) (s : BPHKinematicFit)
    (t : Option KinematicTree) (f : Bool) (tr : List Event) (names : List String) :
    (kinParticlesNames fit { s with kinTree := t, oldFit := f, trace := tr } names).map
        Prod.fst =
      (kinParticlesNames fit s names).map Prod.fst := by
  rcases s with ⟨cand, gd, gc, mc, ms, ok, ofl, om, kt, ap, km, kcd, tm, np, tr0⟩
  cases ok
  · simp only [kinParticlesNames, Bool.false_eq_true, if_false]
    split <;> rfl
  · simp only [kinParticlesNames, buildParticles, if_true]
    cases BPHRecoCandidate.addParticles fit cand ⟨[], [], [], np⟩ with
    | none => rfl
    | some b =>
      simp only []
      split <;> rfl

/-- C18: on a well-formed candidate whose build is complete,
`kinematicTree(name, kc)` with a group name that is empty or resolves to a
composite returns, and caches, the result the specification gives for the
component list `kComp` and the tail list `kTail` (`twoStageFitSpec`): with an
empty name `kComp` is the list of `kinParticles()` and `kTail` is empty; with
the name of a composite of `ns` declared daughter names they are the first
`ns` and the other particles of `kinParticles(nfull)`. -/
theorem C18_two_stage_fit_follows_the_specification (fit : Fitters) (s : BPHKinematicFit)
    (name : String) (kc : Option KinematicConstraint)
    (hw : s.WellFormed) (hb : s.ParticlesBuilt)
    (hc : s.cand.trackCount = s.cand.daughFull.length)
    (hres : name ≠ "" → (s.getComp name).isSome = true) :
    ∃ r kComp kTail, kinematicTreeKC fit s name kc = some r ∧
      r.1 = twoStageFitSpec fit kc kComp kTail ∧ r.2.kinTree = r.1 ∧
      (name = "" → (kinParticles fit s).map Prod.fst = some kComp ∧ kTail = []) ∧
      (∀ comp, name ≠ "" → s.getComp name = some comp →
        ∃ kPart,
          (kinParticlesNames fit s (nfull name comp.daugNames)).map Prod.fst = some kPart ∧
          comp.daugNames.length ≤ kPart.length ∧
          kComp = kPart.take comp.daugNames.length ∧
          kTail = kPart.drop comp.daugNames.length) := by
  obtain ⟨s1, e1, hr, hm, h1, -, h3⟩ := kinematicTreeKC_complete fit s name kc hw hb hc
  have hkt : s1.kinTree = none := hr.sameFit.2
  by_cases hn : name = ""
  · obtain ⟨f1, f2⟩ := fitComponent_eq_spec fit s1 kc s1.allParticles [] hkt
    refine ⟨_, s1.allParticles, [], h1 hn, f1, f2, ?_, ?_⟩
    · intro _
      have := kinParticles_list_entry fit s none false (Event.fitEntryKC name kc :: s.trace)
      rw [e1] at this
      exact ⟨this.symm, rfl⟩
    · intro comp h
      exact absurd hn h
  · cases hg : s.getComp name with
    | none =>
      have := hres hn
      rw [hg] at this
      cases this
    | some comp =>
      obtain ⟨hbound, e4⟩ := h3 comp hn hg
      have hkt1 : (s1.logNotFound (unresolvedNames s1.getDaug s1.kinMap
          (nfull name comp.daugNames))).kinTree = none := hkt
      obtain ⟨f1, f2⟩ := fitComponent_eq_spec fit _ kc
        ((firstOccurrences (metParticles s1.getDaug s1.kinMap s1.allParticles.reverse
          (nfull name comp.daugNames))).take comp.daugNames.length)
        ((firstOccurrences (metParticles s1.getDaug s1.kinMap s1.allParticles.reverse
          (nfull name comp.daugNames))).drop comp.daugNames.length) hkt1
      refine ⟨_, _, _, e4, f1, f2, fun h => absurd h hn, ?_⟩
      intro comp1 _ hg1
      cases hg1
      refine ⟨_, ?_, hbound, rfl, rfl⟩
      have a1 := kinParticlesNames_list_entry fit s none false
        (Event.fitEntryKC name kc :: s.trace) (nfull name comp.daugNames)
      obtain ⟨-, -, -, a2⟩ := kinParticlesNames_after fit _ s1 _ (nfull name comp.daugNames) e1
      rw [← a1, a2, kinParticlesNames_built fit s1 _ hr.fresh, if_neg (not_not.2 hm)]
      rfl

/-- Witness of C18: the sample candidate, the group `"JPsi"` and a mass
constraint. -/
theorem C18_two_stage_fit_follows_the_specification_witness :
    sampleCand.WellFormed ∧ sampleCand.ParticlesBuilt ∧
      sampleCand.cand.trackCount = sampleCand.cand.daughFull.length ∧
      ("JPsi" ≠ "" → (sampleCand.getComp "JPsi").isSome = true) ∧
      ∃ r kComp kTail,
        kinematicTreeKC sampleFitters sampleCand "JPsi"
          (some (KinematicConstraint.MassKinematicConstraint 3 1)) = some r ∧
        r.1 = twoStageFitSpec sampleFitters
          (some (KinematicConstraint.MassKinematicConstraint 3 1)) kComp kTail ∧
        r.2.kinTree = r.1 ∧
        ("JPsi" = "" →
          (kinParticles sampleFitters sampleCand).map Prod.fst = some kComp ∧ kTail = []) ∧
        (∀ comp, "JPsi" ≠ "" → sampleCand.getComp "JPsi" = some comp →
          ∃ kPart,
            (kinParticlesNames sampleFitters sampleCand (nfull "JPsi" comp.daugNames)).map
              Prod.fst = some kPart ∧
            comp.daugNames.length ≤ kPart.length ∧
            kComp = kPart.take comp.daugNames.length ∧
            kTail = kPart.drop comp.daugNames.length) :=
  ⟨sampleCand_wellFormed, sampleCand_particlesBuilt, by decide, fun _ => rfl,
    C18_two_stage_fit_follows_the_specification sampleFitters sampleCand "JPsi"
      (some (KinematicConstraint.MassKinematicConstraint 3 1))
      sampleCand_wellFormed sampleCand_particlesBuilt (by decide) (fun _ => rfl)⟩

/-! ## Setting and resetting the constraint -/

/-- What `kinematicTree("", kc)` returns and leaves: the tree the
specification gives for the whole particle list and no tail, the null tree on
a particle count mismatch, fitted on the particle list that was there if it
was not stale. -/
theorem kinematicTreeKC_whole (fit : Fitters) (s : BPHKinematicFit)
    (kc : Option KinematicConstraint) (hw : s.WellFormed) (hb : s.ParticlesBuilt) :
    ∃ r, kinematicTreeKC fit s "" kc = some r ∧ r.2.oldKPs = false ∧
      r.2.inputs = s.inputs ∧ r.2.ParticlesBuilt ∧ r.2.kinTree = r.1 ∧
      r.2.oldFit = false ∧ r.2.oldMom = s.oldMom ∧
      r.1 = (if r.2.allParticles.length ≠ r.2.cand.daughFull.length then none
        else twoStageFitSpec fit kc r.2.allParticles []) ∧
      (s.oldKPs = false → r.2.allParticles = s.allParticles) := by
  obtain ⟨s1, e1, hr⟩ := kinParticles_spec fit
    { s with kinTree := none, oldFit := false,
             trace := Event.fitEntryKC "" kc :: s.trace } hw.1 hb
  have hkt : s1.kinTree = none := hr.sameFit.2
  have hof : s1.oldFit = false := hr.sameFit.1
  have hom : s1.oldMom = s.oldMom := congrArg Prod.fst hr.sameMomentum
  have hkept : s.oldKPs = false → s1.allParticles = s.allParticles := by
    intro h
    have := hr.kept h
    simp only [particleCache, Prod.mk.injEq] at this
    exact this.2.1
  by_cases hm : s1.allParticles.length = s1.cand.daughFull.length
  · obtain ⟨t, evs, e3, -, -⟩ := fitComponent_spec fit s1 kc s1.allParticles [] hkt
    obtain ⟨f1, -⟩ := fitComponent_eq_spec fit s1 kc s1.allParticles [] hkt
    rw [e3] at f1
    refine ⟨(t, { s1 with kinTree := t, trace := evs ++ s1.trace }), ?_, hr.fresh,
      hr.sameInputs, fun _ => ⟨hr.length, hr.nodup⟩, rfl, hof, hom, ?_, hkept⟩
    · unfold kinematicTreeKC
      simp only [e1]
      simp [hm, e3]
    · show t = _
      rw [if_neg (not_not.2 hm)]
      exact f1
  · refine ⟨(s1.kinTree, s1), ?_, hr.fresh, hr.sameInputs, fun _ => ⟨hr.length, hr.nodup⟩,
      rfl, hof, hom, ?_, hkept⟩
    · unfold kinematicTreeKC
      simp only [e1]
      simp [hm]
    · show s1.kinTree = _
      rw [if_pos hm, hkt]

/-- With no constraint set, a stale fit is redone by `kinematicTree("")`. -/
theorem kinematicTree_unconstrained (fit : Fitters) (s : BPHKinematicFit)
    (hf : s.oldFit = true) (h1 : s.massConst = -1) :
    kinematicTree fit s = kinematicTreeKC fit s "" none := by
  unfold kinematicTree kinematicTreeMassSigma kinematicTreeName
  rw [if_pos hf, h1, if_pos (by norm_num)]

/-- C14: on an object with no constraint set and the fit not read yet, as a
constructor leaves it, `setConstraint(mass, sigma)` followed by
`setConstraint(-1, -1)` gives back the object itself, so that `kinematicTree()`
returns what it returns without the two calls; and when the two calls come
after `kinematicTree()` was read, the next `kinematicTree()` returns the tree
that was read. -/
theorem C14_set_then_reset_gives_the_unconstrained_tree (fit : Fitters)
    (s : BPHKinematicFit) (m sg : ℚ) (hw : s.WellFormed) (hb : s.ParticlesBuilt)
    (h1 : s.massConst = -1) (h2 : s.massSigma = -1)
    (hf : s.oldFit = true) (hm : s.oldMom = true) :
    (s.setConstraint m sg).setConstraint (-1) (-1) = s ∧
      kinematicTree fit ((s.setConstraint m sg).setConstraint (-1) (-1)) =
        kinematicTree fit s ∧
      ∃ t s1 s2, kinematicTree fit s = some (t, s1) ∧
        kinematicTree fit ((s1.setConstraint m sg).setConstraint (-1) (-1)) = some (t, s2) := by
  have e0 : (s.setConstraint m sg).setConstraint (-1) (-1) = s := by
    rcases s with ⟨cand, gd, gc, mc, ms, ok, ofl, om, kt, ap, km, kcd, tm, np, tr0⟩
    simp only at h1 h2 hf hm
    subst h1 h2 hf hm
    rfl
  refine ⟨e0, by rw [e0], ?_⟩
  obtain ⟨r, e, hk, hin, hpb, -, -, -, htree, -⟩ := kinematicTreeKC_whole fit s none hw hb
  have hw1 : r.2.WellFormed := wellFormed_of_inputs hin hw
  have hw2 : ((r.2.setConstraint m sg).setConstraint (-1) (-1)).WellFormed := hw1
  have hb2 : ((r.2.setConstraint m sg).setConstraint (-1) (-1)).ParticlesBuilt := hpb
  obtain ⟨r1, e1, -, hin1, -, -, -, -, htree1, hkept1⟩ :=
    kinematicTreeKC_whole fit ((r.2.setConstraint m sg).setConstraint (-1) (-1)) none hw2 hb2
  have hcand : r1.2.cand = r.2.cand := congrArg Prod.fst hin1
  have hall : r1.2.allParticles = r.2.allParticles := hkept1 hk
  have ht : r1.1 = r.1 := by
    rw [htree1, htree, hcand, hall]
  refine ⟨r.1, r.2, r1.2, ?_, ?_⟩
  · rw [kinematicTree_unconstrained fit s hf h1, e]
  · rw [kinematicTree_unconstrained fit _ rfl rfl, e1, ← ht]

/-- Witness of C14: the sample candidate as constructed. -/
theorem C14_set_then_reset_gives_the_unconstrained_tree_witness :
    sampleCand.WellFormed ∧ sampleCand.ParticlesBuilt ∧
      sampleCand.massConst = -1 ∧ sampleCand.massSigma = -1 ∧
      sampleCand.oldFit = true ∧ sampleCand.oldMom = true ∧
      (sampleCand.setConstraint 3 1).setConstraint (-1) (-1) = sampleCand ∧
      kinematicTree sampleFitters ((sampleCand.setConstraint 3 1).setConstraint (-1) (-1)) =
        kinematicTree sampleFitters sampleCand ∧
      ∃ t s1 s2, kinematicTree sampleFitters sampleCand = some (t, s1) ∧
        kinematicTree sampleFitters ((s1.setConstraint 3 1).setConstraint (-1) (-1)) =
          some (t, s2) :=
  ⟨sampleCand_wellFormed, sampleCand_particlesBuilt, rfl, rfl, rfl, rfl,
    C14_set_then_reset_gives_the_unconstrained_tree sampleFitters sampleCand 3 1
      sampleCand_wellFormed sampleCand_particlesBuilt rfl rfl rfl rfl⟩

/-! ## The mass sigma of a daughter -/

theorem mapFind_mapAssign_self {β : Type} (m : List (Nat × β)) (k : Nat) (v : β) :
    mapFind (mapAssign m k v) k = some v := by
  simp [mapFind, mapAssign]

theorem dMSig_withDMSig (c : BPHRecoCandidate) (m : List (Nat × ℚ)) :
    (c.withDMSig m).dMSig = m := by
  cases c
  rfl

theorem daughters_withDMSig (c : BPHRecoCandidate) (m : List (Nat × ℚ)) :
    (c.withDMSig m).daughters = c.daughters := by
  cases c
  rfl

/-- C15: `getMassSigma(c)` returns the value stored for `c` in `dMSig` as it
is, negative or not, and `-1` when `c` has no entry; and whatever `addV` does,
`addK(name, daug, searchList, mass, sigma)` with a last daughter `back` after
`addV` returns and leaves an object whose `getMassSigma(back)` is `sigma`, so
`-1` for the sigma `-1`; the same holds for the overload without a search
list.  For an `addV` that appends a clone the lookup of that clone gives
`-1`, not the default of the particle building. -/
theorem C15_getMassSigma_is_the_stored_value
    (addV : String → Candidate → String → ℚ → BPHKinematicFit → BPHKinematicFit)
    (s : BPHKinematicFit) (c : Nat) (name searchList : String) (daug : Candidate)
    (mass sigma : ℚ) :
    (∀ v, mapFind s.cand.dMSig c = some v → s.getMassSigma c = v) ∧
      (mapFind s.cand.dMSig c = none → s.getMassSigma c = -1) ∧
      (∀ back, (addV name daug searchList mass s).cand.daughters.getLast? = some back →
        ∃ s1, addK addV name daug searchList mass sigma s = some s1 ∧
          s1.cand.daughters = (addV name daug searchList mass s).cand.daughters ∧
          s1.getMassSigma back.ptr = sigma) ∧
      (∀ back, (addV name daug "cfhpmig" mass s).cand.daughters.getLast? = some back →
        ∃ s1, addKDefault addV name daug mass sigma s = some s1 ∧
          s1.getMassSigma back.ptr = sigma) ∧
      (∃ s1, addK (sampleAddV 7) "Kaon" (sampleLeaf 1) "cfhpmig" (1875 / 1000) (-1)
          BPHKinematicFit.default = some s1 ∧
        s1.cand.daughters.map (fun d => d.ptr) = [7] ∧ s1.getMassSigma 7 = -1) := by
  have key : ∀ (sl : String) (back : Candidate),
      (addV name daug sl mass s).cand.daughters.getLast? = some back →
      ∃ s1, addK addV name daug sl mass sigma s = some s1 ∧
        s1.cand.daughters = (addV name daug sl mass s).cand.daughters ∧
        s1.getMassSigma back.ptr = sigma := by
    intro sl back hb
    refine ⟨{ addV name daug sl mass s with
        cand := (addV name daug sl mass s).cand.withDMSig
          (mapAssign (addV name daug sl mass s).cand.dMSig back.ptr sigma) },
      by simp only [addK, hb], ?_, ?_⟩
    · exact daughters_withDMSig _ _
    · simp only [getMassSigma, dMSig_withDMSig, mapFind_mapAssign_self]
  refine ⟨?_, ?_, key searchList, ?_, ?_⟩
  · intro v h
    simp only [getMassSigma, h]
  · intro h
    simp only [getMassSigma, h]
  · intro back hb
    obtain ⟨s1, e, -, h⟩ := key "cfhpmig" back hb
    exact ⟨s1, e, h⟩
  · refine ⟨_, rfl, rfl, ?_⟩
    simp [getMassSigma, mapFind, mapAssign, BPHRecoCandidate.withDMSig,
      BPHRecoCandidate.dMSig, sampleAddV, BPHKinematicFit.default, construct]

/-! ## The mass sigma of a built particle -/

theorem addLeaf_values (fit : Fitters) (dMSig : List (Nat × ℚ)) (getTT : Nat → Option Nat)
    (cand : Candidate) (b : Build) (h : (mapFind dMSig cand.ptr).isSome = true) :
    ∃ b1, addLeaf fit dMSig getTT cand b = some b1 ∧
      b1.kl.map (fun p => (p.track, p.mass, p.sigma)) =
        b.kl.map (fun p => (p.track, p.mass, p.sigma)) ++
          ((getTT cand.ptr).map (fun tt => (tt, cand.mass, sigmaOrDefault dMSig cand))).toList := by
  unfold addLeaf sigmaOrDefault
  cases hs : mapFind dMSig cand.ptr with
  | none => simp [hs] at h
  | some v =>
    cases ht : getTT cand.ptr with
    | none => exact ⟨b, rfl, by simp⟩
    | some tt => exact ⟨_, rfl, by simp⟩

theorem addLeaves_values (fit : Fitters) (dMSig : List (Nat × ℚ)) (getTT : Nat → Option Nat) :
    ∀ (daug : List Candidate) (b : Build),
      daug.all (fun d => (mapFind dMSig d.ptr).isSome) = true →
      ∃ b1, addLeaves fit dMSig getTT daug b = some b1 ∧
        b1.kl.map (fun p => (p.track, p.mass, p.sigma)) =
          b.kl.map (fun p => (p.track, p.mass, p.sigma)) ++ expectedLeaves dMSig getTT daug
  | [], b, _ => ⟨b, rfl, by simp [expectedLeaves]⟩
  | cand :: rest, b, h => by
    simp only [List.all_cons, Bool.and_eq_true] at h
    obtain ⟨b1, e1, g1⟩ := addLeaves_values fit dMSig getTT rest b h.2
    obtain ⟨b2, e2, g2⟩ := addLeaf_values fit dMSig getTT cand b1 h.1
    refine ⟨b2, by simp [addLeaves, e1, e2], ?_⟩
    rw [g2, g1]
    unfold expectedLeaves
    rw [List.reverse_cons, List.filterMap_append, List.append_assoc]
    congr 1

mutual
theorem BPHRecoCandidate.addParticles_values (fit : Fitters) :
    ∀ (c : BPHRecoCandidate) (b : Build), c.sigmaComplete = true →
      ∃ b1, c.addParticles fit b = some b1 ∧
        b1.kl.map (fun p => (p.track, p.mass, p.sigma)) =
          b.kl.map (fun p => (p.track, p.mass, p.sigma)) ++ c.expectedParticles
  | .mk daug _ dMSig getTT _ comp, b, h => by
    simp only [BPHRecoCandidate.sigmaComplete, Bool.and_eq_true] at h
    obtain ⟨b1, e1, g1⟩ := addLeaves_values fit dMSig getTT daug b h.1
    obtain ⟨b2, e2, g2⟩ := addCompParticles_values fit comp b1 h.2
    refine ⟨b2, by simp [BPHRecoCandidate.addParticles, e1, e2], ?_⟩
    rw [g2, g1, List.append_assoc]
    rfl
theorem addCompParticles_values (fit : Fitters) :
    ∀ (cs : List BPHRecoCandidate) (b : Build), sigmaCompleteComp cs = true →
      ∃ b1, addCompParticles fit cs b = some b1 ∧
        b1.kl.map (fun p => (p.track, p.mass, p.sigma)) =
          b.kl.map (fun p => (p.track, p.mass, p.sigma)) ++ expectedParticlesComp cs
  | [], b, _ => ⟨b, by simp [addCompParticles], by simp [expectedParticlesComp]⟩
  | c :: rest, b, h => by
    simp only [sigmaCompleteComp, Bool.and_eq_true] at h
    obtain ⟨b1, e1, g1⟩ := addCompParticles_values fit rest b h.2
    obtain ⟨b2, e2, g2⟩ := BPHRecoCandidate.addParticles_values fit c b1 h.1
    refine ⟨b2, by simp [addCompParticles, e1, e2], ?_⟩
    rw [g2, g1, List.append_assoc]
    rfl
end

theorem mapFind_mapAssign_of_ne {β : Type} (m : List (Nat × β)) (k k1 : Nat) (v : β)
    (h : k1 ≠ k) : mapFind (mapAssign m k v) k1 = mapFind m k1 := by
  unfold mapFind mapAssign
  have hne : (k == k1) = false := by
    simp only [beq_eq_false_iff_ne, ne_eq]
    exact fun e => h e.symm
  rw [List.find?_cons, hne]
  congr 1
  induction m with
  | nil => rfl
  | cons kv rest ih =>
    by_cases hkv : kv.1 = k
    · have h1 : (kv.1 != k) = false := by simp [hkv]
      have h2 : (kv.1 == k1) = false := by
        simp only [beq_eq_false_iff_ne, ne_eq, hkv]
        exact fun e => h e.symm
      rw [List.filter_cons, h1, List.find?_cons, h2]
      exact ih
    · have h1 : (kv.1 != k) = true := by simp [hkv]
      rw [List.filter_cons, h1, if_pos rfl, List.find?_cons, List.find?_cons]
      cases kv.1 == k1
      · exact ih
      · rfl

/-- The invariant is kept by `addK`: when `addV` appends a clone of the
daughter, the candidate after `addK(name, daug, searchList, mass, sigma)` has
an entry for every leaf daughter again. -/
theorem addK_sigmaComplete (a : Nat) (name searchList : String) (daug : Candidate)
    (mass sigma : ℚ) (s : BPHKinematicFit) (hs : s.cand.sigmaComplete = true) :
    ∃ s1, addK (sampleAddV a) name daug searchList mass sigma s = some s1 ∧
      s1.cand.sigmaComplete = true := by
  rcases s with ⟨cand, gd, gc, mc, ms, ok, ofl, om, kt, ap, km, kcd, tm, np, tr0⟩
  cases cand with
  | mk ds names m getTT p4 comp =>
    simp only [BPHRecoCandidate.sigmaComplete, Bool.and_eq_true, List.all_eq_true] at hs
    refine ⟨⟨.mk (ds ++ [⟨a, mass, daug.p4⟩]) (names ++ [name]) (mapAssign m a sigma) getTT p4
        comp, gd, gc, mc, ms, ok, ofl, om, kt, ap, km, kcd, tm, np, tr0⟩,
      by simp [addK, sampleAddV, BPHRecoCandidate.daughters, BPHRecoCandidate.withDMSig,
        BPHRecoCandidate.dMSig], ?_⟩
    simp only [BPHRecoCandidate.sigmaComplete, Bool.and_eq_true, List.all_eq_true]
    refine ⟨?_, hs.2⟩
    intro d hd
    by_cases e : d.ptr = a
    · simp [mapFind, mapAssign, e]
    · have h1 := hs.1 d (by
        rcases List.mem_append.1 hd with h | h
        · exact h
        · simp only [List.mem_singleton] at h
          exact absurd (by rw [h]) e)
      have := mapFind_mapAssign_of_ne m a d.ptr sigma e
      rw [this]
      exact h1

/-! ## Building the particles twice -/

theorem mapAssign_shift (d : Nat) (m : List (Nat × KinematicParticle)) (k : Nat)
    (p : KinematicParticle) :
    mapAssign (m.map (fun kv => (kv.1, KinematicParticle.shift d kv.2))) k
        (KinematicParticle.shift d p) =
      (mapAssign m k p).map (fun kv => (kv.1, KinematicParticle.shift d kv.2)) := by
  unfold mapAssign
  rw [List.map_cons, List.filter_map]
  rfl

theorem addLeaf_shifted (fit : Fitters) (dMSig : List (Nat × ℚ)) (getTT : Nat → Option Nat)
    (cand : Candidate) (d : Nat) (b b1 c : Build) (h : Build.Shifted d b b1)
    (e : addLeaf fit dMSig getTT cand b = some c) :
    ∃ c1, addLeaf fit dMSig getTT cand b1 = some c1 ∧ Build.Shifted d c c1 := by
  obtain ⟨h1, h2, h3, h4⟩ := h
  unfold addLeaf at e ⊢
  cases hs : mapFind dMSig cand.ptr with
  | none => rw [hs] at e; cases e
  | some v =>
    rw [hs] at e
    cases ht : getTT cand.ptr with
    | none =>
      rw [ht] at e
      cases e
      exact ⟨b1, rfl, h1, h2, h3, h4⟩
    | some tt =>
      rw [ht] at e
      cases e
      refine ⟨_, rfl, ?_, ?_, h3, ?_⟩
      · simp only [h1, h4, List.map_append, List.map_cons, List.map_nil]
        rfl
      · simp only [h2, h4]
        exact mapAssign_shift d b.km cand.ptr
          ⟨b.next, tt, cand.mass, 0, 0, if v < 0 then 1 / 10000000 else v,
            fit.particleState tt cand.mass 0 0 (if v < 0 then 1 / 10000000 else v)⟩
      · simp only [h4]
        omega

theorem addLeaves_shifted (fit : Fitters) (dMSig : List (Nat × ℚ))
    (getTT : Nat → Option Nat) (d : Nat) :
    ∀ (daug : List Candidate) (b b1 c : Build), Build.Shifted d b b1 →
      addLeaves fit dMSig getTT daug b = some c →
      ∃ c1, addLeaves fit dMSig getTT daug b1 = some c1 ∧ Build.Shifted d c c1
  | [], b, b1, c, h, e => by
    cases e
    exact ⟨b1, rfl, h⟩
  | cand :: rest, b, b1, c, h, e => by
    simp only [addLeaves] at e ⊢
    cases e1 : addLeaves fit dMSig getTT rest b with
    | none => rw [e1] at e; cases e
    | some b2 =>
      rw [e1] at e
      obtain ⟨c2, f1, g1⟩ := addLeaves_shifted fit dMSig getTT d rest b b1 b2 h e1
      obtain ⟨c1, f2, g2⟩ := addLeaf_shifted fit dMSig getTT cand d b2 c2 c g1 e
      exact ⟨c1, by rw [f1]; exact f2, g2⟩

mutual
theorem BPHRecoCandidate.addParticles_shifted (fit : Fitters) (d : Nat) :
    ∀ (x : BPHRecoCandidate) (b b1 c : Build), Build.Shifted d b b1 →
      x.addParticles fit b = some c →
      ∃ c1, x.addParticles fit b1 = some c1 ∧ Build.Shifted d c c1
  | .mk daug _ dMSig getTT _ comp, b, b1, c, h, e => by
    simp only [BPHRecoCandidate.addParticles] at e ⊢
    cases e1 : addLeaves fit dMSig getTT daug b with
    | none => rw [e1] at e; cases e
    | some b2 =>
      rw [e1] at e
      obtain ⟨c2, f1, g1⟩ := addLeaves_shifted fit dMSig getTT d daug b b1 b2 h e1
      obtain ⟨c1, f2, g2⟩ := addCompParticles_shifted fit d comp b2 c2 c g1 e
      exact ⟨c1, by rw [f1]; exact f2, g2⟩
theorem addCompParticles_shifted (fit : Fitters) (d : Nat) :
    ∀ (xs : List BPHRecoCandidate) (b b1 c : Build), Build.Shifted d b b1 →
      addCompParticles fit xs b = some c →
      ∃ c1, addCompParticles fit xs b1 = some c1 ∧ Build.Shifted d c c1
  | [], b, b1, c, h, e => by
    simp only [addCompParticles] at e ⊢
    cases e
    exact ⟨b1, rfl, h⟩
  | x :: rest, b, b1, c, h, e => by
    simp only [addCompParticles] at e ⊢
    cases e1 : addCompParticles fit rest b with
    | none => rw [e1] at e; cases e
    | some b2 =>
      rw [e1] at e
      obtain ⟨c2, f1, g1⟩ := addCompParticles_shifted fit d rest b b1 b2 h e1
      obtain ⟨c1, f2, g2⟩ := BPHRecoCandidate.addParticles_shifted fit d x b2 c2 c g1 e
      exact ⟨c1, by rw [f1]; exact f2, g2⟩
end

theorem content_shift (d : Nat) (p : KinematicParticle) :
    (KinematicParticle.shift d p).content = p.content := rfl

/-- C16: on a well-formed candidate `buildParticles` called twice in a row
returns both times; the second call leaves the particles of the first, in the
same order and under the same keys of `kinMap`, as new objects (each as many
addresses further on as there are particles) of the same values; `kCDMap` is
empty both times, the list has one particle for each tracked leaf daughter,
no particle object twice, and the stale flag of the particle list is false. -/
theorem C16_buildParticles_twice_gives_the_same_particles (fit : Fitters)
    (s : BPHKinematicFit) (hw : s.WellFormed) :
    ∃ s1 s2, buildParticles fit s = some s1 ∧ buildParticles fit s1 = some s2 ∧
      s1.oldKPs = false ∧ s2.oldKPs = false ∧ s2.inputs = s.inputs ∧
      s2.allParticles =
        s1.allParticles.map (KinematicParticle.shift s1.allParticles.length) ∧
      s2.kinMap = s1.kinMap.map
        (fun kv => (kv.1, KinematicParticle.shift s1.allParticles.length kv.2)) ∧
      s1.kCDMap = [] ∧ s2.kCDMap = [] ∧
      s2.allParticles.map KinematicParticle.content =
        s1.allParticles.map KinematicParticle.content ∧
      s2.kinMap.map (fun kv => (kv.1, kv.2.content)) =
        s1.kinMap.map (fun kv => (kv.1, kv.2.content)) ∧
      s1.allParticles.length = s.cand.trackCount ∧
      s2.allParticles.length = s.cand.trackCount ∧
      (s2.allParticles.map (fun p => p.ptr)).Nodup := by
  obtain ⟨b1, eb, g1, g2, g3⟩ := BPHRecoCandidate.addParticles_grows fit s.cand
    ⟨[], [], [], s.nextPtr⟩ hw.1
  simp only [List.map_nil, List.nil_append] at g1 g2 g3
  have hlen : b1.kl.length = s.cand.trackCount := by
    have := congrArg List.length g1
    simpa using this
  have hsh : Build.Shifted s.cand.trackCount ⟨[], [], [], s.nextPtr⟩ ⟨[], [], [], b1.next⟩ :=
    ⟨rfl, rfl, rfl, g2⟩
  obtain ⟨c1, ec, h1, h2, h3, h4⟩ := BPHRecoCandidate.addParticles_shifted fit
    s.cand.trackCount s.cand _ _ b1 hsh eb
  obtain ⟨c2, ec2, k1, -, -⟩ := BPHRecoCandidate.addParticles_grows fit s.cand
    ⟨[], [], [], b1.next⟩ hw.1
  rw [ec] at ec2
  cases ec2
  simp only [List.map_nil, List.nil_append] at k1
  have e1 : buildParticles fit s =
      some { s with allParticles := b1.kl, kinMap := b1.km, kCDMap := b1.cm,
                    nextPtr := b1.next, oldKPs := false,
                    trace := Event.buildParticles :: s.trace } := by
    simp only [buildParticles, eb]
  have e2 : buildParticles fit
      { s with allParticles := b1.kl, kinMap := b1.km, kCDMap := b1.cm,
               nextPtr := b1.next, oldKPs := false,
               trace := Event.buildParticles :: s.trace } =
      some { s with allParticles := c1.kl, kinMap := c1.km, kCDMap := c1.cm,
                    nextPtr := c1.next, oldKPs := false,
                    trace := Event.buildParticles :: Event.buildParticles :: s.trace } := by
    simp only [buildParticles, ec]
  refine ⟨_, _, e1, e2, rfl, rfl, rfl, ?_, ?_, g3, ?_, ?_, ?_, hlen, ?_, ?_⟩
  · show c1.kl = b1.kl.map (KinematicParticle.shift b1.kl.length)
    rw [hlen]
    exact h1
  · show c1.km = b1.km.map (fun kv => (kv.1, KinematicParticle.shift b1.kl.length kv.2))
    rw [hlen]
    exact h2
  · show c1.cm = []
    rw [h3, g3]
    rfl
  · show c1.kl.map KinematicParticle.content = b1.kl.map KinematicParticle.content
    rw [h1, List.map_map]
    rfl
  · show c1.km.map (fun kv => (kv.1, kv.2.content)) =
      b1.km.map (fun kv => (kv.1, kv.2.content))
    rw [h2, List.map_map]
    rfl
  · show c1.kl.length = s.cand.trackCount
    rw [h1, List.length_map]
    exact hlen
  · show (c1.kl.map (fun p => p.ptr)).Nodup
    rw [k1]
    exact List.nodup_range' _ _

/-- Witness of C16: the sample candidate. -/
theorem C16_buildParticles_twice_gives_the_same_particles_witness :
    sampleCand.WellFormed ∧
      ∃ s1 s2, buildParticles sampleFitters sampleCand = some s1 ∧
        buildParticles sampleFitters s1 = some s2 ∧
        s1.oldKPs = false ∧ s2.oldKPs = false ∧ s2.inputs = sampleCand.inputs ∧
        s2.allParticles =
          s1.allParticles.map (KinematicParticle.shift s1.allParticles.length) ∧
        s2.kinMap = s1.kinMap.map
          (fun kv => (kv.1, KinematicParticle.shift s1.allParticles.length kv.2)) ∧
        s1.kCDMap = [] ∧ s2.kCDMap = [] ∧
        s2.allParticles.map KinematicParticle.content =
          s1.allParticles.map KinematicParticle.content ∧
        s2.kinMap.map (fun kv => (kv.1, kv.2.content)) =
          s1.kinMap.map (fun kv => (kv.1, kv.2.content)) ∧
        s1.allParticles.length = sampleCand.cand.trackCount ∧
        s2.allParticles.length = sampleCand.cand.trackCount ∧
        (s2.allParticles.map (fun p => p.ptr)).Nodup :=
  ⟨sampleCand_wellFormed,
    C16_buildParticles_twice_gives_the_same_particles sampleFitters sampleCand
      sampleCand_wellFormed⟩

/-! ## The failure paths of the two fit entry points -/

/-- The tree `kinematicTree(name, kc)` returns on a complete build, for a name
that is empty or resolves: what the specification gives for the component and
tail lists, which are the list of `kinParticles()` and the empty list for an
empty name, and the first `ns` and the other particles of
`kinParticles(nfull)` for a composite. -/
theorem kinematicTreeKC_result (fit : Fitters) (s : BPHKinematicFit) (name : String)
    (kc : Option KinematicConstraint) (hw : s.WellFormed) (hb : s.ParticlesBuilt)
    (hc : s.cand.trackCount = s.cand.daughFull.length)
    (hres : name ≠ "" → (s.getComp name).isSome = true) :
    ∃ kComp kTail,
      (name = "" → (kinParticles fit s).map Prod.fst = some kComp ∧ kTail = []) ∧
      (∀ comp, name ≠ "" → s.getComp name = some comp →
        ∃ kPart,
          (kinParticlesNames fit s (nfull name comp.daugNames)).map Prod.fst = some kPart ∧
          comp.daugNames.length ≤ kPart.length ∧
          kComp = kPart.take comp.daugNames.length ∧
          kTail = kPart.drop comp.daugNames.length) ∧
      (kinematicTreeKC fit s name kc).map Prod.fst =
        some (twoStageFitSpec fit kc kComp kTail) := by
  obtain ⟨s1, e1, hr, hm, h1, -, h3⟩ := kinematicTreeKC_complete fit s name kc hw hb hc
  have hkt : s1.kinTree = none := hr.sameFit.2
  by_cases hn : name = ""
  · obtain ⟨f1, -⟩ := fitComponent_eq_spec fit s1 kc s1.allParticles [] hkt
    refine ⟨s1.allParticles, [], ?_, ?_, ?_⟩
    · intro _
      have := kinParticles_list_entry fit s none false (Event.fitEntryKC name kc :: s.trace)
      rw [e1] at this
      exact ⟨this.symm, rfl⟩
    · intro comp h
      exact absurd hn h
    · rw [h1 hn, Option.map_some', f1]
  · cases hg : s.getComp name with
    | none =>
      have := hres hn
      rw [hg] at this
      cases this
    | some comp =>
      obtain ⟨hbound, e4⟩ := h3 comp hn hg
      have hkt1 : (s1.logNotFound (unresolvedNames s1.getDaug s1.kinMap
          (nfull name comp.daugNames))).kinTree = none := hkt
      obtain ⟨f1, -⟩ := fitComponent_eq_spec fit _ kc
        ((firstOccurrences (metParticles s1.getDaug s1.kinMap s1.allParticles.reverse
          (nfull name comp.daugNames))).take comp.daugNames.length)
        ((firstOccurrences (metParticles s1.getDaug s1.kinMap s1.allParticles.reverse
          (nfull name comp.daugNames))).drop comp.daugNames.length) hkt1
      refine ⟨(firstOccurrences (metParticles s1.getDaug s1.kinMap s1.allParticles.reverse
          (nfull name comp.daugNames))).take comp.daugNames.length,
        (firstOccurrences (metParticles s1.getDaug s1.kinMap s1.allParticles.reverse
          (nfull name comp.daugNames))).drop comp.daugNames.length,
        fun h => absurd h hn, ?_, ?_⟩
      · intro comp1 _ hg1
        cases hg1
        refine ⟨_, ?_, hbound, rfl, rfl⟩
        have a1 := kinParticlesNames_list_entry fit s none false
          (Event.fitEntryKC name kc :: s.trace) (nfull name comp.daugNames)
        obtain ⟨-, -, -, a2⟩ :=
          kinParticlesNames_after fit _ s1 _ (nfull name comp.daugNames) e1
        rw [← a1, a2, kinParticlesNames_built fit s1 _ hr.fresh, if_neg (not_not.2 hm)]
        rfl
      · rw [e4, Option.map_some', f1]

/-- The tree `kinematicTree(name, mkc)` returns on a complete build, for the
name list `nf` the call selects: the tree the constrained vertex fitter gives
for the particles of `kinParticles(nf)`, and the null tree if it throws. -/
theorem kinematicTreeMT_result (fit : Fitters) (s : BPHKinematicFit) (name : String)
    (mkc : Option MultiTrackKinematicConstraint) (hw : s.WellFormed) (hb : s.ParticlesBuilt)
    (hc : s.cand.trackCount = s.cand.daughFull.length) (nf : List String)
    (hnf : (if name ≠ "" then (s.getComp name).map (fun comp => nfull name comp.daugNames)
      else some ["*"]) = some nf) :
    ∃ kPart, (kinParticlesNames fit s nf).map Prod.fst = some kPart ∧
      (kinematicTreeMT fit s name mkc).map Prod.fst =
        some (match fit.constrainedVertexFit kPart mkc with
          | .tree t => some t
          | .raise => none) := by
  obtain ⟨s1, e1, hr⟩ := kinParticles_spec fit
    { s with kinTree := none, oldFit := false,
             trace := Event.fitEntryMT name mkc :: s.trace } hw.1 hb
  have hin := hr.sameInputs
  simp only [inputs, Prod.mk.injEq] at hin
  obtain ⟨hcand, -, hgc, -, -⟩ := hin
  have hm : s1.allParticles.length = s1.cand.daughFull.length := by
    rw [hr.length, hcand]
    exact hc
  have hnf1 : (if name ≠ "" then (s1.getComp name).map (fun comp => nfull name comp.daugNames)
      else some ["*"]) = some nf := by
    rw [hgc]
    exact hnf
  have e2 := kinParticlesNames_built fit s1 nf hr.fresh
  rw [if_neg (not_not.2 hm)] at e2
  refine ⟨firstOccurrences (metParticles s1.getDaug s1.kinMap s1.allParticles.reverse nf),
    ?_, ?_⟩
  · have a1 := kinParticlesNames_list_entry fit s none false
      (Event.fitEntryMT name mkc :: s.trace) nf
    obtain ⟨-, -, -, a2⟩ := kinParticlesNames_after fit _ s1 _ nf e1
    rw [← a1, a2, e2]
    rfl
  · unfold kinematicTreeMT
    simp only [e1]
    simp only [ne_eq, hm, not_true_eq_false, if_false]
    simp only [ne_eq] at hnf1
    rw [hnf1]
    simp only [e2]
    cases fit.constrainedVertexFit
      (firstOccurrences (metParticles s1.getDaug s1.kinMap s1.allParticles.reverse nf)) mkc <;>
      simp [fitFailed]

/-- The failure paths of the two-stage fit on the lists `kComp` and `kTail`:
a fitter that throws, an empty component fit, an empty constrained fit, and,
with a tail, an invalid state of the top particle all give the null tree. -/
theorem twoStageFitSpec_failure (fit : Fitters) (kc : Option KinematicConstraint)
    (kComp kTail : List KinematicParticle) :
    (fit.vertexFit kComp = FitResult.raise → twoStageFitSpec fit kc kComp kTail = none) ∧
    (∀ t0, fit.vertexFit kComp = FitResult.tree t0 →
      (t0.isEmpty = true → twoStageFitSpec fit kc kComp kTail = none) ∧
      (∀ c, kc = some c → fit.constrainedFit c t0 = FitResult.raise →
        twoStageFitSpec fit kc kComp kTail = none) ∧
      (∀ c t1, kc = some c → fit.constrainedFit c t0 = FitResult.tree t1 →
        t1.isEmpty = true → twoStageFitSpec fit kc kComp kTail = none) ∧
      (∀ t1, ((kc = none ∧ t1 = t0) ∨
          (∃ c, kc = some c ∧ fit.constrainedFit c t0 = FitResult.tree t1)) →
        kTail ≠ [] →
        (t1.topParticle.currentState.isValid = false →
          twoStageFitSpec fit kc kComp kTail = none) ∧
        (fit.vertexFit (kTail ++ [t1.topParticle]) = FitResult.raise →
          twoStageFitSpec fit kc kComp kTail = none))) := by
  refine ⟨?_, ?_⟩
  · intro h
    simp [twoStageFitSpec, h]
  · intro t0 h0
    refine ⟨?_, ?_, ?_, ?_⟩
    · intro he
      simp [twoStageFitSpec, h0, he]
    · intro c hk hc
      subst hk
      simp [twoStageFitSpec, h0, hc]
    · intro c t1 hk hc he
      subst hk
      simp [twoStageFitSpec, h0, hc, he]
    · intro t1 hcase ht
      have key : ∀ r : Option KinematicTree,
          (if kTail = [] then some t1.movePointerToTheTop
            else if t1.topParticle.currentState.isValid = false then none
            else
              match fit.vertexFit (kTail ++ [t1.topParticle]) with
              | .raise => none
              | .tree t => some t) = r →
          (t1.topParticle.currentState.isValid = false → r = none) ∧
          (fit.vertexFit (kTail ++ [t1.topParticle]) = FitResult.raise → r = none) := by
        intro r hr
        rw [if_neg ht] at hr
        constructor
        · intro hv
          rw [if_pos hv] at hr
          exact hr.symm
        · intro hf
          rw [hf] at hr
          by_cases hv : t1.topParticle.currentState.isValid = false
          · rw [if_pos hv] at hr
            exact hr.symm
          · rw [if_neg hv] at hr
            exact hr.symm
      cases he0 : t0.isEmpty with
      | true =>
        have : twoStageFitSpec fit kc kComp kTail = none := by
          simp [twoStageFitSpec, h0, he0]
        exact ⟨fun _ => this, fun _ => this⟩
      | false =>
        rcases hcase with ⟨hk, ht1⟩ | ⟨c, hk, hc⟩
        · subst hk ht1
          apply key
          simp [twoStageFitSpec, h0, he0]
        · subst hk
          cases he1 : t1.isEmpty with
          | true =>
            have : twoStageFitSpec fit (some c) kComp kTail = none := by
              simp [twoStageFitSpec, h0, he0, hc, he1]
            exact ⟨fun _ => this, fun _ => this⟩
          | false =>
            apply key
            simp [twoStageFitSpec, h0, he0, hc, he1]

/-- C4: either fit entry point, called in any state of a well-formed
candidate, returns; afterwards the fit is not stale and the cached tree is the
returned tree.  The returned tree is null when the particle count does not
match, when the group name is unknown, and when a fitter call of this call
threw.  Otherwise the two-stage entry point returns what `twoStageFitSpec`
gives for the component and tail lists the code fits (the list of
`kinParticles()` and no tail for an empty name, the first `ns` and the other
particles of `kinParticles(nfull)` for a composite), which is null when the
vertex fit of that component is empty, when the constrained fit of it is
empty, when with a tail the state of its top particle is invalid, and when a
fitter throws; and the constrained-vertex entry point returns the tree the
constrained vertex fitter gives for the particles of `kinParticles(nf)`, null
when it throws. -/
theorem C4_cache_is_result_and_null_on_failure (fit : Fitters) (s : BPHKinematicFit)
    (name : String) (kc : Option KinematicConstraint)
    (mkc : Option MultiTrackKinematicConstraint)
    (hw : s.WellFormed) (hb : s.ParticlesBuilt) :
    (∃ r evs, kinematicTreeKC fit s name kc = some r ∧
      r.2.oldFit = false ∧ r.2.kinTree = r.1 ∧
      r.2.trace = evs ++ Event.fitEntryKC name kc :: s.trace ∧
      (r.2.allParticles.length ≠ s.cand.daughFull.length → r.1 = none) ∧
      (name ≠ "" → s.getComp name = none → r.1 = none) ∧
      (evs.any (Event.raised fit) = true → r.1 = none) ∧
      (r.2.allParticles.length = s.cand.daughFull.length →
        (name ≠ "" → (s.getComp name).isSome = true) →
        ∃ kComp kTail,
          (name = "" → (kinParticles fit s).map Prod.fst = some kComp ∧ kTail = []) ∧
          (∀ comp, name ≠ "" → s.getComp name = some comp →
            ∃ kPart,
              (kinParticlesNames fit s (nfull name comp.daugNames)).map Prod.fst =
                some kPart ∧
              comp.daugNames.length ≤ kPart.length ∧
              kComp = kPart.take comp.daugNames.length ∧
              kTail = kPart.drop comp.daugNames.length) ∧
          r.1 = twoStageFitSpec fit kc kComp kTail ∧
          (fit.vertexFit kComp = FitResult.raise → r.1 = none) ∧
          (∀ t0, fit.vertexFit kComp = FitResult.tree t0 →
            (t0.isEmpty = true → r.1 = none) ∧
            (∀ c, kc = some c → fit.constrainedFit c t0 = FitResult.raise → r.1 = none) ∧
            (∀ c t1, kc = some c → fit.constrainedFit c t0 = FitResult.tree t1 →
              t1.isEmpty = true → r.1 = none) ∧
            (∀ t1, ((kc = none ∧ t1 = t0) ∨
                (∃ c, kc = some c ∧ fit.constrainedFit c t0 = FitResult.tree t1)) →
              kTail ≠ [] →
              (t1.topParticle.currentState.isValid = false → r.1 = none) ∧
              (fit.vertexFit (kTail ++ [t1.topParticle]) = FitResult.raise →
                r.1 = none))))) ∧
    (∃ r evs, kinematicTreeMT fit s name mkc = some r ∧
      r.2.oldFit = false ∧ r.2.kinTree = r.1 ∧
      r.2.trace = evs ++ Event.fitEntryMT name mkc :: s.trace ∧
      (r.2.allParticles.length ≠ s.cand.daughFull.length → r.1 = none) ∧
      (name ≠ "" → s.getComp name = none → r.1 = none) ∧
      (evs.any (Event.raised fit) = true → r.1 = none) ∧
      (r.2.allParticles.length = s.cand.daughFull.length →
        ∀ nf, (if name ≠ "" then (s.getComp name).map (fun comp => nfull name comp.daugNames)
          else some ["*"]) = some nf →
        ∃ kPart, (kinParticlesNames fit s nf).map Prod.fst = some kPart ∧
          r.1 = (match fit.constrainedVertexFit kPart mkc with
            | .tree t => some t
            | .raise => none))) := by
  constructor
  · obtain ⟨r, evs, e, hf, hu, -⟩ := kinematicTreeKC_spec fit s name kc hw hb
    refine ⟨r, evs, e, hf.oldFit, hf.kinTree, hf.trace, fun h => (hf.mismatch h).1,
      fun h1 h2 => (hu h1 h2).1, hf.raised, ?_⟩
    intro hlen hres
    have hcand : r.2.cand = s.cand := congrArg Prod.fst hf.sameInputs
    have hc : s.cand.trackCount = s.cand.daughFull.length := by
      rw [← hlen, hf.length, hcand]
    obtain ⟨kComp, kTail, t1, t2, t3⟩ := kinematicTreeKC_result fit s name kc hw hb hc hres
    rw [e, Option.map_some', Option.some.injEq] at t3
    refine ⟨kComp, kTail, t1, t2, t3, ?_⟩
    rw [t3]
    exact twoStageFitSpec_failure fit kc kComp kTail
  · obtain ⟨r, evs, e, hf, hu, -⟩ := kinematicTreeMT_spec fit s name mkc hw hb
    refine ⟨r, evs, e, hf.oldFit, hf.kinTree, hf.trace, fun h => (hf.mismatch h).1,
      fun h1 h2 => (hu h1 h2).1, hf.raised, ?_⟩
    intro hlen nf hnf
    have hcand : r.2.cand = s.cand := congrArg Prod.fst hf.sameInputs
    have hc : s.cand.trackCount = s.cand.daughFull.length := by
      rw [← hlen, hf.length, hcand]
    obtain ⟨kPart, t1, t2⟩ := kinematicTreeMT_result fit s name mkc hw hb hc nf hnf
    rw [e, Option.map_some', Option.some.injEq] at t2
    exact ⟨kPart, t1, t2⟩

/-- Witness of C4 on the sample candidate with the group `"JPsi"`. -/
theorem C4_cache_is_result_and_null_on_failure_witness :
    sampleCand.WellFormed ∧ sampleCand.ParticlesBuilt ∧
    (∃ r, kinematicTreeKC sampleFitters sampleCand "JPsi" none = some r ∧
      r.2.oldFit = false ∧ r.2.kinTree = r.1) ∧
    (∃ r, kinematicTreeMT sampleFitters sampleCand "JPsi" none = some r ∧
      r.2.oldFit = false ∧ r.2.kinTree = r.1) :=
  have h := C4_cache_is_result_and_null_on_failure sampleFitters sampleCand "JPsi" none none
    sampleCand_wellFormed sampleCand_particlesBuilt
  ⟨sampleCand_wellFormed, sampleCand_particlesBuilt,
    h.1.elim fun r h1 => h1.elim fun _ h2 => ⟨r, h2.1, h2.2.1, h2.2.2.1⟩,
    h.2.elim fun r h1 => h1.elim fun _ h2 => ⟨r, h2.1, h2.2.1, h2.2.2.1⟩⟩

/-! ## The fallback momentum after a fit with arguments -/

end BPH
